import Mathlib

/-!
# Rivit parser: a shallow embedding of `rivit.go`

A Go `string` is a finite sequence of bytes; it is modelled as `List Nat`
(each element a byte value).  Go `int` indices are natural numbers here: every
index the program computes is non-negative.  A Go run-time panic (slice or
index out of range) is the result `Res.panic`.

The functions of the Go standard library that the program calls
(`utf8.DecodeRuneInString`, `unicode.IsSpace`, `strings.TrimFunc`, ...) are
modelled after their library sources.  The Unicode tables `unicode.Latin` and
`unicode.Upper` are parameters `isLatin` and `isUpper`.
-/

namespace Rivit

/-- A Go string: its bytes. -/
abbrev Str := List Nat

/-- Outcome of running Go code: a value, a run-time panic, or the loop budget
of the model was exhausted. -/
inductive Res (α : Type) where
  | ok (a : α)
  | panic
  | timeout
deriving DecidableEq, Repr

/-! ## Go standard library -/

/-- The rune `utf8.RuneError`, U+FFFD. -/
def RuneError : Nat := 0xFFFD

/-- The table `first` of package `utf8`, size part: the width announced by the
lead byte `s0` (for `0xC2 <= s0 <= 0xF4`). -/
def firstSize (s0 : Nat) : Nat :=
  if s0 < 0xE0 then 2 else if s0 < 0xF0 then 3 else 4

/-- The table `acceptRanges` of package `utf8`, lower bound for the second
byte after the lead byte `s0`. -/
def acceptLo (s0 : Nat) : Nat :=
  if s0 = 0xE0 then 0xA0 else if s0 = 0xF0 then 0x90 else 0x80

/-- The table `acceptRanges` of package `utf8`, upper bound for the second
byte after the lead byte `s0`. -/
def acceptHi (s0 : Nat) : Nat :=
  if s0 = 0xED then 0x9F else if s0 = 0xF4 then 0x8F else 0xBF

/-- The multi-byte part of `utf8.DecodeRuneInString`, after the table lookup:
`n` is `len(s)`, `t` is `s[1:]`, `sz`, `lo`, `hi` come from the tables.  The
masks and shifts of the library are written with `%` and `*`:
`s0&mask2<<6 | s1&maskx` is `(s0 % 32) * 64 + s1 % 64`, and so on. -/
def decodeMulti (s0 sz lo hi n : Nat) (t : Str) : Nat × Nat :=
  if n < sz then (RuneError, 1)
  else
    match t with
    | [] => (RuneError, 1)
    | s1 :: t1 =>
      if s1 < lo || hi < s1 then (RuneError, 1)
      else if sz ≤ 2 then ((s0 % 32) * 64 + s1 % 64, 2)
      else
        match t1 with
        | [] => (RuneError, 1)
        | s2 :: t2 =>
          if s2 < 0x80 || 0xBF < s2 then (RuneError, 1)
          else if sz ≤ 3 then ((s0 % 16) * 4096 + (s1 % 64) * 64 + s2 % 64, 3)
          else
            match t2 with
            | [] => (RuneError, 1)
            | s3 :: _ =>
              if s3 < 0x80 || 0xBF < s3 then (RuneError, 1)
              else ((s0 % 8) * 262144 + (s1 % 64) * 4096 + (s2 % 64) * 64 + s3 % 64, 4)

/-- Go `utf8.DecodeRuneInString`: the first rune of `s` and its width in bytes.
An invalid or truncated encoding yields `(RuneError, 1)`, the empty string
`(RuneError, 0)`.  Bytes below `0x80` are ASCII; lead bytes outside
`0xC2..0xF4` are invalid (entry `xx` of the table `first`). -/
def DecodeRuneInString (s : Str) : Nat × Nat :=
  match s with
  | [] => (RuneError, 0)
  | s0 :: t =>
    if s0 < 0x80 then (s0, 1)
    else if s0 < 0xC2 || 0xF4 < s0 then (RuneError, 1)
    else decodeMulti s0 (firstSize s0) (acceptLo s0) (acceptHi s0) s.length t

/-- Go `utf8.RuneStart`: the byte is not a continuation byte. -/
def RuneStart (b : Nat) : Bool := !(0x80 ≤ b && b ≤ 0xBF)

/-- The backward search of `utf8.DecodeLastRuneInString`:
`for start--; start >= lim; start-- { if RuneStart(s[start]) { break } }`,
entered with `start` already decremented.  The result may be `lim - 1`. -/
def lastStartLoop (s : Str) (lim : Int) : Nat → Int → Int
  | 0, start => start
  | fuel + 1, start =>
    if start ≥ lim then
      if RuneStart (s.getD start.toNat 0) then start
      else lastStartLoop s lim fuel (start - 1)
    else start

/-- The start index that `utf8.DecodeLastRuneInString` settles on for a
non-empty `s` whose last byte is not ASCII: `lim = max(end - UTFMax, 0)`, the
backward search from `end - 2`, then `if start < 0 { start = 0 }`. -/
def lastStart (s : Str) : Nat :=
  let e : Int := s.length
  let lim : Int := if e - 4 < 0 then 0 else e - 4
  let start := lastStartLoop s lim 4 (e - 2)
  (if start < 0 then 0 else start).toNat

/-- Go `utf8.DecodeLastRuneInString`: the last rune of `s` and its width. -/
def DecodeLastRuneInString (s : Str) : Nat × Nat :=
  let e := s.length
  if e = 0 then (RuneError, 0)
  else
    let r := s.getD (e - 1) 0
    if r < 0x80 then (r, 1)
    else
      let start := lastStart s
      let rs := DecodeRuneInString ((s.take e).drop start)
      if start + rs.2 ≠ e then (RuneError, 1) else rs

/-- Go `unicode.IsSpace`: the Latin-1 cases of the library and, above Latin-1,
the `White_Space` table. -/
def IsSpace (r : Nat) : Bool :=
  if r ≤ 0xFF then
    r = 0x09 || r = 0x0A || r = 0x0B || r = 0x0C || r = 0x0D || r = 0x20
      || r = 0x85 || r = 0xA0
  else
    r = 0x1680 || (0x2000 ≤ r && r ≤ 0x200A) || r = 0x2028 || r = 0x2029
      || r = 0x202F || r = 0x205F || r = 0x3000

/-- The loop of `strings.TrimLeftFunc(s, unicode.IsSpace)`: drop leading runes
while they are white space.  `fuel` bounds the number of runes. -/
def trimLeftLoop : Nat → Str → Str
  | 0, s => s
  | fuel + 1, s =>
    match s with
    | [] => []
    | _ :: _ =>
      let rw := DecodeRuneInString s
      if IsSpace rw.1 then trimLeftLoop fuel (s.drop rw.2) else s

/-- Go `trimLeftSpace`, that is `strings.TrimLeftFunc(str, unicode.IsSpace)`. -/
def trimLeftSpace (str : Str) : Str := trimLeftLoop str.length str

/-- The loop of `strings.lastIndexFunc(s, unicode.IsSpace, false)`: the byte
index of the last rune that is not white space, `none` for the library's `-1`.
`i` is the length of the prefix still to inspect. -/
def lastIndexLoop (s : Str) : Nat → Nat → Option Nat
  | 0, _ => none
  | fuel + 1, i =>
    if 0 < i then
      let rs := DecodeLastRuneInString (s.take i)
      if IsSpace rs.1 then lastIndexLoop s fuel (i - rs.2) else some (i - rs.2)
    else none

/-- Go `trimRightSpace`, that is `strings.TrimRightFunc(str, unicode.IsSpace)`:
after `lastIndexFunc` the index is moved past the rune found there. -/
def trimRightSpace (str : Str) : Str :=
  match lastIndexLoop str (str.length + 1) str.length with
  | some i =>
    if str.getD i 0 ≥ 0x80 then str.take (i + (DecodeRuneInString (str.drop i)).2)
    else str.take (i + 1)
  | none => str.take 0

/-- Go `trimSpace`, that is `strings.TrimFunc(str, unicode.IsSpace)`, which is
`TrimRightFunc(TrimLeftFunc(s, f), f)`. -/
def trimSpace (str : Str) : Str := trimRightSpace (trimLeftSpace str)

/-- Go `strings.IndexRune(s, c)` for a rune `c` below `utf8.RuneSelf`: the
index of the first byte equal to `c`, `none` for `-1`. -/
def IndexRune (s : Str) (c : Nat) : Option Nat :=
  match s with
  | [] => none
  | b :: t => if b = c then some 0 else (IndexRune t c).map (· + 1)

/-- The conversion `[]rune(s)`: the runes of `s`, one `RuneError` for every byte
that starts no valid encoding.  `fuel` bounds the number of runes. -/
def runesLoop : Nat → Str → List Nat
  | 0, _ => []
  | fuel + 1, s =>
    match s with
    | [] => []
    | _ :: _ =>
      let rw := DecodeRuneInString s
      rw.1 :: runesLoop fuel (s.drop rw.2)

/-- The conversion `[]rune(s)`. -/
def runes (s : Str) : List Nat := runesLoop s.length s

/-- The UTF-8 encoding of one rune, as in the conversion `string(rune)`:
surrogates and values above U+10FFFF are encoded as U+FFFD. -/
def encodeRune (r : Nat) : Str :=
  if r < 0x80 then [r]
  else if r < 0x800 then [0xC0 + r / 64, 0x80 + r % 64]
  else if (0xD800 ≤ r && r ≤ 0xDFFF) || 0x10FFFF < r then [0xEF, 0xBF, 0xBD]
  else if r < 0x10000 then [0xE0 + r / 4096, 0x80 + (r / 64) % 64, 0x80 + r % 64]
  else [0xF0 + r / 262144, 0x80 + (r / 4096) % 64, 0x80 + (r / 64) % 64, 0x80 + r % 64]

/-- The conversion `string(rn)` of a rune slice. -/
def encodeRunes (rn : List Nat) : Str :=
  match rn with
  | [] => []
  | r :: t => encodeRune r ++ encodeRunes t

/-- The bytes of a string literal (its UTF-8 encoding), to write inputs. -/
def bytes (s : String) : Str := encodeRunes (s.data.map Char.toNat)

/-- A Go slice expression `s[lo:hi]` on a string: it panics unless
`lo <= hi <= len(s)`. -/
def slice (s : Str) (lo hi : Nat) : Res Str :=
  if lo ≤ hi ∧ hi ≤ s.length then .ok ((s.take hi).drop lo) else .panic

/-! ## Data model -/

/-- Go `TextStyle`. -/
inductive TextStyle where
  | StyleNone
  | StyleItalic
  | StyleBold
  | StyleMono
  | StyleInternalLink
  | StyleExternalLink
deriving DecidableEq, Repr

/-- Go `StyledText`; a field that the program leaves unset is the empty
string. -/
structure StyledText where
  Style : TextStyle
  Value : Str
  Link : Str
deriving DecidableEq, Repr

/-! ## The inline scanner `ParseStyledText` -/

/-- The scan loops of the italic, mono and link cases:
`for end < len(line) { if line[end] == c { end += 1; break }; end += 1 }`.
The result is the final `end`.  Every iteration increases `end`, so
`fuel = len(line)` iterations are never exceeded. -/
def scanByte (line : Str) (c : Nat) : Nat → Nat → Nat
  | 0, e => e
  | fuel + 1, e =>
    if e < line.length then
      if line.getD e 0 = c then e + 1 else scanByte line c fuel (e + 1)
    else e

/-- The scan loop of the bold case:
`for end < len(line) { if line[end] == c && (end+1 < len(line) && line[end+1] == c)
{ end += 2; break }; end += 1 }`. -/
def scanBold (line : Str) (c : Nat) : Nat → Nat → Nat
  | 0, e => e
  | fuel + 1, e =>
    if e < line.length then
      if line.getD e 0 = c && (e + 1 < line.length && line.getD (e + 1) 0 = c) then e + 2
      else scanBold line c fuel (e + 1)
    else e

/-- The statement `if len(text) != 0 { parsed = append(parsed, st) }`. -/
def appendIf (parsed : List StyledText) (text : Str) (st : StyledText) : List StyledText :=
  if text.length ≠ 0 then parsed ++ [st] else parsed

/-- The case `'*'` of `ParseStyledText` (italic, bold), entered at index `i`:
the new `i` and the new `parsed`. -/
def caseStar (line : Str) (i : Nat) (parsed : List StyledText) :
    Res (Nat × List StyledText) :=
  let start := i
  let e := i + 1
  if e < line.length && line.getD e 0 = 42 then
    let e := scanBold line 42 line.length (e + 1)
    match slice line (start + 2) (e - 2) with
    | .ok inner =>
      let text := trimSpace inner
      .ok (e, appendIf parsed text ⟨.StyleBold, text, []⟩)
    | .panic => .panic
    | .timeout => .timeout
  else
    let e := scanByte line 42 line.length e
    match slice line (start + 1) (e - 1) with
    | .ok inner =>
      let text := trimSpace inner
      .ok (e, appendIf parsed text ⟨.StyleItalic, text, []⟩)
    | .panic => .panic
    | .timeout => .timeout

/-- The case of the backquote (mono), entered at index `i`. -/
def caseMono (line : Str) (i : Nat) (parsed : List StyledText) :
    Res (Nat × List StyledText) :=
  let start := i
  let e := scanByte line 96 line.length (i + 1)
  match slice line (start + 1) (e - 1) with
  | .ok inner =>
    let text := trimSpace inner
    .ok (e, appendIf parsed text ⟨.StyleMono, text, []⟩)
  | .panic => .panic
  | .timeout => .timeout

/-- The case of an opening brace or bracket `c` (internal, external link),
entered at index `i`; the closing delimiter is `c + 2`. -/
def caseLink (line : Str) (c : Nat) (i : Nat) (parsed : List StyledText) :
    Res (Nat × List StyledText) :=
  let start := i
  let endDelim := c + 2
  let e := scanByte line endDelim line.length i
  match slice line (start + 1) (e - 1) with
  | .ok inner =>
    let link := trimSpace inner
    let lv : Str × Str :=
      match IndexRune link 32 with
      | some idx => (trimRightSpace (link.take idx), trimLeftSpace (link.drop idx))
      | none => (link, [])
    let style := if c = 91 then TextStyle.StyleExternalLink else TextStyle.StyleInternalLink
    .ok (e, appendIf parsed lv.1 ⟨style, lv.2, lv.1⟩)
  | .panic => .panic
  | .timeout => .timeout

/-- The loop `text_loop` of the default case, on the current `line` and `end`:
the line (the loop removes escaping backslashes from it) and the final `end`.
In the rune branch `rn[:end]` and `rn[end+1:]` index the rune slice with the
byte index `end`; `rn[end+1:]` panics when `end+1 > len(rn)` (and `rn[:end]`
can only panic then as well). -/
def textLoop : Nat → Str → Nat → Res (Str × Nat)
  | 0, _, _ => .timeout
  | fuel + 1, line, e =>
    if e < line.length then
      let b := line.getD e 0
      if b = 92 then
        if e + 1 < line.length then
          let cw := DecodeRuneInString (line.drop (e + 1))
          if cw.2 > 1 then
            let rn := runes line
            if e + 1 ≤ rn.length then
              textLoop fuel (encodeRunes (rn.take e ++ rn.drop (e + 1))) (e + cw.2)
            else .panic
          else if !IsSpace cw.1 then
            textLoop fuel (line.take e ++ line.drop (e + 1)) (e + cw.2)
          else textLoop fuel line (e + cw.2)
        else textLoop fuel line (e + 1)
      else if b = 42 || b = 123 || b = 91 || b = 96 then
        if e + 1 < line.length && !IsSpace (line.getD (e + 1) 0) then .ok (line, e)
        else textLoop fuel line (e + 1)
      else textLoop fuel line (e + 1)
    else .ok (line, e)

/-- The loop budget of the model for a line: an iteration of `text_loop` or of
the main loop advances its index, and the line grows at most threefold (when
an invalid byte is re-encoded as U+FFFD). -/
def budget (line : Str) : Nat := 3 * line.length + 4

/-- The default case of `ParseStyledText` (plain text, escapes), entered at
index `i`: the new line, the new `i` and the new `parsed`. -/
def caseText (line : Str) (i : Nat) (parsed : List StyledText) :
    Res (Str × Nat × List StyledText) :=
  match textLoop (budget line) line i with
  | .ok (line1, e) =>
    match slice line1 i e with
    | .ok text => .ok (line1, e, appendIf parsed text ⟨.StyleNone, text, []⟩)
    | .panic => .panic
    | .timeout => .timeout
  | .panic => .panic
  | .timeout => .timeout

/-- The main loop `for i < len(line)` of `ParseStyledText`. -/
def parseLoop : Nat → Str → Nat → List StyledText → Res (List StyledText)
  | 0, _, _, _ => .timeout
  | fuel + 1, line, i, parsed =>
    if i < line.length then
      let c := line.getD i 0
      if c = 42 then
        match caseStar line i parsed with
        | .ok (e, parsed1) => parseLoop fuel line e parsed1
        | .panic => .panic
        | .timeout => .timeout
      else if c = 96 then
        match caseMono line i parsed with
        | .ok (e, parsed1) => parseLoop fuel line e parsed1
        | .panic => .panic
        | .timeout => .timeout
      else if c = 123 || c = 91 then
        match caseLink line c i parsed with
        | .ok (e, parsed1) => parseLoop fuel line e parsed1
        | .panic => .panic
        | .timeout => .timeout
      else
        match caseText line i parsed with
        | .ok (line1, e, parsed1) => parseLoop fuel line1 e parsed1
        | .panic => .panic
        | .timeout => .timeout
    else .ok parsed

/-- Go `ParseStyledText`. -/
def ParseStyledText (line : Str) : Res (List StyledText) :=
  parseLoop (budget line) line 0 []

/-! ## The block scanner `Parse` -/

/-- Go `ListItem`. -/
inductive ListItem where
  | mk (Level : Nat) (Value : List StyledText) (Sublist : List ListItem)

/-- Field `Level`. -/
def ListItem.Level : ListItem → Nat
  | .mk l _ _ => l

/-- Field `Value`. -/
def ListItem.Value : ListItem → List StyledText
  | .mk _ v _ => v

/-- Field `Sublist`. -/
def ListItem.Sublist : ListItem → List ListItem
  | .mk _ _ s => s

mutual
/-- Decidable equality of list items. -/
def ListItem.decEq : (a b : ListItem) → Decidable (a = b)
  | .mk l1 v1 s1, .mk l2 v2 s2 =>
    if hl : l1 = l2 then
      if hv : v1 = v2 then
        match ListItem.decEqList s1 s2 with
        | isTrue hs => isTrue (by rw [hl, hv, hs])
        | isFalse hs => isFalse (by intro h; cases h; exact hs rfl)
      else isFalse (by intro h; cases h; exact hv rfl)
    else isFalse (by intro h; cases h; exact hl rfl)
/-- Decidable equality of lists of list items. -/
def ListItem.decEqList : (a b : List ListItem) → Decidable (a = b)
  | [], [] => isTrue rfl
  | [], _ :: _ => isFalse (by intro h; cases h)
  | _ :: _, [] => isFalse (by intro h; cases h)
  | a :: as, b :: bs =>
    match ListItem.decEq a b with
    | isTrue h1 =>
      match ListItem.decEqList as bs with
      | isTrue h2 => isTrue (by rw [h1, h2])
      | isFalse h2 => isFalse (by intro h; cases h; exact h2 rfl)
    | isFalse h1 => isFalse (by intro h; cases h; exact h1 rfl)
end

instance : DecidableEq ListItem := ListItem.decEq

/-- Go `Line`: the six kinds of line. -/
inductive Line where
  | Header (s : Str)
  | NavLink (s : Str)
  | Paragraph (p : List StyledText)
  | List (items : List ListItem)
  | Embed (Path : Str) (Alt : List StyledText)
  | Block (Indent : Nat) (Body : List Str)
deriving DecidableEq

/-- Go `strings.Split(src, "\n")`. -/
def Split (src : Str) : List Str :=
  match src with
  | [] => [[]]
  | b :: rest =>
    if b = 10 then [] :: Split rest
    else
      match Split rest with
      | [] => [[b]]
      | l :: ls => (b :: l) :: ls

/-- Go `countPrefix`: the number of leading bytes equal to `delim`.  The loop
ranges over the runes of `str`; as long as the byte at the start of a rune is
the ASCII byte `delim`, that rune is this one byte. -/
def countPrefix (str : Str) (delim : Nat) : Nat :=
  match str with
  | [] => 0
  | b :: t => if b ≠ delim then 0 else countPrefix t delim + 1

/-- A pointer to a list item of the list under construction: `&rootList[p]`
or `&rootList[p].Sublist[j]`. -/
inductive ItemPtr where
  | root (p : Nat)
  | sub (p j : Nat)
deriving DecidableEq, Repr

/-- The variables of the list case: `rootList`, `curParent` (always a pointer
`&rootList[curParent]`) and `curItem`. -/
structure ListState where
  rootList : List ListItem
  curParent : Nat
  curItem : ItemPtr

/-- Read through a pointer. -/
def getItem (rootList : List ListItem) : ItemPtr → Option ListItem
  | .root p => rootList.get? p
  | .sub p j =>
    match rootList.get? p with
    | some it => it.Sublist.get? j
    | none => none

/-- Write through a pointer: apply `f` to the item pointed to. -/
def modifyItem (rootList : List ListItem) (f : ListItem → ListItem) : ItemPtr → List ListItem
  | .root p => rootList.modify f p
  | .sub p j =>
    rootList.modify (fun it => .mk it.Level it.Value (it.Sublist.modify f j)) p

/-- The statement `x.Sublist = append(x.Sublist, ListItem{Level: sl})`. -/
def appendSub (sl : Nat) (it : ListItem) : ListItem :=
  .mk it.Level it.Value (it.Sublist ++ [.mk sl [] []])

/-- The statement `x.Value = v`. -/
def setValue (v : List StyledText) (it : ListItem) : ListItem :=
  .mk it.Level v it.Sublist

/-- The `switch sl` of `list_loop`: the new item is appended and `curItem`
re-pointed.  In the default case the index `len(curItem.Sublist)-1` is used on
`curParent.Sublist`, with Go's bounds check. -/
def listSwitch (st : ListState) (sl : Nat) : Res ListState :=
  if sl = 1 then
    let rootList := st.rootList ++ [.mk sl [] []]
    .ok ⟨rootList, rootList.length - 1, .root (rootList.length - 1)⟩
  else if sl = 2 then
    let rootList := modifyItem st.rootList (appendSub sl) (.root st.curParent)
    match getItem rootList (.root st.curParent) with
    | some par => .ok ⟨rootList, st.curParent, .sub st.curParent (par.Sublist.length - 1)⟩
    | none => .panic
  else
    let rootList := modifyItem st.rootList (appendSub sl) st.curItem
    match getItem rootList st.curItem, getItem rootList (.root st.curParent) with
    | some cur, some par =>
      let idx := cur.Sublist.length - 1
      if idx < par.Sublist.length then .ok ⟨rootList, st.curParent, .sub st.curParent idx⟩
      else .panic
    | _, _ => .panic

/-- The loop `list_loop` over the raw lines `lines[end:]`: the final state and
the lines from the final `end` on. -/
def listLoop (st : ListState) : List Str → Res (ListState × List Str)
  | [] => .ok (st, [])
  | l :: ls =>
    if l.length = 0 || l.getD 0 0 ≠ 45 then .ok (st, l :: ls)
    else
      let sl := countPrefix l 45
      if sl = 0 then .ok (st, l :: ls)
      else
        let text := trimLeftSpace (l.drop sl)
        if text.length = 0 then listLoop st ls
        else
          match listSwitch st sl with
          | .ok st1 =>
            match ParseStyledText text with
            | .ok v => listLoop ⟨modifyItem st1.rootList (setValue v) st1.curItem, st1.curParent, st1.curItem⟩ ls
            | .panic => .panic
            | .timeout => .timeout
          | .panic => .panic
          | .timeout => .timeout

/-- The loop `block_loop` over the raw lines `lines[end:]`: the number of lines
it passes. -/
def blockLoop (delim indent : Nat) : List Str → Nat
  | [] => 0
  | l :: ls => if countPrefix l delim < indent then 0 else blockLoop delim indent ls + 1

/-- The loop `header_loop`: the final `tmp` and `hadUpper`. -/
def headerLoop (isLatin isUpper : Nat → Bool) : Nat → Str → Bool → Str × Bool
  | 0, tmp, hadUpper => (tmp, hadUpper)
  | fuel + 1, tmp, hadUpper =>
    match tmp with
    | [] => (tmp, hadUpper)
    | _ :: _ =>
      let rw := DecodeRuneInString tmp
      if isLatin rw.1 then
        if isUpper rw.1 then headerLoop isLatin isUpper fuel (tmp.drop rw.2) true
        else (tmp, false)
      else headerLoop isLatin isUpper fuel (tmp.drop rw.2) hadUpper

/-- The embed case: the lines it appends to `parsed`. -/
def caseEmbed (line : Str) : Res (List Line) :=
  let line := trimLeftSpace (line.drop 1)
  let pa : Str × Str :=
    match IndexRune line 32 with
    | some idx => (line.take idx, trimLeftSpace (line.drop idx))
    | none => (line, [])
  if pa.1.length ≠ 0 then
    if pa.2.length ≠ 0 then
      match ParseStyledText pa.2 with
      | .ok alt => .ok [Line.Embed pa.1 alt]
      | .panic => .panic
      | .timeout => .timeout
    else .ok [Line.Embed pa.1 []]
  else .ok []

/-- The body of the main loop of `Parse`, one iteration: `rawLine` is
`lines[li]` and `rest` is `lines[li+1:]`.  The result is `lines[li:]` for the
new `li` and the new `parsed`; a `continue` returns `rest` and `parsed`. -/
def parseStep (isLatin isUpper : Nat → Bool) (rawLine : Str) (rest : List Str)
    (parsed : List Line) : Res (List Str × List Line) :=
  let line := trimRightSpace rawLine
  if line.length = 0 then .ok (rest, parsed)
  else
    let delim := line.getD 0 0
    if delim = 35 then .ok (rest, parsed)
    else if delim = 47 then
      let link := trimLeftSpace (line.drop 1)
      if link.length ≠ 0 then .ok (rest, parsed ++ [Line.NavLink link])
      else .ok (rest, parsed)
    else if delim = 64 then
      match caseEmbed line with
      | .ok ls => .ok (rest, parsed ++ ls)
      | .panic => .panic
      | .timeout => .timeout
    else if delim = 45 then
      let level := countPrefix line delim
      let line := trimLeftSpace (line.drop level)
      if line.length = 0 then .ok (rest, parsed)
      else
        match ParseStyledText line with
        | .ok v =>
          match listLoop ⟨[.mk level v []], 0, .root 0⟩ rest with
          | .ok (st, rest1) => .ok (rest1, parsed ++ [Line.List st.rootList])
          | .panic => .panic
          | .timeout => .timeout
        | .panic => .panic
        | .timeout => .timeout
    else if delim = 32 || delim = 9 then
      let indent := countPrefix line delim
      let n := blockLoop delim indent (rawLine :: rest)
      let body := (rawLine :: rest).take n
      if body.length ≠ 0 then
        .ok ((rawLine :: rest).drop n, parsed ++ [Line.Block indent body])
      else .ok ((rawLine :: rest).drop n, parsed)
    else
      let tu := headerLoop isLatin isUpper line.length line false
      if tu.1.length = 0 && tu.2 then .ok (rest, parsed ++ [Line.Header line])
      else
        match ParseStyledText line with
        | .ok p => .ok (rest, parsed ++ [Line.Paragraph p])
        | .panic => .panic
        | .timeout => .timeout

/-- The main loop `for li < len(lines)` of `Parse`; `lines` is `lines[li:]`.
Every iteration passes at least one line, so `fuel = len(lines)` iterations
are enough. -/
def parseMain (isLatin isUpper : Nat → Bool) :
    Nat → List Str → List Line → Res (List Line)
  | _, [], parsed => .ok parsed
  | 0, _ :: _, _ => .timeout
  | fuel + 1, rawLine :: rest, parsed =>
    match parseStep isLatin isUpper rawLine rest parsed with
    | .ok (rest1, parsed1) => parseMain isLatin isUpper fuel rest1 parsed1
    | .panic => .panic
    | .timeout => .timeout

/-- Go `Parse`. -/
def Parse (isLatin isUpper : Nat → Bool) (src : Str) : Res (List Line) :=
  let lines := Split src
  parseMain isLatin isUpper lines.length lines []

/-! ## Vocabulary of the claims -/

/-- The invariant of an emitted `StyledText`: a plain, italic, bold or mono run
has a non-empty `Value` and an empty `Link`; a link has a non-empty `Link`. -/
def GoodStyled (st : StyledText) : Prop :=
  match st.Style with
  | .StyleInternalLink => st.Link ≠ []
  | .StyleExternalLink => st.Link ≠ []
  | _ => st.Value ≠ [] ∧ st.Link = []

/-- The four bytes that open a styled run: star, opening brace, opening
bracket, backquote. -/
def isInlineDelim (b : Nat) : Bool := b = 42 || b = 123 || b = 91 || b = 96

/-- A line with its escapes applied, as the specification words it: scanning
left to right, a backslash followed by a byte that is not white space is
removed and that byte kept literally (it escapes nothing); a backslash followed
by white space and a backslash that is the last byte are kept. -/
def unescape : Str → Str
  | [] => []
  | [b] => [b]
  | b :: c :: rest =>
    if b = 92 then
      if IsSpace c then 92 :: c :: unescape rest else c :: unescape rest
    else b :: unescape (c :: rest)

/-- Every star, backquote, opening brace and opening bracket of the line stands
immediately after an escaping backslash. -/
def escapedOnly : Str → Bool
  | [] => true
  | [b] => !isInlineDelim b
  | b :: c :: rest =>
    if b = 92 then escapedOnly rest
    else !isInlineDelim b && escapedOnly (c :: rest)

/-- The string `u` is the white-space trim of `t`: `u` is a part of `t`, the
runes of `t` are white-space runes, then the runes of `u`, then white-space
runes, and `u` is empty or begins and ends with a rune that is not white
space. -/
def IsTrimOf (t u : Str) : Prop :=
  (∃ a b, t = a ++ u ++ b) ∧
  (∃ sa sb, runes t = sa ++ runes u ++ sb ∧
    (∀ r ∈ sa, IsSpace r = true) ∧ (∀ r ∈ sb, IsSpace r = true)) ∧
  (u = [] ∨ (IsSpace (DecodeRuneInString u).1 = false ∧
    IsSpace (DecodeLastRuneInString u).1 = false))

/-- The header condition of the specification on a line: every Latin-script
rune of the line is uppercase and the line has at least one Latin-script
rune.  The runes are those of the conversion to a rune slice. -/
def IsHeaderLine (isLatin isUpper : Nat → Bool) (l : Str) : Prop :=
  (∀ r ∈ runes l, isLatin r = true → isUpper r = true) ∧ (∃ r ∈ runes l, isLatin r = true)

/-- The first byte of the line is none of the delimiters of the block scanner:
hash, slash, at sign, dash, space, tab. -/
def noBlockDelim (l : Str) : Prop :=
  l.getD 0 0 ≠ 35 ∧ l.getD 0 0 ≠ 47 ∧ l.getD 0 0 ≠ 64 ∧ l.getD 0 0 ≠ 45 ∧
    l.getD 0 0 ≠ 32 ∧ l.getD 0 0 ≠ 9

/-- A tail of white space: it does not start with a continuation byte and all
its runes are white space. -/
def SpaceTail (tr : Str) : Prop :=
  (∀ y ∈ tr.head?, RuneStart y = true) ∧ ∀ r ∈ runes tr, IsSpace r = true

/-- The Latin-script runes of ASCII: a table to try `isLatin` with. -/
def asciiLatin (r : Nat) : Bool := (65 ≤ r && r ≤ 90) || (97 ≤ r && r ≤ 122)

/-- The uppercase runes of ASCII: a table to try `isUpper` with. -/
def asciiUpper (r : Nat) : Bool := 65 ≤ r && r ≤ 90

/-- A byte of inline syntax: star, backquote, opening brace, opening bracket or
backslash. -/
def isInlineByte (b : Nat) : Bool := isInlineDelim b || b = 92

/-- A paragraph line: its first byte is no delimiter of the block scanner and
it does not meet the header condition. -/
def IsParagraphLine (isLatin isUpper : Nat → Bool) (l : Str) : Prop :=
  noBlockDelim l ∧ ¬ IsHeaderLine isLatin isUpper l

/-- The paragraphs of plain lines: one paragraph of a single plain run for each
right-trimmed line that is not empty, in order. -/
def plainParagraphs (lines : List Str) : List Line :=
  ((lines.map trimRightSpace).filter (fun l => !l.isEmpty)).map
    (fun l => Line.Paragraph [⟨.StyleNone, l, []⟩])

/-- Go `strings.Join(lines, "\n")`: the source whose lines are `lines`. -/
def joinLines : List Str → Str
  | [] => []
  | [l] => l
  | l :: m :: ls => l ++ 10 :: joinLines (m :: ls)

/-- A raw line that continues neither a list nor an indented block: it is empty
or its first byte is none of dash, space, tab. -/
def notContinuation (y : Str) : Prop :=
  y = [] ∨ (y.getD 0 0 ≠ 45 ∧ y.getD 0 0 ≠ 32 ∧ y.getD 0 0 ≠ 9)

/-- The lines `ys` start at a construct boundary: there is no line, or the
first line continues neither a list nor an indented block. -/
def atBoundary (ys : List Str) : Prop :=
  match ys with
  | [] => True
  | y :: _ => notContinuation y

/-- An ASCII white space byte: tab, line feed, vertical tab, form feed, carriage
return or space. -/
def isAsciiSpace (b : Nat) : Bool :=
  b = 9 || b = 10 || b = 11 || b = 12 || b = 13 || b = 32

/-- Every star, backquote, opening brace and opening bracket of the line is its
last byte or is immediately followed by an ASCII white space byte. -/
def delimsBeforeSpace : Str → Bool
  | [] => true
  | [_] => true
  | b :: c :: rest => (!isInlineDelim b || isAsciiSpace c) && delimsBeforeSpace (c :: rest)

/-- The outputs of two runs of `Parse`, one after the other: the concatenation
of the two documents, and a failure as soon as one of the runs fails. -/
def concatRes (x y : Res (List Line)) : Res (List Line) :=
  match x with
  | .ok a =>
    match y with
    | .ok b => .ok (a ++ b)
    | .panic => .panic
    | .timeout => .timeout
  | .panic => .panic
  | .timeout => .timeout

/-- A line has non-empty content: a non-empty header or nav link string, a
paragraph with a styled run, an embed with a non-empty path, a block with a
non-empty body, a list with an item. -/
def nonEmptyContent : Line → Prop
  | .Header s => s ≠ []
  | .NavLink s => s ≠ []
  | .Paragraph p => p ≠ []
  | .List items => items ≠ []
  | .Embed path _ => path ≠ []
  | .Block _ body => body ≠ []

/-- A line is a paragraph. -/
def isParagraph : Line → Prop
  | .Paragraph _ => True
  | _ => False

/-- `Parse` on a source given by its lines: the main loop run on `lines`. -/
def parseLines (isLatin isUpper : Nat → Bool) (lines : List Str) : Res (List Line) :=
  parseMain isLatin isUpper lines.length lines []

/-- The item text of a list line: what follows its dashes, trimmed on the
left. -/
def itemText (l : Str) : Str := trimLeftSpace (l.drop (countPrefix l 45))

/-- The runs the inline scan returns on `t`, and none when it fails. -/
def scanValue (t : Str) : List StyledText :=
  match ParseStyledText t with
  | .ok v => v
  | _ => []

/-- The inline scan returns on `t`. -/
def scanReturns (t : Str) : Bool :=
  match ParseStyledText t with
  | .ok _ => true
  | _ => false

/-- A line of a two-level list: one or two leading dashes, a non-empty item
text, and an inline scan that returns on it. -/
def twoLevelLine (l : Str) : Bool :=
  (countPrefix l 45 == 1 || countPrefix l 45 == 2) && itemText l != [] && scanReturns (itemText l)

/-- The items of the two-dash lines at the head of `ls`, in order. -/
def subItems (ls : List Str) : List ListItem :=
  (ls.takeWhile (fun l => countPrefix l 45 == 2)).map
    (fun l => ListItem.mk 2 (scanValue (itemText l)) [])

/-- The two-level list of the lines `ls`: one item per one-dash line, with the
items of the two-dash lines that follow it, up to the next one-dash line, as
its sublist. -/
def topItems : List Str → List ListItem
  | [] => []
  | l :: ls =>
    if countPrefix l 45 = 1 then
      ListItem.mk 1 (scanValue (itemText l)) (subItems ls) :: topItems ls
    else topItems ls

/-- A third-level item: level at least 3 and no sublist. -/
def deepOK (z : ListItem) : Prop := 3 ≤ z.Level ∧ z.Sublist = []

/-- A second-level item: level at least 2, and third-level items below it. -/
def subOK (y : ListItem) : Prop := 2 ≤ y.Level ∧ ∀ z ∈ y.Sublist, deepOK z

/-- A top-level item: level at least 1, and second-level items below it. -/
def topOK (x : ListItem) : Prop := 1 ≤ x.Level ∧ ∀ y ∈ x.Sublist, subOK y

/-- The shape of a list under construction: top-level items after the first
have level 1, the items of their sublists have level at least 2, and the items
below those have level at least 3 and no sublist. -/
def levelsOK (items : List ListItem) : Prop :=
  (∀ x ∈ items, topOK x) ∧ ∀ x ∈ items.tail, x.Level = 1

mutual
/-- The levels of an item and of all the items below it. -/
def ListItem.levels : ListItem → List Nat
  | .mk l _ s => l :: levelsOf s
/-- The levels of all the items of a list, at every depth. -/
def levelsOf : List ListItem → List Nat
  | [] => []
  | x :: xs => x.levels ++ levelsOf xs
end

/-- A list line has item text: what follows its dashes is not only white
space. -/
def hasItemText (l : Str) : Bool := itemText l != []

/-- The dash count of a list line. -/
def dashCount (l : Str) : Nat := countPrefix l 45

/-- The list `items` was read from the list lines `first :: more`: the lines
start with a dash, the first item has the dash count of `first` as its level,
the shape is that of `levelsOK`, and the levels of all the items are, with
multiplicity, the dash count of `first` and the dash counts of the lines of
`more` that have item text. -/
def listOfLines (first : Str) (more : List Str) (items : List ListItem) : Prop :=
  (∀ l ∈ first :: more, l.head? = some 45) ∧
  items.head?.map ListItem.Level = some (dashCount first) ∧
  levelsOK items ∧
  List.Perm (levelsOf items) (dashCount first :: (more.filter hasItemText).map dashCount)

/-! ## Lemmas on the library functions and the scan loops -/

theorem getD_append_cons (pre : Str) (x : Nat) (rest : Str) (d : Nat) :
    (pre ++ x :: rest).getD pre.length d = x := by
  induction pre with
  | nil => simp
  | cons a pre ih => simpa using ih

theorem scanByte_found (c : Nat) (t : Str) :
    ∀ (pre rest : Str) (fuel : Nat), c ∉ t → t.length < fuel →
      scanByte (pre ++ t ++ c :: rest) c fuel pre.length = pre.length + t.length + 1 := by
  induction t with
  | nil =>
    intro pre rest fuel _ hf
    cases fuel with
    | zero => simp at hf
    | succ f =>
      simp only [List.append_nil, scanByte, getD_append_cons]
      simp
  | cons b t ih =>
    intro pre rest fuel hc hf
    cases fuel with
    | zero => simp at hf
    | succ f =>
      have hb : b ≠ c := fun h => hc (by simp [h])
      have hc2 : c ∉ t := fun h => hc (by simp [h])
      have h1 : pre ++ b :: t ++ c :: rest = (pre ++ [b]) ++ t ++ c :: rest := by simp
      have h2 : (pre ++ b :: t ++ c :: rest).getD pre.length 0 = b := by
        have := getD_append_cons pre b (t ++ c :: rest) 0
        simpa using this
      rw [scanByte, h2]
      have hlen : pre.length < (pre ++ b :: t ++ c :: rest).length := by simp
      rw [if_pos hlen, if_neg hb, h1]
      have := ih (pre ++ [b]) rest f hc2 (by simp at hf; omega)
      simp only [List.length_append, List.length_singleton] at this
      rw [this]; simp; omega

theorem scanByte_notfound (c : Nat) (t : Str) :
    ∀ (pre : Str) (fuel : Nat), c ∉ t → t.length ≤ fuel →
      scanByte (pre ++ t) c fuel pre.length = pre.length + t.length := by
  induction t with
  | nil =>
    intro pre fuel _ _
    cases fuel with
    | zero => simp [scanByte]
    | succ f => simp [scanByte]
  | cons b t ih =>
    intro pre fuel hc hf
    cases fuel with
    | zero => simp at hf
    | succ f =>
      have hb : b ≠ c := fun h => hc (by simp [h])
      have hc2 : c ∉ t := fun h => hc (by simp [h])
      have h1 : pre ++ b :: t = (pre ++ [b]) ++ t := by simp
      have h2 : (pre ++ b :: t).getD pre.length 0 = b := getD_append_cons pre b t 0
      rw [scanByte, h2]
      have hlen : pre.length < (pre ++ b :: t).length := by simp
      rw [if_pos hlen, if_neg hb, h1]
      have := ih (pre ++ [b]) f hc2 (by simp at hf; omega)
      simp only [List.length_append, List.length_singleton] at this
      rw [this]; simp; omega

theorem scanBold_found (c : Nat) (t : Str) :
    ∀ (pre rest : Str) (fuel : Nat), c ∉ t → t.length < fuel →
      scanBold (pre ++ t ++ c :: c :: rest) c fuel pre.length = pre.length + t.length + 2 := by
  induction t with
  | nil =>
    intro pre rest fuel _ hf
    cases fuel with
    | zero => simp at hf
    | succ f =>
      have h3 : (pre ++ c :: c :: rest).getD (pre.length + 1) 0 = c := by
        have := getD_append_cons (pre ++ [c]) c rest 0
        simpa using this
      simp only [List.append_nil, scanBold, getD_append_cons, h3]
      simp
  | cons b t ih =>
    intro pre rest fuel hc hf
    cases fuel with
    | zero => simp at hf
    | succ f =>
      have hb : b ≠ c := fun h => hc (by simp [h])
      have hc2 : c ∉ t := fun h => hc (by simp [h])
      have h1 : pre ++ b :: t ++ c :: c :: rest = (pre ++ [b]) ++ t ++ c :: c :: rest := by simp
      have h2 : (pre ++ b :: t ++ c :: c :: rest).getD pre.length 0 = b := by
        have := getD_append_cons pre b (t ++ c :: c :: rest) 0
        simpa using this
      rw [scanBold, h2]
      have hlen : pre.length < (pre ++ b :: t ++ c :: c :: rest).length := by simp
      rw [if_pos hlen]
      simp only [hb, decide_False, Bool.false_and, Bool.false_eq_true, if_false]
      rw [h1]
      have := ih (pre ++ [b]) rest f hc2 (by simp at hf; omega)
      simp only [List.length_append, List.length_singleton] at this
      rw [this]; simp; omega

theorem slice_mid (pre t rest : Str) (lo hi : Nat) (hlo : lo = pre.length)
    (hhi : hi = pre.length + t.length) :
    slice (pre ++ t ++ rest) lo hi = .ok t := by
  subst hlo hhi
  have h1 : List.take (pre.length + t.length) (pre ++ t ++ rest) = pre ++ t := by
    have := List.take_left (pre ++ t) rest
    simpa using this
  have h2 : List.drop pre.length (pre ++ t) = t := List.drop_left pre t
  simp only [slice, h1, h2]
  simp

theorem trimSpace_nil : trimSpace [] = [] := by decide

theorem getD_at {line p r : Str} {x e : Nat} (d : Nat)
    (hl : line = p ++ x :: r) (he : e = p.length) : line.getD e d = x := by
  subst hl he; exact getD_append_cons p x r d

theorem scanByte_at {line p t r : Str} {c e fuel : Nat}
    (hl : line = p ++ t ++ c :: r) (he : e = p.length) (hc : c ∉ t)
    (hf : t.length < fuel) : scanByte line c fuel e = e + t.length + 1 := by
  subst hl he; exact scanByte_found c t p r fuel hc hf

theorem scanByte_end {line p t : Str} {c e fuel : Nat}
    (hl : line = p ++ t) (he : e = p.length) (hc : c ∉ t)
    (hf : t.length ≤ fuel) : scanByte line c fuel e = e + t.length := by
  subst hl he; exact scanByte_notfound c t p fuel hc hf

theorem scanBold_at {line p t r : Str} {c e fuel : Nat}
    (hl : line = p ++ t ++ c :: c :: r) (he : e = p.length) (hc : c ∉ t)
    (hf : t.length < fuel) : scanBold line c fuel e = e + t.length + 2 := by
  subst hl he; exact scanBold_found c t p r fuel hc hf

theorem slice_at {line p t r : Str} {lo hi : Nat}
    (hl : line = p ++ t ++ r) (hlo : lo = p.length)
    (hhi : hi = p.length + t.length) : slice line lo hi = .ok t := by
  subst hl; exact slice_mid p t r lo hi hlo hhi

theorem parseLoop_done (fuel : Nat) (line : Str) (i : Nat) (parsed : List StyledText)
    (h : line.length ≤ i) : parseLoop (fuel + 1) line i parsed = .ok parsed := by
  rw [parseLoop, if_neg (by omega)]

theorem appendIf_pos {parsed : List StyledText} {text : Str} {st : StyledText}
    (h : text ≠ []) : appendIf parsed text st = parsed ++ [st] := by
  unfold appendIf
  rw [if_pos]
  intro h0; exact h (List.length_eq_zero.mp h0)

theorem appendIf_nil {parsed : List StyledText} {st : StyledText} :
    appendIf parsed [] st = parsed := by
  simp [appendIf]

/-- The italic case on a closed run `*t*` at index `|pre|`. -/
theorem caseStar_italic_closed (pre t rest : Str) (parsed : List StyledText)
    (h1 : 42 ∉ t) (ht : t ≠ []) :
    caseStar (pre ++ 42 :: (t ++ 42 :: rest)) pre.length parsed =
      .ok (pre.length + t.length + 2,
        appendIf parsed (trimSpace t) ⟨.StyleItalic, trimSpace t, []⟩) := by
  obtain ⟨b, t', rfl⟩ := List.exists_cons_of_ne_nil ht
  have hb : b ≠ 42 := fun h => h1 (by simp [h])
  generalize hline : pre ++ 42 :: (b :: t' ++ 42 :: rest) = line
  have hg : line.getD (pre.length + 1) 0 = b :=
    getD_at (p := pre ++ [42]) (r := t' ++ 42 :: rest) 0 (by simp [← hline]) (by simp)
  have hscan : scanByte line 42 line.length (pre.length + 1)
      = pre.length + 1 + (b :: t').length + 1 :=
    scanByte_at (p := pre ++ [42]) (r := rest) (by simp [← hline]) (by simp) h1
      (by simp [← hline]; omega)
  have hslice : slice line (pre.length + 1) (pre.length + 1 + (b :: t').length + 1 - 1)
      = .ok (b :: t') :=
    slice_at (p := pre ++ [42]) (r := 42 :: rest) (by simp [← hline]) (by simp)
      (by simp)
  unfold caseStar
  simp only [hg, hb, decide_False, Bool.and_false, Bool.false_eq_true, if_false, hscan, hslice]
  congr 2
  simp; omega

/-- The bold case on a closed run `**t**` at index `|pre|`. -/
theorem caseStar_bold_closed (pre t rest : Str) (parsed : List StyledText)
    (h1 : 42 ∉ t) :
    caseStar (pre ++ 42 :: 42 :: (t ++ 42 :: 42 :: rest)) pre.length parsed =
      .ok (pre.length + t.length + 4,
        appendIf parsed (trimSpace t) ⟨.StyleBold, trimSpace t, []⟩) := by
  generalize hline : pre ++ 42 :: 42 :: (t ++ 42 :: 42 :: rest) = line
  have hg : line.getD (pre.length + 1) 0 = 42 :=
    getD_at (p := pre ++ [42]) (r := t ++ 42 :: 42 :: rest) 0 (by simp [← hline]) (by simp)
  have hlen : pre.length + 1 < line.length := by simp [← hline]
  have hscan : scanBold line 42 line.length (pre.length + 1 + 1)
      = pre.length + 1 + 1 + t.length + 2 :=
    scanBold_at (p := pre ++ [42, 42]) (r := rest) (by simp [← hline]) (by simp) h1
      (by simp [← hline]; omega)
  have hslice : slice line (pre.length + 2) (pre.length + 1 + 1 + t.length + 2 - 2)
      = .ok t :=
    slice_at (p := pre ++ [42, 42]) (r := 42 :: 42 :: rest) (by simp [← hline]) (by simp)
      (by simp)
  unfold caseStar
  simp only [hg, hlen, decide_True, Bool.and_self, if_true, hscan, hslice]
  congr 2
  omega

/-- The mono case on a closed run at index `|pre|`. -/
theorem caseMono_closed (pre t rest : Str) (parsed : List StyledText)
    (h1 : 96 ∉ t) :
    caseMono (pre ++ 96 :: (t ++ 96 :: rest)) pre.length parsed =
      .ok (pre.length + t.length + 2,
        appendIf parsed (trimSpace t) ⟨.StyleMono, trimSpace t, []⟩) := by
  generalize hline : pre ++ 96 :: (t ++ 96 :: rest) = line
  have hscan : scanByte line 96 line.length (pre.length + 1)
      = pre.length + 1 + t.length + 1 :=
    scanByte_at (p := pre ++ [96]) (r := rest) (by simp [← hline]) (by simp) h1
      (by simp [← hline]; omega)
  have hslice : slice line (pre.length + 1) (pre.length + 1 + t.length + 1 - 1)
      = .ok t :=
    slice_at (p := pre ++ [96]) (r := 96 :: rest) (by simp [← hline]) (by simp)
      (by simp)
  unfold caseMono
  simp only [hscan, hslice]
  congr 2
  omega

/-- One iteration of the main loop at a `'*'`. -/
theorem parseLoop_star {fuel : Nat} {line : Str} {i : Nat} {parsed : List StyledText}
    (hi : i < line.length) (hc : line.getD i 0 = 42) :
    parseLoop (fuel + 1) line i parsed =
      match caseStar line i parsed with
      | .ok (e, parsed1) => parseLoop fuel line e parsed1
      | .panic => .panic
      | .timeout => .timeout := by
  rw [parseLoop, if_pos hi]
  simp only [hc, if_true]

/-- One iteration of the main loop at a backquote. -/
theorem parseLoop_mono {fuel : Nat} {line : Str} {i : Nat} {parsed : List StyledText}
    (hi : i < line.length) (hc : line.getD i 0 = 96) :
    parseLoop (fuel + 1) line i parsed =
      match caseMono line i parsed with
      | .ok (e, parsed1) => parseLoop fuel line e parsed1
      | .panic => .panic
      | .timeout => .timeout := by
  rw [parseLoop, if_pos hi]
  simp only [hc]
  rfl

theorem italic_closed (t : Str) (h1 : 42 ∉ t) (h2 : trimSpace t ≠ []) :
    ParseStyledText ([42] ++ t ++ [42]) = .ok [⟨.StyleItalic, trimSpace t, []⟩] := by
  have ht : t ≠ [] := fun h => h2 (by rw [h]; exact trimSpace_nil)
  have hcase := caseStar_italic_closed [] t [] [] h1 ht
  simp only [List.nil_append, List.length_nil] at hcase
  have hshape : [42] ++ t ++ [42] = 42 :: (t ++ [42]) := by simp
  rw [hshape]
  unfold ParseStyledText budget
  rw [parseLoop_star (by simp) (by simp), hcase]
  simp only
  rw [parseLoop_done _ _ _ _ (by simp), appendIf_pos h2]
  rfl

theorem bold_closed (t : Str) (h1 : 42 ∉ t) (h2 : trimSpace t ≠ []) :
    ParseStyledText ([42, 42] ++ t ++ [42, 42]) = .ok [⟨.StyleBold, trimSpace t, []⟩] := by
  have hcase := caseStar_bold_closed [] t [] [] h1
  simp only [List.nil_append, List.length_nil] at hcase
  have hshape : [42, 42] ++ t ++ [42, 42] = 42 :: 42 :: (t ++ [42, 42]) := by simp
  rw [hshape]
  unfold ParseStyledText budget
  rw [parseLoop_star (by simp) (by simp), hcase]
  simp only
  rw [parseLoop_done _ _ _ _ (by simp), appendIf_pos h2]
  rfl

theorem mono_closed (t : Str) (h1 : 96 ∉ t) (h2 : trimSpace t ≠ []) :
    ParseStyledText ([96] ++ t ++ [96]) = .ok [⟨.StyleMono, trimSpace t, []⟩] := by
  have hcase := caseMono_closed [] t [] [] h1
  simp only [List.nil_append, List.length_nil] at hcase
  have hshape : [96] ++ t ++ [96] = 96 :: (t ++ [96]) := by simp
  rw [hshape]
  unfold ParseStyledText budget
  rw [parseLoop_mono (by simp) (by simp), hcase]
  simp only
  rw [parseLoop_done _ _ _ _ (by simp), appendIf_pos h2]
  rfl

theorem decodeMulti_append (s0 sz lo hi : Nat) (t rest : Str)
    (h : (decodeMulti s0 sz lo hi (t.length + 1) t).1 ≠ RuneError) :
    decodeMulti s0 sz lo hi ((t ++ rest).length + 1) (t ++ rest)
      = decodeMulti s0 sz lo hi (t.length + 1) t := by
  rcases t with _ | ⟨s1, _ | ⟨s2, _ | ⟨s3, t3⟩⟩⟩
  · simp [decodeMulti] at h
  · simp only [decodeMulti, List.length_singleton, List.length_nil] at h
    simp only [decodeMulti, List.cons_append, List.nil_append, List.length_cons, List.length_nil]
    split_ifs at h ⊢ <;> first | rfl | (exfalso; simp at h; done) | (exfalso; omega)
  · simp only [decodeMulti, List.length_cons, List.length_nil] at h
    simp only [decodeMulti, List.cons_append, List.nil_append, List.length_cons, List.length_nil]
    split_ifs at h ⊢ <;> first | rfl | (exfalso; simp at h; done) | (exfalso; omega)
  · simp only [decodeMulti, List.length_cons] at h
    simp only [decodeMulti, List.cons_append, List.length_cons, List.length_append]
    split_ifs at h ⊢ <;> first | rfl | (exfalso; simp at h; done) | (exfalso; omega)

theorem decode_append (q rest : Str) (h : (DecodeRuneInString q).1 ≠ RuneError) :
    DecodeRuneInString (q ++ rest) = DecodeRuneInString q := by
  rcases q with _ | ⟨s0, t⟩
  · simp [DecodeRuneInString] at h
  · simp only [DecodeRuneInString, List.cons_append, List.length_cons] at h ⊢
    split_ifs at h ⊢
    · rfl
    · rfl
    · exact decodeMulti_append s0 _ _ _ t rest h

theorem decodeMulti_width (s0 sz lo hi : Nat) (t : Str) :
    1 ≤ (decodeMulti s0 sz lo hi (t.length + 1) t).2 ∧
      (decodeMulti s0 sz lo hi (t.length + 1) t).2 ≤ t.length + 1 := by
  rcases t with _ | ⟨s1, _ | ⟨s2, _ | ⟨s3, t3⟩⟩⟩ <;> simp only [decodeMulti] <;> split_ifs <;>
    first | omega | simp

theorem decode_width_pos (s : Str) (h : s ≠ []) : 1 ≤ (DecodeRuneInString s).2 := by
  rcases s with _ | ⟨s0, t⟩
  · exact absurd rfl h
  · simp only [DecodeRuneInString]
    split_ifs
    · simp
    · simp
    · exact (decodeMulti_width _ _ _ _ _).1

theorem decode_width_le (s : Str) : (DecodeRuneInString s).2 ≤ s.length := by
  rcases s with _ | ⟨s0, t⟩
  · simp [DecodeRuneInString]
  · simp only [DecodeRuneInString]
    split_ifs
    · simp
    · simp
    · exact (decodeMulti_width s0 (firstSize s0) (acceptLo s0) (acceptHi s0) t).2

theorem isSpace_runeError : IsSpace RuneError = false := by decide

/-- A last rune that is white space and spans the whole string is also the
first rune. -/
theorem decodeLast_whole (q : Str) (hq : q ≠ [])
    (hs : IsSpace (DecodeLastRuneInString q).1 = true)
    (hw : q.length ≤ (DecodeLastRuneInString q).2) :
    DecodeRuneInString q = DecodeLastRuneInString q := by
  have hlen : q.length ≠ 0 := fun h => hq (List.length_eq_zero.mp h)
  unfold DecodeLastRuneInString at hs hw ⊢
  simp only [hlen, if_false] at hs hw ⊢
  generalize lastStart q = st at hs hw ⊢
  split_ifs at hs hw ⊢ with h1 h2
  · -- ASCII last byte, width 1: the string is that byte
    simp only at hw
    have h1len : q.length = 1 := by omega
    obtain ⟨b, rfl⟩ := List.length_eq_one.mp h1len
    simp only [List.length_singleton, Nat.sub_self, List.getD_cons_zero] at h1 ⊢
    simp [DecodeRuneInString, h1]
  · rw [isSpace_runeError] at hs; exact absurd hs (by simp)
  · simp only at hw h2 ⊢
    have h0 : st = 0 := by
      simp only [ne_eq, not_not] at h2
      omega
    subst h0
    simp

theorem lastStartLoop_le (s : Str) (lim : Int) (fuel : Nat) (start : Int) :
    lastStartLoop s lim fuel start ≤ start := by
  induction fuel generalizing start with
  | zero => simp [lastStartLoop]
  | succ f ih =>
    simp only [lastStartLoop]
    split_ifs
    · exact le_refl _
    · have := ih (start - 1); omega
    · exact le_refl _

theorem lastStart_lt (q : Str) (hq : q ≠ []) : lastStart q < q.length := by
  have hlen : q.length ≠ 0 := fun h => hq (List.length_eq_zero.mp h)
  unfold lastStart
  simp only
  generalize hl : (if (q.length : Int) - 4 < 0 then (0 : Int) else (q.length : Int) - 4) = lim
  have := lastStartLoop_le q lim 4 ((q.length : Int) - 2)
  split_ifs <;> omega

theorem decodeLast_width (q : Str) (hq : q ≠ []) :
    1 ≤ (DecodeLastRuneInString q).2 ∧ (DecodeLastRuneInString q).2 ≤ q.length := by
  have hlen : q.length ≠ 0 := fun h => hq (List.length_eq_zero.mp h)
  have hst := lastStart_lt q hq
  unfold DecodeLastRuneInString
  simp only [hlen, if_false]
  generalize lastStart q = st at hst ⊢
  split_ifs with h1 h2
  · simp; omega
  · simp; omega
  · simp only [ne_eq, not_not] at h2
    omega

/-- The result of the left trim is empty or starts with a rune that is not
white space. -/
theorem trimLeftLoop_first (fuel : Nat) : ∀ s : Str, s.length ≤ fuel →
    trimLeftLoop fuel s = [] ∨ IsSpace (DecodeRuneInString (trimLeftLoop fuel s)).1 = false := by
  induction fuel with
  | zero =>
    intro s hs
    left
    have : s = [] := List.length_eq_zero.mp (by omega)
    subst this; rfl
  | succ f ih =>
    intro s hs
    rcases s with _ | ⟨b, t⟩
    · left; rfl
    · simp only [trimLeftLoop]
      split_ifs with h
      · apply ih
        have := decode_width_pos (b :: t) (by simp)
        simp only [List.length_drop, List.length_cons] at hs ⊢
        omega
      · right; simpa using h

theorem trimLeftSpace_first (s : Str) :
    trimLeftSpace s = [] ∨ IsSpace (DecodeRuneInString (trimLeftSpace s)).1 = false :=
  trimLeftLoop_first s.length s (le_refl _)

theorem trimRightSpace_is_take (p : Str) : ∃ k, trimRightSpace p = p.take k := by
  unfold trimRightSpace
  split
  · split_ifs
    · exact ⟨_, rfl⟩
    · exact ⟨_, rfl⟩
  · exact ⟨0, rfl⟩

theorem lastIndexLoop_some (p : Str) (hfirst : IsSpace (DecodeRuneInString p).1 = false)
    (fuel : Nat) : ∀ i, 0 < i → i ≤ p.length → i < fuel →
      ∃ j, lastIndexLoop p fuel i = some j ∧ j < p.length := by
  induction fuel with
  | zero => intro i _ _ h; omega
  | succ f ih =>
    intro i hi hip hif
    have hq : p.take i ≠ [] := by
      intro h
      have := congrArg List.length h
      simp only [List.length_take, List.length_drop, List.length_nil] at this
      omega
    have hw := decodeLast_width (p.take i) hq
    have hlen : (p.take i).length = i := by simp; omega
    rw [hlen] at hw
    simp only [lastIndexLoop, hi, if_true]
    split_ifs with hsp
    · by_cases h0 : i - (DecodeLastRuneInString (p.take i)).2 = 0
      · exfalso
        have hwhole := decodeLast_whole (p.take i) hq hsp (by rw [hlen]; omega)
        have hne : (DecodeRuneInString (p.take i)).1 ≠ RuneError := by
          intro he
          rw [hwhole] at he
          rw [he, isSpace_runeError] at hsp
          exact absurd hsp (by simp)
        have happ := decode_append (p.take i) (p.drop i) hne
        rw [List.take_append_drop] at happ
        rw [happ, hwhole, hsp] at hfirst
        exact absurd hfirst (by simp)
      · exact ih _ (by omega) (by omega) (by omega)
    · exact ⟨_, rfl, by omega⟩

/-- The right trim of a non-empty string whose first rune is not white space
is not empty. -/
theorem trimRightSpace_ne_nil (p : Str) (hp : p ≠ [])
    (hfirst : IsSpace (DecodeRuneInString p).1 = false) : trimRightSpace p ≠ [] := by
  have hlen : 0 < p.length := List.length_pos.mpr hp
  obtain ⟨j, hj, hjlt⟩ := lastIndexLoop_some p hfirst (p.length + 1) p.length hlen (le_refl _)
    (by omega)
  unfold trimRightSpace
  rw [hj]
  simp only
  have htake : ∀ k, 1 ≤ k → p.take k ≠ [] := by
    intro k hk h
    have := congrArg List.length h
    simp only [List.length_take, List.length_drop, List.length_nil] at this
    omega
  split_ifs
  · apply htake
    have := decode_width_pos (p.drop j) (by
      intro h
      have := congrArg List.length h
      simp only [List.length_take, List.length_drop, List.length_nil] at this
      omega)
    omega
  · exact htake _ (by omega)

theorem trimLeftSpace_cons_space (r : Str) : trimLeftSpace (32 :: r) = trimLeftSpace r := by
  simp [trimLeftSpace, trimLeftLoop, DecodeRuneInString, IsSpace]

theorem IndexRune_none {s : Str} {c : Nat} (h : c ∉ s) : IndexRune s c = none := by
  induction s with
  | nil => rfl
  | cons b t ih =>
    have hb : b ≠ c := fun e => h (by simp [e])
    have ht : c ∉ t := fun e => h (by simp [e])
    simp [IndexRune, hb, ih ht]

theorem IndexRune_first {l r : Str} {c : Nat} (h : c ∉ l) :
    IndexRune (l ++ c :: r) c = some l.length := by
  induction l with
  | nil => simp [IndexRune]
  | cons b t ih =>
    have hb : b ≠ c := fun e => h (by simp [e])
    have ht : c ∉ t := fun e => h (by simp [e])
    simp [IndexRune, hb, ih ht]

/-- In a trimmed string the part before the first space has a non-empty right
trim. -/
theorem trimSpace_before_space (s l r : Str) (h : trimSpace s = l ++ 32 :: r) :
    trimRightSpace l ≠ [] := by
  obtain ⟨k, hk⟩ := trimRightSpace_is_take (trimLeftSpace s)
  have hu : trimLeftSpace s = (l ++ 32 :: r) ++ (trimLeftSpace s).drop k := by
    have h2 : trimRightSpace (trimLeftSpace s) = l ++ 32 :: r := h
    rw [← h2, hk, List.take_append_drop]
  have hfirst : IsSpace (DecodeRuneInString (trimLeftSpace s)).1 = false := by
    rcases trimLeftSpace_first s with h0 | h0
    · rw [h0] at hu; simp at hu
    · exact h0
  have hl : l ≠ [] := by
    intro hl
    subst hl
    rw [hu] at hfirst
    simp [DecodeRuneInString, IsSpace] at hfirst
  have hfl : IsSpace (DecodeRuneInString l).1 = false := by
    by_contra hc
    have hc : IsSpace (DecodeRuneInString l).1 = true := by simpa using hc
    have hne : (DecodeRuneInString l).1 ≠ RuneError := by
      intro he
      rw [he, isSpace_runeError] at hc
      exact absurd hc (by simp)
    have happ := decode_append l (32 :: r ++ (trimLeftSpace s).drop k) hne
    have hu2 : trimLeftSpace s = l ++ (32 :: r ++ (trimLeftSpace s).drop k) :=
      hu.trans (by simp)
    rw [hu2, happ, hc] at hfirst
    exact absurd hfirst (by simp)
  exact trimRightSpace_ne_nil l hl hfl

/-- The link case on a closed link at index `|pre|`: the scan stops after the
closing delimiter and the inner content is `s`. -/
theorem caseLink_closed (c : Nat) (pre s rest : Str) (parsed : List StyledText)
    (h1 : c + 2 ∉ s) :
    caseLink (pre ++ c :: (s ++ (c + 2) :: rest)) c pre.length parsed =
      .ok (pre.length + s.length + 2,
        appendIf parsed
          (match IndexRune (trimSpace s) 32 with
            | some idx => (trimRightSpace ((trimSpace s).take idx),
                trimLeftSpace ((trimSpace s).drop idx))
            | none => (trimSpace s, [])).1
          ⟨if c = 91 then TextStyle.StyleExternalLink else TextStyle.StyleInternalLink,
            (match IndexRune (trimSpace s) 32 with
            | some idx => (trimRightSpace ((trimSpace s).take idx),
                trimLeftSpace ((trimSpace s).drop idx))
            | none => (trimSpace s, [])).2,
            (match IndexRune (trimSpace s) 32 with
            | some idx => (trimRightSpace ((trimSpace s).take idx),
                trimLeftSpace ((trimSpace s).drop idx))
            | none => (trimSpace s, [])).1⟩) := by
  generalize hline : pre ++ c :: (s ++ (c + 2) :: rest) = line
  have hcs : c + 2 ∉ c :: s := by
    intro h
    rcases List.mem_cons.mp h with h | h
    · omega
    · exact h1 h
  have hscan : scanByte line (c + 2) line.length pre.length
      = pre.length + (c :: s).length + 1 :=
    scanByte_at (p := pre) (t := c :: s) (r := rest) (by simp [← hline]) rfl hcs
      (by simp [← hline]; omega)
  have hslice : slice line (pre.length + 1) (pre.length + (c :: s).length + 1 - 1)
      = .ok s :=
    slice_at (p := pre ++ [c]) (r := (c + 2) :: rest) (by simp [← hline]) (by simp)
      (by simp; omega)
  unfold caseLink
  simp only [hscan, hslice]
  rfl

/-- One iteration of the main loop at an opening brace or bracket. -/
theorem parseLoop_link {fuel : Nat} {line : Str} {i c : Nat} {parsed : List StyledText}
    (hi : i < line.length) (hc : line.getD i 0 = c) (hc2 : c = 91 ∨ c = 123) :
    parseLoop (fuel + 1) line i parsed =
      match caseLink line c i parsed with
      | .ok (e, parsed1) => parseLoop fuel line e parsed1
      | .panic => .panic
      | .timeout => .timeout := by
  rw [parseLoop, if_pos hi]
  simp only [hc]
  rcases hc2 with h | h <;> subst h <;> rfl

theorem link_closed (c : Nat) (hc : c = 91 ∨ c = 123) (s : Str) (hs : c + 2 ∉ s) :
    ParseStyledText ([c] ++ s ++ [c + 2]) = .ok (appendIf []
          (match IndexRune (trimSpace s) 32 with
            | some idx => (trimRightSpace ((trimSpace s).take idx),
                trimLeftSpace ((trimSpace s).drop idx))
            | none => (trimSpace s, [])).1
          ⟨if c = 91 then TextStyle.StyleExternalLink else TextStyle.StyleInternalLink,
            (match IndexRune (trimSpace s) 32 with
            | some idx => (trimRightSpace ((trimSpace s).take idx),
                trimLeftSpace ((trimSpace s).drop idx))
            | none => (trimSpace s, [])).2,
            (match IndexRune (trimSpace s) 32 with
            | some idx => (trimRightSpace ((trimSpace s).take idx),
                trimLeftSpace ((trimSpace s).drop idx))
            | none => (trimSpace s, [])).1⟩) := by
  have hcase := caseLink_closed c [] s [] [] hs
  simp only [List.nil_append, List.length_nil] at hcase
  have hshape : [c] ++ s ++ [c + 2] = c :: (s ++ [c + 2]) := by simp
  rw [hshape]
  unfold ParseStyledText budget
  rw [parseLoop_link (c := c) (by simp) (by simp) hc, hcase]
  simp only
  rw [parseLoop_done _ _ _ _ (by simp)]

/-! ## Lemmas on runes and the right trim -/

theorem decode_ascii (c : Nat) (t : Str) (h : c < 128) : DecodeRuneInString (c :: t) = (c, 1) := by
  simp [DecodeRuneInString, h]

theorem acceptLo_ge (s0 : Nat) : 0x80 ≤ acceptLo s0 := by
  unfold acceptLo; split_ifs <;> omega

theorem acceptHi_le (s0 : Nat) : acceptHi s0 ≤ 0xBF := by
  unfold acceptHi; split_ifs <;> omega

theorem firstSize_le (s0 : Nat) : firstSize s0 ≤ 4 := by
  unfold firstSize; split_ifs <;> omega

theorem not_runeStart_iff (y : Nat) : RuneStart y = true ↔ (y < 0x80 ∨ 0xBF < y) := by
  unfold RuneStart
  simp only [Bool.not_eq_true', Bool.and_eq_false_iff, decide_eq_false_iff_not, not_le]

/-- Bytes that follow do not change a multi-byte decoding when the first of
them is not a continuation byte. -/
theorem decodeMulti_append_start (s0 sz lo hi : Nat) (t : Str) (y : Nat) (b : Str)
    (hlo : 0x80 ≤ lo) (hhi : hi ≤ 0xBF) (hsz : sz ≤ 4) (hy : y < 0x80 ∨ 0xBF < y) :
    decodeMulti s0 sz lo hi ((t ++ y :: b).length + 1) (t ++ y :: b)
      = decodeMulti s0 sz lo hi (t.length + 1) t := by
  rcases t with _ | ⟨s1, _ | ⟨s2, _ | ⟨s3, t3⟩⟩⟩
  · simp only [decodeMulti, List.nil_append, List.length_cons, List.length_nil]
    split_ifs <;> first | rfl | (exfalso; omega) | (exfalso; simp at *; omega)
  · simp only [decodeMulti, List.cons_append, List.nil_append, List.length_cons, List.length_nil]
    split_ifs <;> first | rfl | (exfalso; omega) | (exfalso; simp at *; omega)
  · simp only [decodeMulti, List.cons_append, List.nil_append, List.length_cons, List.length_nil]
    split_ifs <;> first | rfl | (exfalso; omega) | (exfalso; simp at *; omega)
  · simp only [decodeMulti, List.cons_append, List.length_cons, List.length_append]
    split_ifs <;> first | rfl | (exfalso; omega)

/-- Bytes that follow do not change the first rune of a non-empty string when
the first of them is not a continuation byte. -/
theorem decode_append_start (a b : Str) (ha : a ≠ [])
    (hb : ∀ y ∈ b.head?, RuneStart y = true) :
    DecodeRuneInString (a ++ b) = DecodeRuneInString a := by
  rcases b with _ | ⟨y, b⟩
  · simp
  · have hy := (not_runeStart_iff y).mp (hb y (by simp))
    rcases a with _ | ⟨s0, t⟩
    · exact absurd rfl ha
    · simp only [DecodeRuneInString, List.cons_append, List.length_cons]
      split_ifs
      · rfl
      · rfl
      · exact decodeMulti_append_start s0 _ _ _ t y b (acceptLo_ge s0) (acceptHi_le s0)
          (firstSize_le s0) hy

theorem runes_cons_step (b : Nat) (t : Str) (fuel : Nat) :
    runesLoop (fuel + 1) (b :: t) = (DecodeRuneInString (b :: t)).1 ::
      runesLoop fuel ((b :: t).drop (DecodeRuneInString (b :: t)).2) := by
  rw [runesLoop]

theorem runesLoop_fuel (n : Nat) : ∀ (s : Str) (f1 f2 : Nat), s.length ≤ n → s.length ≤ f1 →
    s.length ≤ f2 → runesLoop f1 s = runesLoop f2 s := by
  induction n with
  | zero =>
    intro s f1 f2 hn _ _
    have : s = [] := List.length_eq_zero.mp (by omega)
    subst this
    cases f1 <;> cases f2 <;> rfl
  | succ n ih =>
    intro s f1 f2 hn h1 h2
    rcases s with _ | ⟨b, t⟩
    · cases f1 <;> cases f2 <;> rfl
    · obtain ⟨g1, rfl⟩ : ∃ g, f1 = g + 1 := ⟨f1 - 1, by simp at h1; omega⟩
      obtain ⟨g2, rfl⟩ : ∃ g, f2 = g + 1 := ⟨f2 - 1, by simp at h2; omega⟩
      have hw := decode_width_pos (b :: t) (by simp)
      rw [runes_cons_step, runes_cons_step]
      congr 1
      apply ih <;> simp only [List.length_drop, List.length_cons] at hn h1 h2 ⊢ <;> omega

theorem runes_nil : runes [] = [] := rfl

theorem runes_step (s : Str) (hs : s ≠ []) :
    runes s = (DecodeRuneInString s).1 :: runes (s.drop (DecodeRuneInString s).2) := by
  rcases s with _ | ⟨b, t⟩
  · exact absurd rfl hs
  · have hw := decode_width_pos (b :: t) (by simp)
    unfold runes
    rw [List.length_cons, runes_cons_step]
    congr 1
    apply runesLoop_fuel _ _ _ _ (le_refl _) <;>
      simp only [List.length_drop, List.length_cons] <;> omega

/-- The runes of a concatenation whose second part does not start with a
continuation byte. -/
theorem runes_append (n : Nat) : ∀ (a b : Str), a.length ≤ n →
    (∀ y ∈ b.head?, RuneStart y = true) → runes (a ++ b) = runes a ++ runes b := by
  induction n with
  | zero =>
    intro a b hn _
    have : a = [] := List.length_eq_zero.mp (by omega)
    subst this
    simp [runes_nil]
  | succ n ih =>
    intro a b hn hb
    by_cases ha : a = []
    · subst ha; simp [runes_nil]
    · have hw := decode_width_pos a ha
      have hle := decode_width_le a
      rw [runes_step (a ++ b) (by simp [ha]), runes_step a ha, decode_append_start a b ha hb,
        List.drop_append_of_le_length hle, List.cons_append]
      congr 1
      exact ih _ b (by simp only [List.length_drop]; omega) hb

/-- The three outcomes of `DecodeLastRuneInString` on a non-empty string: the
last byte is ASCII; the result is the error rune of width 1; or the result is
the decoding of a suffix that it spans exactly. -/
theorem decodeLast_cases (q : Str) (hq : q ≠ []) :
    (q.getD (q.length - 1) 0 < 0x80 ∧
        DecodeLastRuneInString q = (q.getD (q.length - 1) 0, 1)) ∨
    (DecodeLastRuneInString q = (RuneError, 1)) ∨
    (∃ start, start < q.length ∧
        DecodeLastRuneInString q = DecodeRuneInString (q.drop start) ∧
        start + (DecodeRuneInString (q.drop start)).2 = q.length) := by
  have hlen : q.length ≠ 0 := fun h => hq (List.length_eq_zero.mp h)
  have hst := lastStart_lt q hq
  unfold DecodeLastRuneInString
  simp only [hlen, if_false, List.take_length]
  generalize lastStart q = st at hst ⊢
  split_ifs with h1 h2
  · exact Or.inl ⟨h1, rfl⟩
  · exact Or.inr (Or.inl rfl)
  · simp only [ne_eq, not_not] at h2
    exact Or.inr (Or.inr ⟨st, hst, rfl, h2⟩)

theorem spaceTail_nil : SpaceTail [] := by
  constructor
  · intro y hy; simp at hy
  · intro r hr; simp [runes_nil] at hr

theorem decode_head_runeStart (b : Nat) (t : Str)
    (h : (DecodeRuneInString (b :: t)).1 ≠ RuneError) : RuneStart b = true := by
  rw [not_runeStart_iff]
  simp only [DecodeRuneInString] at h
  split_ifs at h with h1 h2
  · exact Or.inl h1
  · exact absurd rfl h
  · simp only [Bool.or_eq_true, decide_eq_true_eq, not_or, not_lt] at h2
    right; omega

/-- A white space rune in front of a tail of white space. -/
theorem spaceTail_chunk (chunk tr : Str) (hc : chunk ≠ [])
    (hw : (DecodeRuneInString chunk).2 = chunk.length)
    (hs : IsSpace (DecodeRuneInString chunk).1 = true) (ht : SpaceTail tr) :
    SpaceTail (chunk ++ tr) := by
  have hne : (DecodeRuneInString chunk).1 ≠ RuneError := by
    intro he
    rw [he, isSpace_runeError] at hs
    exact absurd hs (by simp)
  constructor
  · intro y hy
    rcases chunk with _ | ⟨b, t⟩
    · exact absurd rfl hc
    · simp only [List.cons_append, List.head?_cons, Option.mem_def, Option.some.injEq] at hy
      subst hy
      exact decode_head_runeStart _ t hne
  · intro r hr
    rw [runes_step (chunk ++ tr) (by simp [hc]), decode_append chunk tr hne, hw,
      List.drop_left] at hr
    rcases List.mem_cons.mp hr with h | h
    · rw [h]; exact hs
    · exact ht.2 r h

theorem drop_eq_take_drop_append (s : Str) (k i : Nat) (hk : k ≤ i) (hi : i ≤ s.length) :
    s.drop k = (s.take i).drop k ++ s.drop i := by
  conv_lhs => rw [← List.take_append_drop i s]
  exact List.drop_append_of_le_length (by simp only [List.length_take]; omega)

theorem drop_eq_getD_cons (s : Str) (j : Nat) (hj : j < s.length) :
    s.drop j = s.getD j 0 :: s.drop (j + 1) := by
  induction s generalizing j with
  | nil => simp at hj
  | cons b t ih =>
    rcases j with _ | j
    · simp
    · simp only [List.drop_succ_cons, List.getD_cons_succ]
      exact ih j (by simp at hj; omega)

theorem getD_take (s : Str) (k i : Nat) (hk : k < i) : (s.take i).getD k 0 = s.getD k 0 := by
  induction s generalizing k i with
  | nil => simp
  | cons b t ih =>
    rcases i with _ | i
    · omega
    · rcases k with _ | k
      · simp
      · simp only [List.take_succ_cons, List.getD_cons_succ]
        exact ih k i (by omega)

theorem decode_single_high (x : Nat) (hx : 0x80 ≤ x) : DecodeRuneInString [x] = (RuneError, 1) := by
  simp only [DecodeRuneInString, List.length_singleton]
  split_ifs
  · omega
  · rfl
  · simp only [decodeMulti, firstSize]
    split_ifs <;> rfl

/-- The backward loop of the right trim, started behind a tail of white space:
it ends at the start of the string, all of which is white space, or at a last
rune that is not white space, with a tail of white space behind it. -/
theorem lastIndexLoop_inv (s : Str) (fuel : Nat) : ∀ i, i ≤ s.length → i < fuel →
    SpaceTail (s.drop i) →
    (lastIndexLoop s fuel i = none ∧ SpaceTail s) ∨
    (∃ i', i' ≤ s.length ∧ 0 < i' ∧ SpaceTail (s.drop i') ∧
      IsSpace (DecodeLastRuneInString (s.take i')).1 = false ∧
      lastIndexLoop s fuel i = some (i' - (DecodeLastRuneInString (s.take i')).2)) := by
  induction fuel with
  | zero => intro i _ h; omega
  | succ f ih =>
    intro i hi hf ht
    rw [lastIndexLoop]
    by_cases h0 : 0 < i
    · rw [if_pos h0]
      dsimp only
      have hq : s.take i ≠ [] := by
        intro h
        have := congrArg List.length h
        simp only [List.length_take, List.length_nil] at this
        omega
      have hqlen : (s.take i).length = i := by simp only [List.length_take]; omega
      have hw := decodeLast_width (s.take i) hq
      rw [hqlen] at hw
      by_cases hsp : IsSpace (DecodeLastRuneInString (s.take i)).1 = true
      · rw [if_pos hsp]
        apply ih _ (by omega) (by omega)
        rw [drop_eq_take_drop_append s _ i (Nat.sub_le _ _) hi]
        rcases decodeLast_cases (s.take i) hq with ⟨h1, h2⟩ | h2 | ⟨start, h1, h2, h3⟩
        · rw [h2] at hsp ⊢
          simp only at hsp ⊢
          rw [hqlen] at h1 hsp
          have hd : (s.take i).drop (i - 1) = [(s.take i).getD (i - 1) 0] := by
            rw [drop_eq_getD_cons _ _ (by rw [hqlen]; omega)]
            congr 1
            apply List.drop_eq_nil_of_le
            rw [hqlen]; omega
          rw [hd]
          have hdec := decode_ascii ((s.take i).getD (i - 1) 0) [] h1
          exact spaceTail_chunk _ _ (by simp) (by rw [hdec]; rfl) (by rw [hdec]; exact hsp) ht
        · rw [h2, isSpace_runeError] at hsp
          exact absurd hsp (by simp)
        · rw [hqlen] at h1 h3
          rw [h2] at hsp ⊢
          have hst : i - (DecodeRuneInString ((s.take i).drop start)).2 = start := by omega
          rw [hst]
          refine spaceTail_chunk _ _ ?_ ?_ hsp ht
          · intro h
            have := congrArg List.length h
            simp only [List.length_drop, hqlen, List.length_nil] at this
            omega
          · simp only [List.length_drop, hqlen]; omega
      · rw [if_neg hsp]
        exact Or.inr ⟨i, hi, h0, ht, by simpa using hsp, rfl⟩
    · rw [if_neg h0]
      have : i = 0 := by omega
      subst this
      exact Or.inl ⟨rfl, by simpa using ht⟩

/-- The right trim cuts a tail of white space off the string. -/
theorem trimRightSpace_split (s : Str) :
    ∃ tr, s = trimRightSpace s ++ tr ∧ SpaceTail tr := by
  have hinv := lastIndexLoop_inv s (s.length + 1) s.length (le_refl _) (by omega)
    (by rw [List.drop_length]; exact spaceTail_nil)
  unfold trimRightSpace
  rcases hinv with ⟨hn, hs⟩ | ⟨i, hi, h0, ht, hns, hsome⟩
  · rw [hn]
    exact ⟨s, by simp, hs⟩
  · rw [hsome]
    dsimp only
    have hq : s.take i ≠ [] := by
      intro h
      have := congrArg List.length h
      simp only [List.length_take, List.length_nil] at this
      omega
    have hqlen : (s.take i).length = i := by simp only [List.length_take]; omega
    have hw := decodeLast_width (s.take i) hq
    rw [hqlen] at hw
    refine ⟨s.drop i, ?_, ht⟩
    have hgoal : ∀ k, k = i → s = s.take k ++ s.drop i := by
      intro k hk; subst hk; exact (List.take_append_drop k s).symm
    rcases decodeLast_cases (s.take i) hq with ⟨h1, h2⟩ | h2 | ⟨start, h1, h2, h3⟩
    · -- the last rune is an ASCII byte
      rw [hqlen] at h1
      rw [h2]
      simp only
      have hg : s.getD (i - 1) 0 = (s.take i).getD (i - 1) 0 := (getD_take s _ i (by omega)).symm
      rw [hg, if_neg (by omega)]
      exact hgoal _ (by omega)
    · -- the last byte is invalid
      rw [h2]
      simp only
      split_ifs with hb
      · apply hgoal
        have hd : s.drop (i - 1) = [s.getD (i - 1) 0] ++ s.drop i := by
          rw [drop_eq_getD_cons s (i - 1) (by omega)]
          have : i - 1 + 1 = i := by omega
          rw [this]
          rfl
        rw [hd, decode_append_start _ _ (by simp) ht.1, decode_single_high _ hb]
        simp only
        omega
      · exact hgoal _ (by omega)
    · -- the last rune is the decoding of a suffix
      rw [hqlen] at h1 h3
      rw [h2]
      have hst : i - (DecodeRuneInString ((s.take i).drop start)).2 = start := by omega
      rw [hst]
      have hcne : (s.take i).drop start ≠ [] := by
        intro h
        have := congrArg List.length h
        simp only [List.length_drop, hqlen, List.length_nil] at this
        omega
      have hd : s.drop start = (s.take i).drop start ++ s.drop i :=
        drop_eq_take_drop_append s start i (by omega) hi
      split_ifs with hb
      · apply hgoal
        rw [hd, decode_append_start _ _ hcne ht.1]
        exact h3
      · apply hgoal
        have hhead : (s.take i).drop start = s.getD start 0 :: (s.take i).drop (start + 1) := by
          rw [drop_eq_getD_cons _ _ (by rw [hqlen]; exact h1), getD_take s start i h1]
        rw [hhead, decode_ascii _ _ (by omega)] at h3
        simp only at h3
        omega

/-- The runes of a string are those of its right trim followed by white space
runes. -/
theorem runes_trimRightSpace (s : Str) :
    ∃ sp, runes s = runes (trimRightSpace s) ++ sp ∧ ∀ r ∈ sp, IsSpace r = true := by
  obtain ⟨tr, h1, h2⟩ := trimRightSpace_split s
  refine ⟨runes tr, ?_, h2.2⟩
  conv_lhs => rw [h1]
  exact runes_append _ _ _ (le_refl _) h2.1

/-- When no white space rune is Latin, the header condition on a line is the
header condition on its right trim. -/
theorem isHeaderLine_trimRightSpace (isLatin isUpper : Nat → Bool)
    (hsp : ∀ r, IsSpace r = true → isLatin r = false) (s : Str) :
    IsHeaderLine isLatin isUpper (trimRightSpace s) ↔ IsHeaderLine isLatin isUpper s := by
  obtain ⟨sp, h1, h2⟩ := runes_trimRightSpace s
  unfold IsHeaderLine
  rw [h1]
  have hno : ∀ r ∈ sp, ¬ isLatin r = true := by
    intro r hr h
    rw [hsp r (h2 r hr)] at h
    exact absurd h (by simp)
  constructor
  · rintro ⟨ha, r, hr, hl⟩
    refine ⟨fun x hx hxl => ?_, r, List.mem_append_left _ hr, hl⟩
    rcases List.mem_append.mp hx with h | h
    · exact ha x h hxl
    · exact absurd hxl (hno x h)
  · rintro ⟨ha, r, hr, hl⟩
    refine ⟨fun x hx hxl => ha x (List.mem_append_left _ hx) hxl, r, ?_, hl⟩
    rcases List.mem_append.mp hr with h | h
    · exact h
    · exact absurd hl (hno r h)

/-- The right trim is empty or ends with a rune that is not white space. -/
theorem trimRightSpace_last (s : Str) :
    trimRightSpace s = [] ∨ IsSpace (DecodeLastRuneInString (trimRightSpace s)).1 = false := by
  have hinv := lastIndexLoop_inv s (s.length + 1) s.length (le_refl _) (by omega)
    (by rw [List.drop_length]; exact spaceTail_nil)
  unfold trimRightSpace
  rcases hinv with ⟨hn, hs⟩ | ⟨i, hi, h0, ht, hns, hsome⟩
  · rw [hn]
    exact Or.inl rfl
  · rw [hsome]
    dsimp only
    have hq : s.take i ≠ [] := by
      intro h
      have := congrArg List.length h
      simp only [List.length_take, List.length_nil] at this
      omega
    have hqlen : (s.take i).length = i := by simp only [List.length_take]; omega
    have hw := decodeLast_width (s.take i) hq
    rw [hqlen] at hw
    have hgoal : ∀ k, k = i →
        (s.take k = [] ∨ IsSpace (DecodeLastRuneInString (s.take k)).1 = false) := by
      intro k hk; subst hk; exact Or.inr hns
    rcases decodeLast_cases (s.take i) hq with ⟨h1, h2⟩ | h2 | ⟨start, h1, h2, h3⟩
    · -- the last rune is an ASCII byte
      rw [hqlen] at h1
      rw [h2]
      simp only
      have hg : s.getD (i - 1) 0 = (s.take i).getD (i - 1) 0 := (getD_take s _ i (by omega)).symm
      rw [hg, if_neg (by omega)]
      exact hgoal _ (by omega)
    · -- the last byte is invalid
      rw [h2]
      simp only
      split_ifs with hb
      · apply hgoal
        have hd : s.drop (i - 1) = [s.getD (i - 1) 0] ++ s.drop i := by
          rw [drop_eq_getD_cons s (i - 1) (by omega)]
          have : i - 1 + 1 = i := by omega
          rw [this]
          rfl
        rw [hd, decode_append_start _ _ (by simp) ht.1, decode_single_high _ hb]
        simp only
        omega
      · exact hgoal _ (by omega)
    · -- the last rune is the decoding of a suffix
      rw [hqlen] at h1 h3
      rw [h2]
      have hst : i - (DecodeRuneInString ((s.take i).drop start)).2 = start := by omega
      rw [hst]
      have hcne : (s.take i).drop start ≠ [] := by
        intro h
        have := congrArg List.length h
        simp only [List.length_drop, hqlen, List.length_nil] at this
        omega
      have hd : s.drop start = (s.take i).drop start ++ s.drop i :=
        drop_eq_take_drop_append s start i (by omega) hi
      split_ifs with hb
      · apply hgoal
        rw [hd, decode_append_start _ _ hcne ht.1]
        exact h3
      · apply hgoal
        have hhead : (s.take i).drop start = s.getD start 0 :: (s.take i).drop (start + 1) := by
          rw [drop_eq_getD_cons _ _ (by rw [hqlen]; exact h1), getD_take s start i h1]
        rw [hhead, decode_ascii _ _ (by omega)] at h3
        simp only at h3
        omega

theorem countPrefix_le_length (a : Str) (d : Nat) : countPrefix a d ≤ a.length := by
  induction a with
  | nil => simp [countPrefix]
  | cons x t ih =>
    simp only [countPrefix, List.length_cons]
    split_ifs <;> omega

theorem countPrefix_append (a b : Str) (d : Nat)
    (h : b = [] ∨ b.getD 0 0 ≠ d ∨ countPrefix a d < a.length) :
    countPrefix (a ++ b) d = countPrefix a d := by
  induction a with
  | nil =>
    rcases h with h | h | h
    · subst h; rfl
    · rcases b with _ | ⟨y, t⟩
      · rfl
      · simp only [List.getD_cons_zero] at h
        simp [countPrefix, h]
    · simp at h
  | cons x t ih =>
    simp only [List.cons_append, countPrefix]
    split_ifs with hx
    · rfl
    · congr 1
      apply ih
      rcases h with h | h | h
      · exact Or.inl h
      · exact Or.inr (Or.inl h)
      · right; right
        simp only [countPrefix, List.length_cons] at h
        rw [if_neg hx] at h
        omega

theorem getD_last_of_countPrefix (a : Str) (d : Nat) (ha : a ≠ [])
    (h : countPrefix a d = a.length) : a.getD (a.length - 1) 0 = d := by
  induction a with
  | nil => exact absurd rfl ha
  | cons x t ih =>
    simp only [countPrefix, List.length_cons] at h
    split_ifs at h with hx
    simp only [not_not] at hx
    rcases t with _ | ⟨y, t2⟩
    · simpa using hx
    · have := ih (by simp) (by omega)
      simpa using this

theorem decodeLast_ascii (a : Str) (ha : a ≠ []) (h : a.getD (a.length - 1) 0 < 128) :
    DecodeLastRuneInString a = (a.getD (a.length - 1) 0, 1) := by
  have hlen : a.length ≠ 0 := fun h0 => ha (List.length_eq_zero.mp h0)
  unfold DecodeLastRuneInString
  simp only [hlen, if_false]
  rw [if_pos h]

/-- A non-empty right trim does not consist of copies of one white space
byte. -/
theorem countPrefix_trimRightSpace_lt (raw : Str) (d : Nat) (hd : IsSpace d = true)
    (hd2 : d < 128) (hne : trimRightSpace raw ≠ []) :
    countPrefix (trimRightSpace raw) d < (trimRightSpace raw).length := by
  rcases Nat.lt_or_ge (countPrefix (trimRightSpace raw) d) (trimRightSpace raw).length with h | h
  · exact h
  · exfalso
    have heq : countPrefix (trimRightSpace raw) d = (trimRightSpace raw).length :=
      le_antisymm (countPrefix_le_length _ _) h
    have hlast := getD_last_of_countPrefix _ d hne heq
    have hdec := decodeLast_ascii (trimRightSpace raw) hne (by rw [hlast]; exact hd2)
    rcases trimRightSpace_last raw with h0 | h0
    · exact hne h0
    · rw [hdec, hlast] at h0
      simp only at h0
      rw [hd] at h0
      exact absurd h0 (by simp)

/-- The count of leading space or tab bytes of a line with a non-empty right
trim is that of its right trim. -/
theorem countPrefix_trimRightSpace (raw : Str) (d : Nat) (hd : IsSpace d = true) (hd2 : d < 128)
    (hne : trimRightSpace raw ≠ []) :
    countPrefix (trimRightSpace raw) d = countPrefix raw d := by
  obtain ⟨tr, h1, _⟩ := trimRightSpace_split raw
  conv_rhs => rw [h1]
  exact (countPrefix_append _ tr d
    (Or.inr (Or.inr (countPrefix_trimRightSpace_lt raw d hd hd2 hne)))).symm

/-- The count of leading bytes `d` of a line is that of its right trim when `d`
is not white space. -/
theorem countPrefix_trimRightSpace_of_not_space (raw : Str) (d : Nat) (hd : IsSpace d = false)
    (hd2 : d < 128) : countPrefix (trimRightSpace raw) d = countPrefix raw d := by
  obtain ⟨tr, h1, h2⟩ := trimRightSpace_split raw
  conv_rhs => rw [h1]
  symm
  apply countPrefix_append
  rcases tr with _ | ⟨y, t⟩
  · exact Or.inl rfl
  · right; left
    simp only [List.getD_cons_zero]
    intro hy
    subst hy
    have := h2.2 y (by rw [runes_step _ (by simp), decode_ascii y t hd2]; simp)
    rw [hd] at this
    exact absurd this (by simp)

/-! ## Lemmas on the inline scanner -/

/-- The left trim removes white-space runes from the front. -/
theorem trimLeftLoop_split (fuel : Nat) : ∀ s : Str,
    ∃ a sa, s = a ++ trimLeftLoop fuel s ∧ runes s = sa ++ runes (trimLeftLoop fuel s) ∧
      ∀ r ∈ sa, IsSpace r = true := by
  induction fuel with
  | zero => intro s; exact ⟨[], [], rfl, rfl, fun r hr => absurd hr (List.not_mem_nil _)⟩
  | succ f ih =>
    intro s
    rcases s with _ | ⟨b, t⟩
    · exact ⟨[], [], rfl, rfl, fun r hr => absurd hr (List.not_mem_nil _)⟩
    · unfold trimLeftLoop
      dsimp only
      split_ifs with hsp
      · obtain ⟨a, sa, h1, h2, h3⟩ := ih ((b :: t).drop (DecodeRuneInString (b :: t)).2)
        refine ⟨(b :: t).take (DecodeRuneInString (b :: t)).2 ++ a,
          (DecodeRuneInString (b :: t)).1 :: sa, ?_, ?_, ?_⟩
        · rw [List.append_assoc, ← h1, List.take_append_drop]
        · rw [runes_step (b :: t) (by simp), h2]
          rfl
        · intro r hr
          rcases List.mem_cons.mp hr with rfl | hr
          · exact hsp
          · exact h3 r hr
      · exact ⟨[], [], rfl, rfl, fun r hr => absurd hr (List.not_mem_nil _)⟩

/-- What `trimSpace` returns is the white-space trim of its argument. -/
theorem trimSpace_isTrimOf (t : Str) : IsTrimOf t (trimSpace t) := by
  obtain ⟨a, sa, h1, h2, h3⟩ := trimLeftLoop_split t.length t
  obtain ⟨b, h4, h5⟩ := trimRightSpace_split (trimLeftSpace t)
  obtain ⟨sp, h6, h7⟩ := runes_trimRightSpace (trimLeftSpace t)
  refine ⟨⟨a, b, ?_⟩, ⟨sa, sp, ?_, h3, h7⟩, ?_⟩
  · unfold trimSpace
    rw [List.append_assoc, ← h4]
    exact h1
  · unfold trimSpace
    rw [List.append_assoc, ← h6]
    exact h2
  · by_cases hu : trimSpace t = []
    · exact Or.inl hu
    · right
      have hs : trimLeftSpace t ≠ [] := by
        intro e
        apply hu
        unfold trimSpace
        rw [e]
        rfl
      refine ⟨?_, ?_⟩
      · have hf := (trimLeftSpace_first t).resolve_left hs
        have e1 := runes_step (trimLeftSpace t) hs
        have e2 := runes_step (trimSpace t) hu
        unfold trimSpace at e2 hu ⊢
        rw [h6, e2] at e1
        simp only [List.cons_append, List.cons.injEq] at e1
        rw [e1.1]
        exact hf
      · exact (trimRightSpace_last (trimLeftSpace t)).resolve_left hu

theorem appendIf_good {parsed : List StyledText} {text : Str} {st : StyledText}
    (hp : ∀ x ∈ parsed, GoodStyled x) (hst : text ≠ [] → GoodStyled st) :
    ∀ x ∈ appendIf parsed text st, GoodStyled x := by
  unfold appendIf
  split_ifs with h
  · intro x hx
    rcases List.mem_append.mp hx with hx | hx
    · exact hp x hx
    · rw [List.mem_singleton.mp hx]
      exact hst (fun h0 => h (by rw [h0]; rfl))
  · exact hp

theorem caseStar_good {line : Str} {i e : Nat} {parsed parsed1 : List StyledText}
    (hp : ∀ x ∈ parsed, GoodStyled x) (h : caseStar line i parsed = .ok (e, parsed1)) :
    ∀ x ∈ parsed1, GoodStyled x := by
  unfold caseStar at h
  simp only at h
  split_ifs at h
  · split at h
    · simp only [Res.ok.injEq, Prod.mk.injEq] at h
      rw [← h.2]
      exact appendIf_good hp (fun hne => ⟨hne, rfl⟩)
    · exact absurd h (by simp)
    · exact absurd h (by simp)
  · split at h
    · simp only [Res.ok.injEq, Prod.mk.injEq] at h
      rw [← h.2]
      exact appendIf_good hp (fun hne => ⟨hne, rfl⟩)
    · exact absurd h (by simp)
    · exact absurd h (by simp)

theorem caseMono_good {line : Str} {i e : Nat} {parsed parsed1 : List StyledText}
    (hp : ∀ x ∈ parsed, GoodStyled x) (h : caseMono line i parsed = .ok (e, parsed1)) :
    ∀ x ∈ parsed1, GoodStyled x := by
  unfold caseMono at h
  simp only at h
  split at h
  · simp only [Res.ok.injEq, Prod.mk.injEq] at h
    rw [← h.2]
    exact appendIf_good hp (fun hne => ⟨hne, rfl⟩)
  · exact absurd h (by simp)
  · exact absurd h (by simp)

theorem caseLink_good {line : Str} {c i e : Nat} {parsed parsed1 : List StyledText}
    (hp : ∀ x ∈ parsed, GoodStyled x) (h : caseLink line c i parsed = .ok (e, parsed1)) :
    ∀ x ∈ parsed1, GoodStyled x := by
  unfold caseLink at h
  simp only at h
  split at h
  · simp only [Res.ok.injEq, Prod.mk.injEq] at h
    rw [← h.2]
    apply appendIf_good hp
    intro hne
    unfold GoodStyled
    split_ifs <;> exact hne
  · exact absurd h (by simp)
  · exact absurd h (by simp)

theorem caseText_good {line line1 : Str} {i e : Nat} {parsed parsed1 : List StyledText}
    (hp : ∀ x ∈ parsed, GoodStyled x) (h : caseText line i parsed = .ok (line1, e, parsed1)) :
    ∀ x ∈ parsed1, GoodStyled x := by
  unfold caseText at h
  split at h
  · split at h
    · simp only [Res.ok.injEq, Prod.mk.injEq] at h
      rw [← h.2.2]
      exact appendIf_good hp (fun hne => ⟨hne, rfl⟩)
    · exact absurd h (by simp)
    · exact absurd h (by simp)
  · exact absurd h (by simp)
  · exact absurd h (by simp)

theorem parseLoop_good (fuel : Nat) : ∀ (line : Str) (i : Nat) (parsed r : List StyledText),
    (∀ x ∈ parsed, GoodStyled x) → parseLoop fuel line i parsed = .ok r →
    ∀ x ∈ r, GoodStyled x := by
  induction fuel with
  | zero => intro line i parsed r _ h; simp [parseLoop] at h
  | succ f ih =>
    intro line i parsed r hp h
    rw [parseLoop] at h
    dsimp only at h
    split_ifs at h
    · split at h
      · rename_i e parsed1 hc
        exact ih _ _ _ _ (caseStar_good hp hc) h
      · exact absurd h (by simp)
      · exact absurd h (by simp)
    · split at h
      · rename_i e parsed1 hc
        exact ih _ _ _ _ (caseMono_good hp hc) h
      · exact absurd h (by simp)
      · exact absurd h (by simp)
    · split at h
      · rename_i e parsed1 hc
        exact ih _ _ _ _ (caseLink_good hp hc) h
      · exact absurd h (by simp)
      · exact absurd h (by simp)
    · split at h
      · rename_i line1 e parsed1 hc
        exact ih _ _ _ _ (caseText_good hp hc) h
      · exact absurd h (by simp)
      · exact absurd h (by simp)
    · simp only [Res.ok.injEq] at h
      rw [← h]; exact hp

theorem textLoop_succ (fuel : Nat) (line : Str) (e : Nat) :
    textLoop (fuel + 1) line e =
    if e < line.length then
      if line.getD e 0 = 92 then
        if e + 1 < line.length then
          if (DecodeRuneInString (line.drop (e + 1))).2 > 1 then
            if e + 1 ≤ (runes line).length then
              textLoop fuel (encodeRunes ((runes line).take e ++ (runes line).drop (e + 1)))
                (e + (DecodeRuneInString (line.drop (e + 1))).2)
            else .panic
          else if !IsSpace (DecodeRuneInString (line.drop (e + 1))).1 then
            textLoop fuel (line.take e ++ line.drop (e + 1))
              (e + (DecodeRuneInString (line.drop (e + 1))).2)
          else textLoop fuel line (e + (DecodeRuneInString (line.drop (e + 1))).2)
        else textLoop fuel line (e + 1)
      else if line.getD e 0 = 42 || line.getD e 0 = 123 || line.getD e 0 = 91
          || line.getD e 0 = 96 then
        if e + 1 < line.length && !IsSpace (line.getD (e + 1) 0) then .ok (line, e)
        else textLoop fuel line (e + 1)
      else textLoop fuel line (e + 1)
    else .ok (line, e) := by
  rw [textLoop]

/-- A step of `text_loop` over a byte that is neither a backslash nor a
delimiter. -/
theorem textLoop_plain (fuel : Nat) (p r : Str) (b : Nat) (hb : b ≠ 92)
    (hd : isInlineDelim b = false) :
    textLoop (fuel + 1) (p ++ b :: r) p.length = textLoop fuel ((p ++ [b]) ++ r) (p ++ [b]).length := by
  have hg : (p ++ b :: r).getD p.length 0 = b := getD_append_cons p b r 0
  have hlen : p.length < (p ++ b :: r).length := by simp
  rw [textLoop_succ, if_pos hlen, hg, if_neg hb]
  simp only [isInlineDelim] at hd
  rw [if_neg (by simpa using hd)]
  simp

/-- `text_loop` on an ASCII line whose delimiters are all escaped: it runs to
the end of the line and leaves the line with its escapes applied. -/
theorem textLoop_unescape (n : Nat) : ∀ (p r : Str) (fuel : Nat), r.length ≤ n →
    (∀ b ∈ r, b < 128) → escapedOnly r = true → r.length < fuel →
    textLoop fuel (p ++ r) p.length = .ok (p ++ unescape r, (p ++ unescape r).length) := by
  induction n with
  | zero =>
    intro p r fuel hn _ _ hf
    have : r = [] := List.length_eq_zero.mp (by omega)
    subst this
    obtain ⟨f, rfl⟩ : ∃ f, fuel = f + 1 := ⟨fuel - 1, by simp at hf; omega⟩
    rw [textLoop_succ, if_neg (by simp)]
    simp [unescape]
  | succ n ih =>
    intro p r fuel hn hascii hesc hf
    rcases r with _ | ⟨b, _ | ⟨c, rest⟩⟩
    · exact ih p [] fuel (by simp) hascii hesc hf
    · -- one byte left
      obtain ⟨f, rfl⟩ : ∃ f, fuel = f + 1 + 1 := ⟨fuel - 2, by simp at hf; omega⟩
      have hd : isInlineDelim b = false := by simpa [escapedOnly] using hesc
      have hfin : textLoop (f + 1) ((p ++ [b]) ++ []) (p ++ [b]).length
          = .ok (p ++ [b], (p ++ [b]).length) := by
        rw [textLoop_succ, if_neg (by simp)]
        simp
      by_cases hb : b = 92
      · subst hb
        have hg : (p ++ [92]).getD p.length 0 = 92 := getD_append_cons p 92 [] 0
        rw [textLoop_succ, if_pos (by simp), hg, if_pos rfl, if_neg (by simp)]
        simpa [unescape] using hfin
      · rw [textLoop_plain _ _ _ _ hb hd]
        simpa [unescape] using hfin
    · obtain ⟨f, rfl⟩ : ∃ f, fuel = f + 1 + 1 := ⟨fuel - 2, by simp at hf; omega⟩
      have hc : c < 128 := hascii c (by simp)
      have hrest : ∀ x ∈ rest, x < 128 := fun x hx => hascii x (by simp [hx])
      by_cases hb : b = 92
      · subst hb
        have hesc2 : escapedOnly rest = true := by simpa [escapedOnly] using hesc
        have hg : (p ++ 92 :: c :: rest).getD p.length 0 = 92 := getD_append_cons p 92 _ 0
        have hdrop : (p ++ 92 :: c :: rest).drop (p.length + 1) = c :: rest := by
          simp
        rw [textLoop_succ, if_pos (by simp), hg, if_pos rfl, if_pos (by simp), hdrop,
          decode_ascii c rest hc]
        simp only [gt_iff_lt, lt_self_iff_false, if_false]
        by_cases hsp : IsSpace c = true
        · -- the backslash stays; the white space byte is scanned next
          have hcd : isInlineDelim c = false := by
            revert hsp
            simp only [isInlineDelim, IsSpace]
            split_ifs <;> simp <;> omega
          have hc92 : c ≠ 92 := by
            intro h; subst h; revert hsp; decide
          have h1 : p ++ 92 :: c :: rest = (p ++ [92]) ++ c :: rest := by simp
          have h2 : p.length + 1 = (p ++ [92]).length := by simp
          simp only [hsp, Bool.not_true, Bool.false_eq_true, if_false]
          rw [h1, h2, textLoop_plain _ _ _ _ hc92 hcd]
          have := ih ((p ++ [92]) ++ [c]) rest f (by simp at hn; omega) hrest hesc2
            (by simp at hf; omega)
          rw [this]
          simp [unescape, hsp]
        · -- the backslash is removed
          have htake : (p ++ 92 :: c :: rest).take p.length ++ (c :: rest) = (p ++ [c]) ++ rest := by
            simp
          have h2 : p.length + 1 = (p ++ [c]).length := by simp
          simp only [hsp, Bool.not_false, if_true]
          rw [htake, h2]
          have := ih (p ++ [c]) rest (f + 1) (by simp at hn; omega) hrest hesc2
            (by simp at hf; omega)
          rw [this]
          simp [unescape, hsp]
      · have hesc1 : isInlineDelim b = false ∧ escapedOnly (c :: rest) = true := by
          simpa [escapedOnly, hb] using hesc
        rw [textLoop_plain _ _ _ _ hb hesc1.1]
        have := ih (p ++ [b]) (c :: rest) (f + 1) (by simp at hn ⊢; omega)
          (fun x hx => hascii x (by simp at hx ⊢; tauto)) hesc1.2 (by simp at hf ⊢; omega)
        rw [this]
        simp [unescape, hb]

theorem unescape_ne_nil (r : Str) (h : r ≠ []) : unescape r ≠ [] := by
  rcases r with _ | ⟨b, _ | ⟨c, rest⟩⟩
  · exact absurd rfl h
  · simp [unescape]
  · simp only [unescape]
    split_ifs <;> simp

theorem unescape_length_le (n : Nat) : ∀ r : Str, r.length ≤ n → (unescape r).length ≤ r.length := by
  induction n with
  | zero => intro r h; have : r = [] := List.length_eq_zero.mp (by omega); subst this; simp [unescape]
  | succ n ih =>
    intro r h
    rcases r with _ | ⟨b, _ | ⟨c, rest⟩⟩
    · simp [unescape]
    · simp [unescape]
    · simp only [unescape]
      have h1 := ih rest (by simp at h; omega)
      have h2 := ih (c :: rest) (by simp at h ⊢; omega)
      split_ifs <;> simp at h2 ⊢ <;> omega

/-- One iteration of the main loop in the default case. -/
theorem parseLoop_text {fuel : Nat} {line : Str} {i : Nat} {parsed : List StyledText}
    (hi : i < line.length) (hc : isInlineDelim (line.getD i 0) = false) :
    parseLoop (fuel + 1) line i parsed =
      match caseText line i parsed with
      | .ok (line1, e, parsed1) => parseLoop fuel line1 e parsed1
      | .panic => .panic
      | .timeout => .timeout := by
  rw [parseLoop, if_pos hi]
  simp only [isInlineDelim, Bool.or_eq_false_iff, decide_eq_false_iff_not] at hc
  obtain ⟨⟨⟨h1, h2⟩, h3⟩, h4⟩ := hc
  simp only [h1, h2, h3, h4, if_false, decide_False, Bool.or_self, Bool.false_eq_true]

theorem ParseStyledText_unescape (line : Str) (hne : line ≠ []) (hascii : ∀ b ∈ line, b < 128)
    (hesc : escapedOnly line = true) :
    ParseStyledText line = .ok [⟨.StyleNone, unescape line, []⟩] := by
  have hfirst : isInlineDelim (line.getD 0 0) = false := by
    rcases line with _ | ⟨b, _ | ⟨c, rest⟩⟩
    · exact absurd rfl hne
    · simpa [escapedOnly] using hesc
    · by_cases hb : b = 92
      · subst hb; rfl
      · simp only [escapedOnly, hb, if_false, Bool.and_eq_true, Bool.not_eq_true'] at hesc
        simpa using hesc.1
  have htl := textLoop_unescape line.length [] line (budget line) (le_refl _) hascii hesc
    (by unfold budget; omega)
  simp only [List.nil_append, List.length_nil] at htl
  have hcase : caseText line 0 [] = .ok (unescape line, (unescape line).length,
      [⟨.StyleNone, unescape line, []⟩]) := by
    unfold caseText
    rw [htl]
    simp only
    have hs : slice (unescape line) 0 (unescape line).length = .ok (unescape line) := by
      simp [slice]
    rw [hs]
    simp only
    rw [appendIf_pos (unescape_ne_nil line hne)]
    rfl
  unfold ParseStyledText budget
  rw [parseLoop_text (List.length_pos.mpr hne) hfirst, hcase]
  simp only
  exact parseLoop_done _ _ _ _ (le_refl _)

theorem isSpace_of_isAsciiSpace (c : Nat) (h : isAsciiSpace c = true) : IsSpace c = true := by
  unfold isAsciiSpace at h
  unfold IsSpace
  simp only [Bool.or_eq_true, decide_eq_true_eq] at h
  rcases h with ((((h | h) | h) | h) | h) | h <;> subst h <;> decide

/-- A step of `text_loop` over a delimiter that is the last byte of the line or
stands before white space: the delimiter is plain text. -/
theorem textLoop_delim_skip (fuel : Nat) (p r : Str) (b : Nat) (hb : b ≠ 92)
    (hr : r = [] ∨ IsSpace (r.getD 0 0) = true) :
    textLoop (fuel + 1) (p ++ b :: r) p.length
      = textLoop fuel ((p ++ [b]) ++ r) (p ++ [b]).length := by
  have hg : (p ++ b :: r).getD p.length 0 = b := getD_append_cons p b r 0
  have hlen : p.length < (p ++ b :: r).length := by simp
  have hnext : (p.length + 1 < (p ++ b :: r).length
      && !IsSpace ((p ++ b :: r).getD (p.length + 1) 0)) = false := by
    rcases hr with h | h
    · subst h; simp
    · rcases r with _ | ⟨c, t⟩
      · simp
      · have hg2 : (p ++ b :: c :: t).getD (p.length + 1) 0 = c := by
          have := getD_append_cons (p ++ [b]) c t 0
          simpa using this
        simp only [List.getD_cons_zero] at h
        rw [hg2, h]
        simp
  rw [textLoop_succ, if_pos hlen, hg, if_neg hb, hnext]
  simp

/-- `text_loop` runs to the end of a line without backslash whose delimiters
all stand at the end of the line or before ASCII white space. -/
theorem textLoop_delims_plain (n : Nat) : ∀ (p r : Str) (fuel : Nat), r.length ≤ n →
    92 ∉ r → delimsBeforeSpace r = true → r.length < fuel →
    textLoop fuel (p ++ r) p.length = .ok (p ++ r, (p ++ r).length) := by
  induction n with
  | zero =>
    intro p r fuel hn _ _ hf
    have : r = [] := List.length_eq_zero.mp (by omega)
    subst this
    obtain ⟨f, rfl⟩ : ∃ f, fuel = f + 1 := ⟨fuel - 1, by simp at hf; omega⟩
    rw [textLoop_succ, if_neg (by simp)]
    simp
  | succ n ih =>
    intro p r fuel hn h92 hd hf
    rcases r with _ | ⟨b, r⟩
    · exact ih p [] fuel (by simp) h92 hd hf
    · obtain ⟨f, rfl⟩ : ∃ f, fuel = f + 1 := ⟨fuel - 1, by simp at hf; omega⟩
      have hb : b ≠ 92 := fun e => h92 (by simp [e])
      have h92r : 92 ∉ r := fun e => h92 (by simp [e])
      have hdr : delimsBeforeSpace r = true := by
        rcases r with _ | ⟨c, t⟩
        · rfl
        · simp only [delimsBeforeSpace, Bool.and_eq_true] at hd
          exact hd.2
      have hstep : textLoop (f + 1) (p ++ b :: r) p.length
          = textLoop f ((p ++ [b]) ++ r) (p ++ [b]).length := by
        by_cases hdel : isInlineDelim b = true
        · apply textLoop_delim_skip _ _ _ _ hb
          rcases r with _ | ⟨c, t⟩
          · exact Or.inl rfl
          · right
            simp only [delimsBeforeSpace, Bool.and_eq_true, Bool.or_eq_true, hdel,
              Bool.not_true, Bool.false_eq_true, false_or] at hd
            exact isSpace_of_isAsciiSpace c hd.1
        · exact textLoop_plain _ _ _ _ hb (by simpa using hdel)
      rw [hstep, ih (p ++ [b]) r f (by simp at hn; omega) h92r hdr (by simp at hf; omega)]
      simp

/-! ## Lemmas on the block scanner -/

theorem Split_no_newline (l : Str) (h : 10 ∉ l) : Split l = [l] := by
  induction l with
  | nil => rfl
  | cons b t ih =>
    have hb : b ≠ 10 := fun e => h (by simp [e])
    have ht : 10 ∉ t := fun e => h (by simp [e])
    simp [Split, hb, ih ht]

/-- The loop `header_loop` ends at the end of the line with `hadUpper` set
exactly when every Latin rune met is uppercase and a Latin rune was met (or
`hadUpper` was set at the start). -/
theorem headerLoop_spec (isLatin isUpper : Nat → Bool) (fuel : Nat) :
    ∀ (tmp : Str) (h : Bool), tmp.length ≤ fuel →
      (((headerLoop isLatin isUpper fuel tmp h).1 = [] ∧
          (headerLoop isLatin isUpper fuel tmp h).2 = true) ↔
        ((∀ r ∈ runesLoop fuel tmp, isLatin r = true → isUpper r = true) ∧
          (h = true ∨ ∃ r ∈ runesLoop fuel tmp, isLatin r = true))) := by
  induction fuel with
  | zero =>
    intro tmp h hl
    have : tmp = [] := List.length_eq_zero.mp (by omega)
    subst this
    simp [headerLoop, runesLoop]
  | succ f ih =>
    intro tmp h hl
    rcases tmp with _ | ⟨b, t⟩
    · simp [headerLoop, runesLoop]
    · have hw := decode_width_pos (b :: t) (by simp)
      have hlen : ((b :: t).drop (DecodeRuneInString (b :: t)).2).length ≤ f := by
        simp only [List.length_drop, List.length_cons] at hl ⊢
        omega
      simp only [headerLoop, runesLoop]
      by_cases hL : isLatin (DecodeRuneInString (b :: t)).1 = true
      · by_cases hU : isUpper (DecodeRuneInString (b :: t)).1 = true
        · simp only [hL, hU, if_true]
          rw [ih _ true hlen]
          simp [hL, hU]
        · simp only [hL, hU, if_true, if_false]
          constructor
          · intro h2
            exact absurd h2.2 (by simp)
          · intro hall
            exact absurd (hall.1 _ (List.mem_cons_self _ _) hL) hU
      · rw [if_neg hL, ih _ h hlen]
        simp [hL]

theorem trimRightSpace_getD_zero (l : Str) (h : trimRightSpace l ≠ []) :
    (trimRightSpace l).getD 0 0 = l.getD 0 0 := by
  obtain ⟨k, hk⟩ := trimRightSpace_is_take l
  rw [hk] at h ⊢
  rcases l with _ | ⟨b, t⟩
  · simp
  · rcases k with _ | k
    · simp at h
    · simp

theorem parseMain_nil (isLatin isUpper : Nat → Bool) (f : Nat) (parsed : List Line) :
    parseMain isLatin isUpper f [] parsed = .ok parsed := by
  cases f <;> rfl

theorem parseMain_succ (isLatin isUpper : Nat → Bool) (f : Nat) (raw : Str) (rest : List Str)
    (parsed : List Line) :
    parseMain isLatin isUpper (f + 1) (raw :: rest) parsed =
      match parseStep isLatin isUpper raw rest parsed with
      | .ok (rest1, parsed1) => parseMain isLatin isUpper f rest1 parsed1
      | .panic => .panic
      | .timeout => .timeout := by
  rw [parseMain]

/-- One iteration of the main loop of `Parse` on a line that trims to the
empty string. -/
theorem parseStep_blank (isLatin isUpper : Nat → Bool) (raw : Str) (rest : List Str)
    (parsed : List Line) (h : trimRightSpace raw = []) :
    parseStep isLatin isUpper raw rest parsed = .ok (rest, parsed) := by
  unfold parseStep
  simp [h]

theorem parseMain_blank (isLatin isUpper : Nat → Bool) (f : Nat) (raw : Str) (rest : List Str)
    (parsed : List Line) (h : trimRightSpace raw = []) :
    parseMain isLatin isUpper (f + 1) (raw :: rest) parsed
      = parseMain isLatin isUpper f rest parsed := by
  rw [parseMain_succ, parseStep_blank _ _ _ _ _ h]

/-- One iteration of the main loop of `Parse` in the default case. -/
theorem parseMain_default (isLatin isUpper : Nat → Bool) (f : Nat) (raw : Str) (rest : List Str)
    (parsed : List Line) (hne : trimRightSpace raw ≠ [])
    (hd : noBlockDelim (trimRightSpace raw)) :
    parseMain isLatin isUpper (f + 1) (raw :: rest) parsed =
      if ((headerLoop isLatin isUpper (trimRightSpace raw).length (trimRightSpace raw) false).1.length = 0
          && (headerLoop isLatin isUpper (trimRightSpace raw).length (trimRightSpace raw) false).2) = true
      then parseMain isLatin isUpper f rest (parsed ++ [Line.Header (trimRightSpace raw)])
      else
        match ParseStyledText (trimRightSpace raw) with
        | .ok p => parseMain isLatin isUpper f rest (parsed ++ [Line.Paragraph p])
        | .panic => .panic
        | .timeout => .timeout := by
  obtain ⟨h1, h2, h3, h4, h5, h6⟩ := hd
  have hlen : (trimRightSpace raw).length ≠ 0 := fun h => hne (List.length_eq_zero.mp h)
  rw [parseMain_succ]
  unfold parseStep
  simp only [hlen, h1, h2, h3, h4, h5, h6, if_false, decide_False, Bool.or_self,
    Bool.false_eq_true]
  split_ifs
  · rfl
  · generalize ParseStyledText (trimRightSpace raw) = res
    cases res <;> rfl

/-- The header test of `Parse` on a trimmed line is the header condition. -/
theorem header_test_iff (isLatin isUpper : Nat → Bool) (l : Str) :
    (((headerLoop isLatin isUpper l.length l false).1.length = 0
        && (headerLoop isLatin isUpper l.length l false).2) = true) ↔
      IsHeaderLine isLatin isUpper l := by
  have h := headerLoop_spec isLatin isUpper l.length l false (le_refl _)
  unfold IsHeaderLine runes
  simp only [Bool.and_eq_true, decide_eq_true_eq, List.length_eq_zero]
  rw [h]
  simp

theorem asciiLatin_not_space (r : Nat) (h : IsSpace r = true) : asciiLatin r = false := by
  unfold IsSpace at h
  unfold asciiLatin
  split_ifs at h <;> simp at h ⊢ <;> omega

/-- `text_loop` runs to the end of a line without inline bytes and leaves the
line as it is. -/
theorem textLoop_plain_run (r : Str) : ∀ (p : Str) (fuel : Nat),
    (∀ b ∈ r, isInlineByte b = false) → r.length < fuel →
    textLoop fuel (p ++ r) p.length = .ok (p ++ r, (p ++ r).length) := by
  induction r with
  | nil =>
    intro p fuel _ hf
    obtain ⟨f, rfl⟩ : ∃ f, fuel = f + 1 := ⟨fuel - 1, by simp at hf; omega⟩
    rw [textLoop_succ, if_neg (by simp)]
    simp
  | cons b t ih =>
    intro p fuel hr hf
    obtain ⟨f, rfl⟩ : ∃ f, fuel = f + 1 := ⟨fuel - 1, by simp at hf; omega⟩
    have hb := hr b (by simp)
    simp only [isInlineByte, Bool.or_eq_false_iff, decide_eq_false_iff_not] at hb
    rw [textLoop_plain _ _ _ _ hb.2 hb.1]
    have := ih (p ++ [b]) f (fun x hx => hr x (by simp [hx])) (by simp at hf; omega)
    rw [this]
    simp

/-- The inline scan of a non-empty line without inline bytes is the single
plain run holding the line. -/
theorem ParseStyledText_plain (l : Str) (hne : l ≠ []) (hl : ∀ b ∈ l, isInlineByte b = false) :
    ParseStyledText l = .ok [⟨.StyleNone, l, []⟩] := by
  have hfirst : isInlineDelim (l.getD 0 0) = false := by
    rcases l with _ | ⟨b, t⟩
    · exact absurd rfl hne
    · have hb := hl b (by simp)
      simp only [isInlineByte, Bool.or_eq_false_iff] at hb
      simpa using hb.1
  have htl := textLoop_plain_run l [] (budget l) hl (by unfold budget; omega)
  simp only [List.nil_append, List.length_nil] at htl
  have hcase : caseText l 0 [] = .ok (l, l.length, [⟨.StyleNone, l, []⟩]) := by
    unfold caseText
    rw [htl]
    simp only
    have hs : slice l 0 l.length = .ok l := by simp [slice]
    rw [hs]
    simp only
    rw [appendIf_pos hne]
    rfl
  unfold ParseStyledText budget
  rw [parseLoop_text (List.length_pos.mpr hne) hfirst, hcase]
  simp only
  exact parseLoop_done _ _ _ _ (le_refl _)

theorem mem_of_mem_Split (src : Str) : ∀ l ∈ Split src, ∀ b ∈ l, b ∈ src := by
  induction src with
  | nil => intro l hl b hb; simp [Split] at hl; subst hl; simp at hb
  | cons c t ih =>
    intro l hl b hb
    simp only [Split] at hl
    split_ifs at hl with hc
    · rcases List.mem_cons.mp hl with h | h
      · subst h; simp at hb
      · exact List.mem_cons_of_mem _ (ih l h b hb)
    · split at hl
      · simp at hl; subst hl; simp at hb; subst hb; simp
      · rename_i l0 ls heq
        rcases List.mem_cons.mp hl with h | h
        · subst h
          rcases List.mem_cons.mp hb with h2 | h2
          · subst h2; simp
          · exact List.mem_cons_of_mem _ (ih l0 (by rw [heq]; simp) b h2)
        · exact List.mem_cons_of_mem _ (ih l (by rw [heq]; simp [h]) b hb)

theorem mem_trimRightSpace (l : Str) : ∀ b ∈ trimRightSpace l, b ∈ l := by
  obtain ⟨k, hk⟩ := trimRightSpace_is_take l
  rw [hk]
  intro b hb
  exact List.mem_of_mem_take hb

/-- The main loop of `Parse` on lines without inline bytes, each of which trims
to the empty string or is a paragraph line. -/
theorem parseMain_plain (isLatin isUpper : Nat → Bool) (lines : List Str) :
    ∀ parsed : List Line,
    (∀ l ∈ lines, (∀ b ∈ l, isInlineByte b = false) ∧
      (trimRightSpace l = [] ∨ IsParagraphLine isLatin isUpper (trimRightSpace l))) →
    parseMain isLatin isUpper lines.length lines parsed = .ok (parsed ++ plainParagraphs lines) := by
  induction lines with
  | nil => intro parsed _; simp [parseMain_nil, plainParagraphs]
  | cons raw rest ih =>
    intro parsed h
    have hraw := h raw (by simp)
    have hrest : ∀ l ∈ rest, (∀ b ∈ l, isInlineByte b = false) ∧
        (trimRightSpace l = [] ∨ IsParagraphLine isLatin isUpper (trimRightSpace l)) :=
      fun l hl => h l (by simp [hl])
    rcases hraw.2 with h0 | hpl
    · rw [List.length_cons, parseMain_blank _ _ _ _ _ _ h0, ih parsed hrest]
      simp [plainParagraphs, h0]
    · by_cases h0 : trimRightSpace raw = []
      · rw [List.length_cons, parseMain_blank _ _ _ _ _ _ h0, ih parsed hrest]
        simp [plainParagraphs, h0]
      · rw [List.length_cons, parseMain_default _ _ _ _ _ _ h0 hpl.1,
          if_neg (fun hc => hpl.2 ((header_test_iff isLatin isUpper _).mp hc)),
          ParseStyledText_plain _ h0 (fun b hb => hraw.1 b (mem_trimRightSpace raw b hb))]
        simp only
        rw [ih _ hrest]
        have he : (trimRightSpace raw).isEmpty = false := by
          cases hq : trimRightSpace raw with
          | nil => exact absurd hq h0
          | cons _ _ => rfl
        simp [plainParagraphs, he]

theorem Split_append_newline (l s : Str) (h : 10 ∉ l) : Split (l ++ 10 :: s) = l :: Split s := by
  induction l with
  | nil => simp [Split]
  | cons b t ih =>
    have hb : b ≠ 10 := fun e => h (by simp [e])
    have ht : 10 ∉ t := fun e => h (by simp [e])
    simp [Split, hb, ih ht]

theorem Split_joinLines (ls : List Str) (hne : ls ≠ []) (h : ∀ l ∈ ls, 10 ∉ l) :
    Split (joinLines ls) = ls := by
  induction ls with
  | nil => exact absurd rfl hne
  | cons l t ih =>
    rcases t with _ | ⟨m, t⟩
    · exact Split_no_newline l (h l (by simp))
    · simp only [joinLines]
      rw [Split_append_newline l _ (h l (by simp)), ih (by simp) (fun x hx => h x (by simp [hx]))]

theorem countPrefix_zero (l : Str) (d : Nat) (h : l.getD 0 0 ≠ d ∨ l = []) : countPrefix l d = 0 := by
  rcases l with _ | ⟨b, t⟩
  · rfl
  · rcases h with h | h
    · simp only [List.getD_cons_zero] at h
      simp [countPrefix, h]
    · simp at h

theorem countPrefix_pos (l : Str) (h : l ≠ []) : 1 ≤ countPrefix l (l.getD 0 0) := by
  rcases l with _ | ⟨b, t⟩
  · exact absurd rfl h
  · simp [countPrefix]

theorem countPrefix_take (d : Nat) (l : Str) : ∀ k, countPrefix (l.take k) d ≤ countPrefix l d := by
  induction l with
  | nil => intro k; simp [countPrefix]
  | cons b t ih =>
    intro k
    rcases k with _ | k
    · simp [countPrefix]
    · simp only [List.take_succ_cons, countPrefix]
      split_ifs
      · exact le_refl _
      · have := ih k; omega

theorem notContinuation_getD (y : Str) (h : notContinuation y) :
    y.getD 0 0 ≠ 45 ∧ y.getD 0 0 ≠ 32 ∧ y.getD 0 0 ≠ 9 := by
  rcases h with h | h
  · subst h; decide
  · exact h

theorem listLoop_length : ∀ (ls : List Str) (st st1 : ListState) (r : List Str),
    listLoop st ls = .ok (st1, r) → r.length ≤ ls.length := by
  intro ls
  induction ls with
  | nil =>
    intro st st1 r h
    simp only [listLoop, Res.ok.injEq, Prod.mk.injEq] at h
    rw [← h.2]
  | cons l ls ih =>
    intro st st1 r h
    rw [listLoop] at h
    dsimp only at h
    split_ifs at h
    · simp only [Res.ok.injEq, Prod.mk.injEq] at h
      rw [← h.2]
    · simp only [Res.ok.injEq, Prod.mk.injEq] at h
      rw [← h.2]
    · have := ih _ _ _ h
      simp only [List.length_cons]; omega
    · split at h
      · split at h
        · have := ih _ _ _ h
          simp only [List.length_cons]; omega
        · exact absurd h (by simp)
        · exact absurd h (by simp)
      · exact absurd h (by simp)
      · exact absurd h (by simp)

theorem listLoop_stop (st : ListState) (y : Str) (B : List Str) (hy : y.getD 0 0 ≠ 45) :
    listLoop st (y :: B) = .ok (st, y :: B) := by
  rw [listLoop]
  dsimp only
  rw [if_pos (by simp only [hy, ne_eq, not_false_eq_true, decide_True, Bool.or_true])]

/-- The list loop stops at a construct boundary: lines after the boundary do
not change what it does. -/
theorem listLoop_append (B : List Str) (hB : atBoundary B) : ∀ (xs : List Str) (st : ListState),
    listLoop st (xs ++ B) =
      match listLoop st xs with
      | .ok (st1, r) => .ok (st1, r ++ B)
      | .panic => .panic
      | .timeout => .timeout := by
  intro xs
  induction xs with
  | nil =>
    intro st
    rcases B with _ | ⟨y, B⟩
    · rfl
    · have hy := notContinuation_getD y hB
      rw [List.nil_append, listLoop_stop st y B hy.1]
      rfl
  | cons l ls ih =>
    intro st
    simp only [List.cons_append]
    rw [listLoop, listLoop]
    dsimp only
    split_ifs
    · rfl
    · rfl
    · exact ih st
    · cases listSwitch st (countPrefix l 45) with
      | ok st1 =>
        simp only
        cases ParseStyledText (trimLeftSpace (List.drop (countPrefix l 45) l)) with
        | ok v => exact ih _
        | panic => rfl
        | timeout => rfl
      | panic => rfl
      | timeout => rfl

theorem blockLoop_le (delim indent : Nat) (xs : List Str) :
    blockLoop delim indent xs ≤ xs.length := by
  induction xs with
  | nil => simp [blockLoop]
  | cons l ls ih =>
    simp only [blockLoop, List.length_cons]
    split_ifs <;> omega

theorem blockLoop_append (delim indent : Nat) (hd : delim = 32 ∨ delim = 9) (hi : 1 ≤ indent)
    (B : List Str) (hB : atBoundary B) (xs : List Str) :
    blockLoop delim indent (xs ++ B) = blockLoop delim indent xs := by
  induction xs with
  | nil =>
    rcases B with _ | ⟨y, B⟩
    · rfl
    · have hy := notContinuation_getD y hB
      have h0 : countPrefix y delim = 0 :=
        countPrefix_zero y delim (Or.inl (by rcases hd with h | h <;> subst h <;> tauto))
      simp only [List.nil_append, blockLoop, h0]
      rw [if_pos (by omega)]
  | cons l ls ih =>
    rw [List.cons_append, blockLoop, blockLoop, ih]

/-- An iteration of the main loop of `Parse` passes at least one line. -/
theorem parseStep_length (isLatin isUpper : Nat → Bool) (raw : Str) (rest : List Str)
    (parsed : List Line) (r : List Str) (p : List Line)
    (h : parseStep isLatin isUpper raw rest parsed = .ok (r, p)) : r.length ≤ rest.length := by
  unfold parseStep at h
  dsimp only at h
  split_ifs at h with h0 h1 h2 h3 h4 h5 h6 h7 h8 h9
  any_goals (simp only [Res.ok.injEq, Prod.mk.injEq] at h; rw [← h.1])
  · -- embed
    split at h
    · simp only [Res.ok.injEq, Prod.mk.injEq] at h; rw [← h.1]
    · exact absurd h (by simp)
    · exact absurd h (by simp)
  · -- list
    split at h
    · split at h
      · rename_i st rest1 hl
        simp only [Res.ok.injEq, Prod.mk.injEq] at h
        rw [← h.1]
        exact listLoop_length _ _ _ _ hl
      · exact absurd h (by simp)
      · exact absurd h (by simp)
    · exact absurd h (by simp)
    · exact absurd h (by simp)
  · -- block, body not empty
    have hne : trimRightSpace raw ≠ [] := fun e => h0 (by rw [e]; rfl)
    obtain ⟨k, hk⟩ := trimRightSpace_is_take raw
    have hcp := countPrefix_take ((trimRightSpace raw).getD 0 0) raw k
    rw [← hk] at hcp
    simp only [blockLoop, List.length_drop, List.length_cons]
    rw [if_neg (by omega)]
    omega
  · -- block, body empty
    have hne : trimRightSpace raw ≠ [] := fun e => h0 (by rw [e]; rfl)
    obtain ⟨k, hk⟩ := trimRightSpace_is_take raw
    have hcp := countPrefix_take ((trimRightSpace raw).getD 0 0) raw k
    rw [← hk] at hcp
    simp only [blockLoop, List.length_drop, List.length_cons]
    rw [if_neg (by omega)]
    omega
  · -- paragraph
    split at h
    · simp only [Res.ok.injEq, Prod.mk.injEq] at h; rw [← h.1]
    · exact absurd h (by simp)
    · exact absurd h (by simp)

/-- An iteration of the main loop of `Parse` stops at a construct boundary:
lines after the boundary are handed on unchanged. -/
theorem parseStep_append (isLatin isUpper : Nat → Bool) (raw : Str) (rest B : List Str)
    (parsed : List Line) (hB : atBoundary B) :
    parseStep isLatin isUpper raw (rest ++ B) parsed =
      match parseStep isLatin isUpper raw rest parsed with
      | .ok (r, p) => .ok (r ++ B, p)
      | .panic => .panic
      | .timeout => .timeout := by
  unfold parseStep
  dsimp only
  split_ifs with h0 h1 h2 h3 h4 h5 h6 h7 h8 h9
  any_goals rfl
  · -- embed
    cases caseEmbed (trimRightSpace raw) <;> rfl
  · -- list
    cases ParseStyledText (trimLeftSpace (List.drop (countPrefix (trimRightSpace raw)
        ((trimRightSpace raw).getD 0 0)) (trimRightSpace raw))) with
    | ok v =>
      simp only
      rw [listLoop_append B hB]
      cases listLoop _ rest with
      | ok x => rfl
      | panic => rfl
      | timeout => rfl
    | panic => rfl
    | timeout => rfl
  all_goals first
    | (generalize ParseStyledText (trimRightSpace raw) = res; cases res <;> rfl)
    | (have hne : trimRightSpace raw ≠ [] := fun e => h0 (by rw [e]; rfl)
       have hd : (trimRightSpace raw).getD 0 0 = 32 ∨ (trimRightSpace raw).getD 0 0 = 9 := by
         simpa using h7
       have hbl := blockLoop_append _ _ hd (countPrefix_pos _ hne) B hB (raw :: rest)
       rw [List.cons_append] at hbl
       have hle := blockLoop_le ((trimRightSpace raw).getD 0 0)
         (countPrefix (trimRightSpace raw) ((trimRightSpace raw).getD 0 0)) (raw :: rest)
       have htake : List.take _ ((raw :: rest) ++ B) = _ := List.take_append_of_le_length hle
       have hdrop : List.drop _ ((raw :: rest) ++ B) = _ := List.drop_append_of_le_length hle
       rw [List.cons_append] at htake hdrop
       simp only [hbl, htake, hdrop] at *
       try (first | rfl | contradiction))

/-- The result of the main loop of `Parse` does not depend on the budget, once
the budget is the number of lines. -/
theorem parseMain_fuel (isLatin isUpper : Nat → Bool) (n : Nat) :
    ∀ (lines : List Str) (f1 f2 : Nat) (parsed : List Line), lines.length ≤ n →
      lines.length ≤ f1 → lines.length ≤ f2 →
      parseMain isLatin isUpper f1 lines parsed = parseMain isLatin isUpper f2 lines parsed := by
  induction n with
  | zero =>
    intro lines f1 f2 parsed hn _ _
    have : lines = [] := List.length_eq_zero.mp (by omega)
    subst this
    rw [parseMain_nil, parseMain_nil]
  | succ n ih =>
    intro lines f1 f2 parsed hn h1 h2
    rcases lines with _ | ⟨raw, rest⟩
    · rw [parseMain_nil, parseMain_nil]
    · obtain ⟨g1, rfl⟩ : ∃ g, f1 = g + 1 := ⟨f1 - 1, by simp at h1; omega⟩
      obtain ⟨g2, rfl⟩ : ∃ g, f2 = g + 1 := ⟨f2 - 1, by simp at h2; omega⟩
      rw [parseMain_succ, parseMain_succ]
      cases hs : parseStep isLatin isUpper raw rest parsed with
      | ok rp =>
        obtain ⟨r, p⟩ := rp
        have hl := parseStep_length isLatin isUpper raw rest parsed r p hs
        simp only [List.length_cons] at hn h1 h2
        exact ih r g1 g2 p (by omega) (by omega) (by omega)
      | panic => rfl
      | timeout => rfl

/-- The main loop of `Parse` is compositional at a construct boundary. -/
theorem parseMain_append (isLatin isUpper : Nat → Bool) (B : List Str) (hB : atBoundary B)
    (n : Nat) : ∀ (xs : List Str) (f f1 : Nat) (parsed : List Line), xs.length ≤ n →
      (xs ++ B).length ≤ f → xs.length ≤ f1 →
      parseMain isLatin isUpper f (xs ++ B) parsed =
        match parseMain isLatin isUpper f1 xs parsed with
        | .ok p => parseMain isLatin isUpper f B p
        | .panic => .panic
        | .timeout => .timeout := by
  induction n with
  | zero =>
    intro xs f f1 parsed hn _ _
    have : xs = [] := List.length_eq_zero.mp (by omega)
    subst this
    rw [parseMain_nil]
    rfl
  | succ n ih =>
    intro xs f f1 parsed hn h1 h2
    rcases xs with _ | ⟨raw, rest⟩
    · rw [parseMain_nil]
      rfl
    · obtain ⟨g, rfl⟩ : ∃ g, f = g + 1 := ⟨f - 1, by simp at h1; omega⟩
      obtain ⟨g1, rfl⟩ : ∃ g, f1 = g + 1 := ⟨f1 - 1, by simp at h2; omega⟩
      rw [List.cons_append, parseMain_succ, parseMain_succ, parseStep_append _ _ _ _ _ _ hB]
      cases hs : parseStep isLatin isUpper raw rest parsed with
      | ok rp =>
        obtain ⟨r, p⟩ := rp
        have hl := parseStep_length isLatin isUpper raw rest parsed r p hs
        simp only [List.length_cons, List.length_append] at hn h1 h2
        simp only
        rw [ih r g g1 p (by omega) (by simp only [List.length_append]; omega) (by omega)]
        cases parseMain isLatin isUpper g1 r p with
        | ok q =>
          exact parseMain_fuel isLatin isUpper B.length B g (g + 1) q (le_refl _) (by omega)
            (by omega)
        | panic => rfl
        | timeout => rfl
      | panic => rfl
      | timeout => rfl

/-- A comment line is skipped by the main loop of `Parse`. -/
theorem parseMain_comment (isLatin isUpper : Nat → Bool) (f : Nat) (c : Str) (rest : List Str)
    (parsed : List Line) (hc : c.head? = some 35) :
    parseMain isLatin isUpper (f + 1) (c :: rest) parsed
      = parseMain isLatin isUpper f rest parsed := by
  rcases c with _ | ⟨b, t⟩
  · simp at hc
  · simp only [List.head?_cons, Option.some.injEq] at hc
    subst hc
    have hne : trimRightSpace (35 :: t) ≠ [] :=
      trimRightSpace_ne_nil _ (by simp) (by simp [DecodeRuneInString, IsSpace])
    have hg := trimRightSpace_getD_zero (35 :: t) hne
    simp only [List.getD_cons_zero] at hg
    have hlen : (trimRightSpace (35 :: t)).length ≠ 0 := fun h => hne (List.length_eq_zero.mp h)
    rw [parseMain_succ]
    unfold parseStep
    simp only [hlen, hg, if_true, if_false]

/-- The body of the main loop of `Parse` only appends to `parsed`. -/
theorem parseStep_acc (isLatin isUpper : Nat → Bool) (raw : Str) (rest : List Str)
    (parsed : List Line) :
    parseStep isLatin isUpper raw rest parsed =
      match parseStep isLatin isUpper raw rest [] with
      | .ok (r, p) => .ok (r, parsed ++ p)
      | .panic => .panic
      | .timeout => .timeout := by
  unfold parseStep
  dsimp only
  split_ifs
  any_goals simp only [List.nil_append, List.append_nil]
  · cases caseEmbed (trimRightSpace raw) <;> simp
  · cases ParseStyledText (trimLeftSpace (List.drop (countPrefix (trimRightSpace raw)
        ((trimRightSpace raw).getD 0 0)) (trimRightSpace raw))) with
    | ok v =>
      simp only
      cases listLoop _ rest with
      | ok x => simp
      | panic => rfl
      | timeout => rfl
    | panic => rfl
    | timeout => rfl
  · cases ParseStyledText (trimRightSpace raw) <;> simp

/-- The main loop of `Parse` only appends to `parsed`. -/
theorem parseMain_acc (isLatin isUpper : Nat → Bool) (f : Nat) :
    ∀ (lines : List Str) (parsed : List Line),
    parseMain isLatin isUpper f lines parsed =
      match parseMain isLatin isUpper f lines [] with
      | .ok q => .ok (parsed ++ q)
      | .panic => .panic
      | .timeout => .timeout := by
  induction f with
  | zero =>
    intro lines parsed
    rcases lines with _ | ⟨raw, rest⟩
    · simp [parseMain_nil]
    · rfl
  | succ f ih =>
    intro lines parsed
    rcases lines with _ | ⟨raw, rest⟩
    · simp [parseMain_nil]
    · rw [parseMain_succ, parseMain_succ, parseStep_acc]
      cases parseStep isLatin isUpper raw rest [] with
      | ok rp =>
        obtain ⟨r, p⟩ := rp
        simp only
        rw [ih r (parsed ++ p), ih r p]
        cases parseMain isLatin isUpper f r [] with
        | ok q => simp
        | panic => rfl
        | timeout => rfl
      | panic => rfl
      | timeout => rfl

theorem Split_ne_nil (s : Str) : Split s ≠ [] := by
  rcases s with _ | ⟨b, t⟩
  · simp [Split]
  · simp only [Split]
    split_ifs
    · simp
    · split <;> simp

theorem Split_append (a b : Str) : Split (a ++ 10 :: b) = Split a ++ Split b := by
  induction a with
  | nil => simp [Split]
  | cons c t ih =>
    have ih2 : Split (t.append (10 :: b)) = Split t ++ Split b := ih
    simp only [List.cons_append, Split]
    split_ifs with hc
    · rw [ih2]; rfl
    · rw [ih2]
      cases hs : Split t with
      | nil => exact absurd hs (Split_ne_nil t)
      | cons l ls => rfl

theorem atBoundary_Split (b : Str) (hb : notContinuation b) : atBoundary (Split b) := by
  rcases b with _ | ⟨y, t⟩
  · exact Or.inl rfl
  · rcases hb with h | h
    · simp at h
    · simp only [List.getD_cons_zero] at h
      simp only [Split]
      split_ifs with hy
      · exact Or.inl rfl
      · split
        · exact Or.inr (by simpa using h)
        · exact Or.inr (by simpa using h)

theorem Parse_nil (isLatin isUpper : Nat → Bool) : Parse isLatin isUpper [] = .ok [] := by
  rfl

theorem Parse_comment_line (isLatin isUpper : Nat → Bool) (c : Str) (hc : c.head? = some 35)
    (hnl : 10 ∉ c) : Parse isLatin isUpper c = .ok [] := by
  unfold Parse
  rw [Split_no_newline c hnl]
  simp only [List.length_singleton]
  rw [parseMain_comment _ _ 0 c [] [] hc, parseMain_nil]

theorem concatRes_ok_nil (x : Res (List Line)) : concatRes x (.ok []) = x := by
  cases x <;> simp [concatRes]

/-- `Parse` is compositional at a construct boundary. -/
theorem Parse_append (isLatin isUpper : Nat → Bool) (a b : Str) (hb : notContinuation b) :
    Parse isLatin isUpper (a ++ [10] ++ b)
      = concatRes (Parse isLatin isUpper a) (Parse isLatin isUpper b) := by
  have hB := atBoundary_Split b hb
  have hs : a ++ [10] ++ b = a ++ 10 :: b := by simp
  unfold Parse
  rw [hs, Split_append]
  dsimp only
  rw [parseMain_append isLatin isUpper (Split b) hB (Split a).length (Split a) _ (Split a).length
    [] (le_refl _) (le_refl _) (le_refl _)]
  cases parseMain isLatin isUpper (Split a).length (Split a) [] with
  | ok p =>
    simp only [concatRes]
    rw [parseMain_fuel isLatin isUpper (Split b).length (Split b) _ (Split b).length p
      (le_refl _) (by simp only [List.length_append]; omega) (le_refl _), parseMain_acc]
  | panic => rfl
  | timeout => rfl

theorem concatRes_ok_iff (x y : Res (List Line)) :
    (∃ r, concatRes x y = .ok r) ↔ ((∃ a, x = .ok a) ∧ (∃ b, y = .ok b)) := by
  cases x <;> cases y <;> simp [concatRes]

/-- `Parse` of the source with lines `ls` is the main loop run on `ls`. -/
theorem Parse_joinLines (isLatin isUpper : Nat → Bool) (ls : List Str)
    (h : ∀ l ∈ ls, 10 ∉ l) :
    Parse isLatin isUpper (joinLines ls) = parseLines isLatin isUpper ls := by
  by_cases hnil : ls = []
  · subst hnil
    rfl
  · unfold Parse parseLines
    rw [Split_joinLines _ hnil h]

/-- The main loop on lines `xs` followed by lines `B` that start at a construct
boundary: the two runs, one after the other. -/
theorem parseLines_append (isLatin isUpper : Nat → Bool) (B : List Str) (hB : atBoundary B)
    (xs : List Str) :
    parseLines isLatin isUpper (xs ++ B)
      = concatRes (parseLines isLatin isUpper xs) (parseLines isLatin isUpper B) := by
  unfold parseLines
  rw [parseMain_append isLatin isUpper B hB xs.length xs _ xs.length [] (le_refl _) (le_refl _)
    (le_refl _)]
  cases parseMain isLatin isUpper xs.length xs [] with
  | ok p =>
    dsimp only
    rw [parseMain_fuel isLatin isUpper B.length B _ B.length p (le_refl _)
      (by simp only [List.length_append]; omega) (le_refl _), parseMain_acc]
    rfl
  | panic => rfl
  | timeout => rfl

/-- The main loop passes a comment line. -/
theorem parseLines_comment (isLatin isUpper : Nat → Bool) (c : Str) (ys : List Str)
    (hc : c.head? = some 35) :
    parseLines isLatin isUpper (c :: ys) = parseLines isLatin isUpper ys := by
  unfold parseLines
  rw [List.length_cons, parseMain_comment _ _ _ _ _ _ hc]

theorem atBoundary_comment (c : Str) (ys : List Str) (hc : c.head? = some 35) :
    atBoundary (c :: ys) := by
  rcases c with _ | ⟨b, t⟩
  · simp at hc
  · simp only [List.head?_cons, Option.some.injEq] at hc
    subst hc
    exact Or.inr (by simp)

/-- An iteration of the main loop on a line that starts neither with a dash nor
with a space or tab passes that line only, whatever follows it. -/
theorem parseStep_notContinuation (isLatin isUpper : Nat → Bool) (l : Str) (rest : List Str)
    (parsed : List Line) (hl : notContinuation l) :
    parseStep isLatin isUpper l rest parsed =
      match parseStep isLatin isUpper l [] parsed with
      | .ok (_, p) => .ok (rest, p)
      | .panic => .panic
      | .timeout => .timeout := by
  have hg : trimRightSpace l ≠ [] →
      (trimRightSpace l).getD 0 0 ≠ 45 ∧ (trimRightSpace l).getD 0 0 ≠ 32 ∧
        (trimRightSpace l).getD 0 0 ≠ 9 := by
    intro hne
    rw [trimRightSpace_getD_zero l hne]
    exact notContinuation_getD l hl
  by_cases h0 : (trimRightSpace l).length = 0
  · simp only [parseStep, h0, if_true]
  · obtain ⟨h45, h32, h9⟩ := hg (fun e => h0 (by rw [e]; rfl))
    unfold parseStep
    simp only [h0, h45, h32, h9, if_false, decide_False, Bool.or_self, Bool.false_eq_true]
    split_ifs <;>
      first
        | rfl
        | (cases caseEmbed (trimRightSpace l) <;> rfl)
        | (cases ParseStyledText (trimRightSpace l) <;> rfl)

/-- The main loop on a line that starts neither with a dash nor with a space or
tab, followed by any lines: the two runs, one after the other. -/
theorem parseLines_cons_notContinuation (isLatin isUpper : Nat → Bool) (l : Str)
    (ys : List Str) (hl : notContinuation l) :
    parseLines isLatin isUpper (l :: ys)
      = concatRes (parseLines isLatin isUpper [l]) (parseLines isLatin isUpper ys) := by
  unfold parseLines
  rw [List.length_cons, parseMain_succ, List.length_singleton, parseMain_succ,
    parseStep_notContinuation isLatin isUpper l ys [] hl,
    parseStep_notContinuation isLatin isUpper l [] [] hl]
  cases parseStep isLatin isUpper l [] [] with
  | ok rp =>
    obtain ⟨r, p⟩ := rp
    simp only [parseMain_nil]
    rw [parseMain_acc]
    rfl
  | panic => rfl
  | timeout => rfl

theorem concatRes_assoc (x y z : Res (List Line)) :
    concatRes (concatRes x y) z = concatRes x (concatRes y z) := by
  cases x <;> cases y <;> cases z <;> simp [concatRes]

/-- The main loop on lines `xs` that are empty or end with a line that starts
neither with a dash nor with a space or tab, followed by any lines: the two
runs, one after the other. -/
theorem parseLines_append_closed (isLatin isUpper : Nat → Bool) (xs ys : List Str)
    (hxs : atBoundary xs.reverse) :
    parseLines isLatin isUpper (xs ++ ys)
      = concatRes (parseLines isLatin isUpper xs) (parseLines isLatin isUpper ys) := by
  rcases List.eq_nil_or_concat xs with rfl | ⟨init, l, rfl⟩
  · have h0 : parseLines isLatin isUpper [] = .ok [] := rfl
    rw [List.nil_append, h0]
    cases parseLines isLatin isUpper ys <;> rfl
  · rw [List.concat_eq_append] at hxs ⊢
    have hl : notContinuation l := by
      simp only [List.reverse_append, List.reverse_singleton, List.singleton_append] at hxs
      exact hxs
    have h1 : init ++ [l] ++ ys = init ++ (l :: ys) := by simp
    rw [h1, parseLines_append isLatin isUpper (l :: ys) hl init,
      parseLines_append isLatin isUpper [l] hl init,
      parseLines_cons_notContinuation isLatin isUpper l ys hl, concatRes_assoc]

/-- A property of lines that every iteration of the main loop of `Parse`
establishes for the lines it emits holds for the whole document. -/
theorem parseMain_forall (isLatin isUpper : Nat → Bool) (Q : Line → Prop)
    (hstep : ∀ (raw : Str) (rest r : List Str) (p : List Line),
      parseStep isLatin isUpper raw rest [] = .ok (r, p) → ∀ l ∈ p, Q l)
    (f : Nat) : ∀ (lines : List Str) (parsed out : List Line), (∀ l ∈ parsed, Q l) →
      parseMain isLatin isUpper f lines parsed = .ok out → ∀ l ∈ out, Q l := by
  induction f with
  | zero =>
    intro lines parsed out hp h
    rcases lines with _ | ⟨raw, rest⟩
    · rw [parseMain_nil] at h
      simp only [Res.ok.injEq] at h
      rw [← h]; exact hp
    · simp [parseMain] at h
  | succ f ih =>
    intro lines parsed out hp h
    rcases lines with _ | ⟨raw, rest⟩
    · rw [parseMain_nil] at h
      simp only [Res.ok.injEq] at h
      rw [← h]; exact hp
    · rw [parseMain_succ, parseStep_acc] at h
      cases hs : parseStep isLatin isUpper raw rest [] with
      | ok rp =>
        obtain ⟨r, p⟩ := rp
        rw [hs] at h
        simp only at h
        refine ih r (parsed ++ p) out (fun l hl => ?_) h
        rcases List.mem_append.mp hl with h1 | h1
        · exact hp l h1
        · exact hstep raw rest r p hs l h1
      | panic => rw [hs] at h; simp at h
      | timeout => rw [hs] at h; simp at h

theorem length_modifyItem (root : List ListItem) (f : ListItem → ListItem) (ptr : ItemPtr) :
    (modifyItem root f ptr).length = root.length := by
  cases ptr <;> simp [modifyItem]

theorem listSwitch_length (st st1 : ListState) (sl : Nat) (h : listSwitch st sl = .ok st1) :
    st.rootList.length ≤ st1.rootList.length := by
  unfold listSwitch at h
  dsimp only at h
  split_ifs at h
  · simp only [Res.ok.injEq] at h
    rw [← h]; simp
  · split at h
    · simp only [Res.ok.injEq] at h
      rw [← h]; simp [length_modifyItem]
    · simp at h
  · split at h
    · split_ifs at h
      simp only [Res.ok.injEq] at h
      rw [← h]; simp [length_modifyItem]
    · simp at h

/-- The list loop never shortens the root list. -/
theorem listLoop_root_length : ∀ (ls : List Str) (st st1 : ListState) (r : List Str),
    listLoop st ls = .ok (st1, r) → st.rootList.length ≤ st1.rootList.length := by
  intro ls
  induction ls with
  | nil =>
    intro st st1 r h
    simp only [listLoop, Res.ok.injEq, Prod.mk.injEq] at h
    rw [← h.1]
  | cons l ls ih =>
    intro st st1 r h
    rw [listLoop] at h
    dsimp only at h
    split_ifs at h
    · simp only [Res.ok.injEq, Prod.mk.injEq] at h
      rw [← h.1]
    · simp only [Res.ok.injEq, Prod.mk.injEq] at h
      rw [← h.1]
    · exact ih _ _ _ h
    · split at h
      · rename_i st2 hsw
        split at h
        · have h1 := listSwitch_length _ _ _ hsw
          have h2 := ih _ _ _ h
          simp only [length_modifyItem] at h2
          omega
        · exact absurd h (by simp)
        · exact absurd h (by simp)
      · exact absurd h (by simp)
      · exact absurd h (by simp)

theorem caseEmbed_nonEmpty (line : Str) (ls : List Line) (h : caseEmbed line = .ok ls) :
    ∀ l ∈ ls, nonEmptyContent l := by
  unfold caseEmbed at h
  dsimp only at h
  split_ifs at h with e1 e2
  · split at h
    · simp only [Res.ok.injEq] at h
      rw [← h]
      intro l hl
      rw [List.mem_singleton.mp hl]
      simp only [nonEmptyContent, ne_eq, ← List.length_eq_zero]
      exact e1
    · simp at h
    · simp at h
  · simp only [Res.ok.injEq] at h
    rw [← h]
    intro l hl
    rw [List.mem_singleton.mp hl]
    simp only [nonEmptyContent, ne_eq, ← List.length_eq_zero]
    exact e1
  · simp only [Res.ok.injEq] at h
    rw [← h]
    intro l hl
    exact absurd hl (List.not_mem_nil _)

/-- Every line that an iteration of the main loop of `Parse` emits has
non-empty content, unless it is a paragraph. -/
theorem parseStep_nonEmpty (isLatin isUpper : Nat → Bool) (raw : Str) (rest r : List Str)
    (p : List Line) (h : parseStep isLatin isUpper raw rest [] = .ok (r, p)) :
    ∀ l ∈ p, nonEmptyContent l ∨ isParagraph l := by
  unfold parseStep at h
  dsimp only at h
  split_ifs at h with h0 h1 h2 h3 h4 h5 h6 h7 h8 h9
  any_goals
    (simp only [Res.ok.injEq, Prod.mk.injEq, List.nil_append] at h
     rw [← h.2]
     intro l hl
     first
       | exact absurd hl (List.not_mem_nil _)
       | (rw [List.mem_singleton.mp hl]
          left
          simp only [nonEmptyContent, ne_eq, ← List.length_eq_zero]
          assumption))
  · -- embed
    split at h
    · rename_i ls he
      simp only [Res.ok.injEq, Prod.mk.injEq, List.nil_append] at h
      rw [← h.2]
      exact fun l hl => Or.inl (caseEmbed_nonEmpty _ _ he l hl)
    · simp at h
    · simp at h
  · -- list
    split at h
    · split at h
      · rename_i st rest1 hl
        simp only [Res.ok.injEq, Prod.mk.injEq, List.nil_append] at h
        rw [← h.2]
        intro l hl2
        rw [List.mem_singleton.mp hl2]
        left
        have := listLoop_root_length _ _ _ _ hl
        simp only [List.length_singleton] at this
        simp only [nonEmptyContent, ne_eq, ← List.length_eq_zero]
        omega
      · simp at h
      · simp at h
    · simp at h
    · simp at h
  · -- paragraph
    split at h
    · simp only [Res.ok.injEq, Prod.mk.injEq, List.nil_append] at h
      rw [← h.2]
      intro l hl
      rw [List.mem_singleton.mp hl]
      right
      trivial
    · simp at h
    · simp at h

theorem take_blockLoop (d n : Nat) (ls : List Str) :
    ls.take (blockLoop d n ls) = ls.takeWhile (fun l => decide (n ≤ countPrefix l d)) := by
  induction ls with
  | nil => rfl
  | cons l t ih =>
    simp only [blockLoop, List.takeWhile_cons]
    by_cases h : countPrefix l d < n
    · rw [if_pos h]
      have : decide (n ≤ countPrefix l d) = false := by simp; omega
      rw [this]
      rfl
    · rw [if_neg h]
      have : decide (n ≤ countPrefix l d) = true := by simp; omega
      rw [this, List.take_succ_cons, ih]
      rfl

theorem drop_blockLoop (d n : Nat) (ls : List Str) :
    ls.drop (blockLoop d n ls) = ls.dropWhile (fun l => decide (n ≤ countPrefix l d)) := by
  induction ls with
  | nil => rfl
  | cons l t ih =>
    simp only [blockLoop, List.dropWhile_cons]
    by_cases h : countPrefix l d < n
    · rw [if_pos h]
      have : decide (n ≤ countPrefix l d) = false := by simp; omega
      rw [this]
      rfl
    · rw [if_neg h]
      have : decide (n ≤ countPrefix l d) = true := by simp; omega
      rw [this, List.drop_succ_cons, ih]
      rfl

/-- One iteration of the main loop of `Parse` on a line that starts an indented
block. -/
theorem parseStep_block (isLatin isUpper : Nat → Bool) (raw : Str) (rest : List Str)
    (parsed : List Line) (d : Nat) (hd : d = 32 ∨ d = 9) (hne : trimRightSpace raw ≠ [])
    (hfirst : (trimRightSpace raw).getD 0 0 = d) :
    parseStep isLatin isUpper raw rest parsed =
      .ok (rest.dropWhile (fun l => decide (countPrefix raw d ≤ countPrefix l d)),
        parsed ++ [Line.Block (countPrefix raw d)
          (raw :: rest.takeWhile (fun l => decide (countPrefix raw d ≤ countPrefix l d)))]) := by
  have hlen : (trimRightSpace raw).length ≠ 0 := fun h => hne (List.length_eq_zero.mp h)
  have hsp : IsSpace d = true := by rcases hd with h | h <;> subst h <;> decide
  have hcp := countPrefix_trimRightSpace raw d hsp (by rcases hd with h | h <;> omega) hne
  have h35 : d ≠ 35 := by rcases hd with h | h <;> omega
  have h47 : d ≠ 47 := by rcases hd with h | h <;> omega
  have h64 : d ≠ 64 := by rcases hd with h | h <;> omega
  have h45 : d ≠ 45 := by rcases hd with h | h <;> omega
  have hdd : (decide (d = 32) || decide (d = 9)) = true := by
    rcases hd with h | h <;> subst h <;> rfl
  have htw : (raw :: rest).takeWhile (fun l => decide (countPrefix raw d ≤ countPrefix l d))
      = raw :: rest.takeWhile (fun l => decide (countPrefix raw d ≤ countPrefix l d)) := by
    simp [List.takeWhile_cons]
  have hdw : (raw :: rest).dropWhile (fun l => decide (countPrefix raw d ≤ countPrefix l d))
      = rest.dropWhile (fun l => decide (countPrefix raw d ≤ countPrefix l d)) := by
    simp [List.dropWhile_cons]
  unfold parseStep
  simp only [hlen, hfirst, h35, h47, h64, h45, hdd, if_false, if_true, hcp, take_blockLoop,
    drop_blockLoop, htw, hdw]
  simp

theorem ParseStyledText_nil : ParseStyledText [] = .ok [] := by decide

/-- The embed case on a line whose remainder has no space: the remainder is
the path. -/
theorem caseEmbed_no_space (line : Str) (h : 32 ∉ trimLeftSpace (line.drop 1)) :
    caseEmbed line =
      if trimLeftSpace (line.drop 1) = [] then .ok []
      else .ok [Line.Embed (trimLeftSpace (line.drop 1)) []] := by
  unfold caseEmbed
  simp only [IndexRune_none h, List.length_nil, ne_eq, not_true_eq_false, if_false]
  split_ifs with h1 h2 h2
  · rfl
  · exact absurd (List.length_eq_zero.mp h1) h2
  · exact absurd (List.length_eq_zero.mpr h2) h1
  · rfl

/-- The embed case on a line whose remainder has a space: the path is the part
before the first space, the alt text the left trim of the part after it. -/
theorem caseEmbed_space (line p q : Str) (h : trimLeftSpace (line.drop 1) = p ++ 32 :: q)
    (hp : 32 ∉ p) :
    p ≠ [] ∧ caseEmbed line =
      match ParseStyledText (trimLeftSpace q) with
      | .ok a => .ok [Line.Embed p a]
      | .panic => .panic
      | .timeout => .timeout := by
  have hpne : p ≠ [] := by
    intro hp0
    subst hp0
    rcases trimLeftSpace_first (line.drop 1) with h0 | h0
    · rw [h] at h0; simp at h0
    · rw [h] at h0
      simp [DecodeRuneInString, IsSpace] at h0
  refine ⟨hpne, ?_⟩
  have hplen : p.length ≠ 0 := fun h0 => hpne (List.length_eq_zero.mp h0)
  unfold caseEmbed
  simp only [h, IndexRune_first hp, List.take_left, List.drop_left, trimLeftSpace_cons_space,
    ne_eq, hplen, not_false_eq_true, if_true]
  split_ifs with h1
  · have h2 : trimLeftSpace q = [] := List.length_eq_zero.mp h1
    rw [h2, ParseStyledText_nil]
  · rfl

/-- The embed case of `Parse` on a single line whose first byte is an at sign,
with `r` the right-trimmed line without the at sign, trimmed on the left: an
empty `r` emits nothing; an `r` without a space emits one embed with path `r`
and an empty alt; and when `r` is `p`, a space, `q` with no space in `p`, the
path `p` is not empty and `Parse` is the embed with path `p` and the inline
scan of the left trim of `q` as alt, or the failure of that scan. -/
theorem Parse_embed_line (isLatin isUpper : Nat → Bool) (line : Str) (hnl : 10 ∉ line)
    (hat : line.head? = some 64) :
    (trimLeftSpace ((trimRightSpace line).drop 1) = [] →
      Parse isLatin isUpper line = .ok []) ∧
    (trimLeftSpace ((trimRightSpace line).drop 1) ≠ [] →
      32 ∉ trimLeftSpace ((trimRightSpace line).drop 1) →
      Parse isLatin isUpper line
        = .ok [Line.Embed (trimLeftSpace ((trimRightSpace line).drop 1)) []]) ∧
    (∀ p q : Str, trimLeftSpace ((trimRightSpace line).drop 1) = p ++ 32 :: q → 32 ∉ p →
      p ≠ [] ∧
      Parse isLatin isUpper line =
        match ParseStyledText (trimLeftSpace q) with
        | .ok a => .ok [Line.Embed p a]
        | .panic => .panic
        | .timeout => .timeout) := by
  obtain ⟨t, rfl⟩ : ∃ t, line = 64 :: t := by
    rcases line with _ | ⟨b, t⟩
    · simp at hat
    · simp only [List.head?_cons, Option.some.injEq] at hat
      exact ⟨t, by rw [hat]⟩
  have hne : trimRightSpace (64 :: t) ≠ [] :=
    trimRightSpace_ne_nil _ (by simp) (by simp [DecodeRuneInString, IsSpace])
  have hg := trimRightSpace_getD_zero (64 :: t) hne
  simp only [List.getD_cons_zero] at hg
  have hlen : (trimRightSpace (64 :: t)).length ≠ 0 := fun h => hne (List.length_eq_zero.mp h)
  have hP : Parse isLatin isUpper (64 :: t) =
      match caseEmbed (trimRightSpace (64 :: t)) with
      | .ok ls => .ok ls
      | .panic => .panic
      | .timeout => .timeout := by
    unfold Parse
    rw [Split_no_newline _ hnl]
    simp only [List.length_singleton]
    rw [parseMain_succ]
    unfold parseStep
    simp only [hlen, hg, if_false, if_true, List.nil_append]
    cases caseEmbed (trimRightSpace (64 :: t)) <;> simp [parseMain_nil]
  refine ⟨fun h0 => ?_, fun h0 hsp => ?_, fun p q hpq hp => ?_⟩
  · rw [hP, caseEmbed_no_space _ (by rw [h0]; simp), if_pos h0]
  · rw [hP, caseEmbed_no_space _ hsp, if_neg h0]
  · obtain ⟨h1, h2⟩ := caseEmbed_space _ p q hpq hp
    refine ⟨h1, ?_⟩
    rw [hP, h2]
    cases ParseStyledText (trimLeftSpace q) <;> rfl

theorem modify_append_length {α : Type} (f : α → α) (x : α) : ∀ (R : List α),
    (R ++ [x]).modify f R.length = R ++ [f x] := by
  intro R
  induction R with
  | nil => rfl
  | cons a R ih =>
    simp only [List.cons_append, List.length_cons, List.modify_succ_cons, ih]

theorem get?_append_length {α : Type} (x : α) (R : List α) :
    (R ++ [x]).get? R.length = some x := by
  induction R with
  | nil => rfl
  | cons a R ih => simp

theorem getD_of_countPrefix (l : Str) (d : Nat) (h : 1 ≤ countPrefix l d) :
    l ≠ [] ∧ l.getD 0 0 = d := by
  rcases l with _ | ⟨b, t⟩
  · simp [countPrefix] at h
  · refine ⟨by simp, ?_⟩
    simp only [countPrefix] at h
    split_ifs at h with hb
    · omega
    · simp only [List.getD_cons_zero]
      exact not_not.mp hb

/-- One iteration of `list_loop` on a list line with item text. -/
theorem listLoop_step (st st1 : ListState) (l : Str) (ls : List Str) (v : List StyledText)
    (hsl : 1 ≤ countPrefix l 45) (htext : itemText l ≠ [])
    (hv : ParseStyledText (itemText l) = .ok v)
    (hsw : listSwitch st (countPrefix l 45) = .ok st1) :
    listLoop st (l :: ls)
      = listLoop ⟨modifyItem st1.rootList (setValue v) st1.curItem, st1.curParent,
          st1.curItem⟩ ls := by
  obtain ⟨hne, hg⟩ := getD_of_countPrefix l 45 hsl
  have hlen : l.length ≠ 0 := fun h => hne (List.length_eq_zero.mp h)
  have htl : (trimLeftSpace (l.drop (countPrefix l 45))).length ≠ 0 :=
    fun h => htext (List.length_eq_zero.mp h)
  have hsl0 : countPrefix l 45 ≠ 0 := by omega
  unfold itemText at hv
  rw [listLoop]
  simp only [hlen, hg, ne_eq, not_true_eq_false, decide_False, Bool.or_self, hsl0, htl,
    if_false, hsw, hv, Bool.false_eq_true]

/-- The `switch` on a one-dash line. -/
theorem listSwitch_one (st : ListState) :
    listSwitch st 1 = .ok ⟨st.rootList ++ [.mk 1 [] []], st.rootList.length,
      .root st.rootList.length⟩ := by
  simp [listSwitch]

/-- The `switch` on a two-dash line. -/
theorem listSwitch_two (R : List ListItem) (it : ListItem) (cur : ItemPtr) :
    listSwitch ⟨R ++ [it], R.length, cur⟩ 2
      = .ok ⟨R ++ [appendSub 2 it], R.length, .sub R.length it.Sublist.length⟩ := by
  simp only [listSwitch, modifyItem, getItem, modify_append_length, get?_append_length]
  simp [appendSub, ListItem.Sublist]

/-- The list case of `Parse` on a first line with dashes and an item text. -/
theorem parseStep_list (isLatin isUpper : Nat → Bool) (first : Str) (rest : List Str)
    (parsed : List Line) (v : List StyledText)
    (hsl : 1 ≤ countPrefix (trimRightSpace first) 45)
    (htext : itemText (trimRightSpace first) ≠ [])
    (hv : ParseStyledText (itemText (trimRightSpace first)) = .ok v) :
    parseStep isLatin isUpper first rest parsed =
      match listLoop ⟨[.mk (countPrefix (trimRightSpace first) 45) v []], 0, .root 0⟩ rest with
      | .ok (st, rest1) => .ok (rest1, parsed ++ [Line.List st.rootList])
      | .panic => .panic
      | .timeout => .timeout := by
  obtain ⟨hne, hg⟩ := getD_of_countPrefix _ 45 hsl
  have hlen : (trimRightSpace first).length ≠ 0 := fun h => hne (List.length_eq_zero.mp h)
  have htl : (trimLeftSpace ((trimRightSpace first).drop
      (countPrefix (trimRightSpace first) 45))).length ≠ 0 :=
    fun h => htext (List.length_eq_zero.mp h)
  unfold itemText at hv
  unfold parseStep
  simp only [hlen, hg, htl, hv, if_false, if_true, Nat.reduceEqDiff]

theorem scan_of_scanReturns (t : Str) (h : scanReturns t = true) :
    ParseStyledText t = .ok (scanValue t) := by
  unfold scanReturns at h
  unfold scanValue
  cases hp : ParseStyledText t <;> simp_all

theorem twoLevelLine_iff (l : Str) (h : twoLevelLine l = true) :
    (countPrefix l 45 = 1 ∨ countPrefix l 45 = 2) ∧ itemText l ≠ [] ∧
      ParseStyledText (itemText l) = .ok (scanValue (itemText l)) := by
  unfold twoLevelLine at h
  simp only [Bool.and_eq_true, Bool.or_eq_true, beq_iff_eq, bne_iff_ne, ne_eq] at h
  exact ⟨h.1.1, h.1.2, scan_of_scanReturns _ h.2⟩

/-- The list loop on the lines of a two-level list: it passes all of them, and
the root list grows by the sub-items of the current parent and then by the
further top-level items. -/
theorem listLoop_two_level : ∀ (ls : List Str), (∀ l ∈ ls, twoLevelLine l = true) →
    ∀ (R : List ListItem) (lv : Nat) (v : List StyledText) (kids : List ListItem)
      (cur : ItemPtr),
    ∃ st, listLoop ⟨R ++ [.mk lv v kids], R.length, cur⟩ ls = .ok (st, []) ∧
      st.rootList = R ++ [.mk lv v (kids ++ subItems ls)] ++ topItems ls := by
  intro ls
  induction ls with
  | nil =>
    intro _ R lv v kids cur
    exact ⟨_, rfl, by simp [subItems, topItems]⟩
  | cons l ls ih =>
    intro h R lv v kids cur
    obtain ⟨hcp, htext, hv⟩ := twoLevelLine_iff l (h l (List.mem_cons_self _ _))
    have hls : ∀ x ∈ ls, twoLevelLine x = true := fun x hx => h x (List.mem_cons_of_mem _ hx)
    rcases hcp with hcp | hcp
    · have hsw := listSwitch_one ⟨R ++ [.mk lv v kids], R.length, cur⟩
      rw [← hcp] at hsw
      rw [listLoop_step _ _ l ls _ (by omega) htext hv hsw]
      simp only [modifyItem, modify_append_length, setValue, ListItem.Level, ListItem.Sublist]
      obtain ⟨st, h1, h2⟩ := ih hls (R ++ [ListItem.mk lv v kids]) (countPrefix l 45)
        (scanValue (itemText l)) [] (.root (R ++ [ListItem.mk lv v kids]).length)
      refine ⟨st, h1, ?_⟩
      rw [h2]
      simp [subItems, topItems, hcp]
    · have hsw := listSwitch_two R (.mk lv v kids) cur
      rw [← hcp] at hsw
      rw [listLoop_step _ _ l ls _ (by omega) htext hv hsw]
      simp only [modifyItem, modify_append_length, setValue, ListItem.Level, ListItem.Sublist,
        ListItem.Value, appendSub]
      obtain ⟨st, h1, h2⟩ := ih hls R lv v (kids ++ [ListItem.mk (countPrefix l 45)
        (scanValue (itemText l)) []]) (.sub R.length kids.length)
      refine ⟨st, h1, ?_⟩
      rw [h2]
      simp [subItems, topItems, hcp]

theorem length_topItems (ls : List Str) :
    (topItems ls).length = (ls.filter (fun l => countPrefix l 45 == 1)).length := by
  induction ls with
  | nil => rfl
  | cons l ls ih =>
    by_cases h : countPrefix l 45 = 1
    · simp [topItems, h, ih]
    · simp [topItems, h, ih]

theorem topItems_sublists (ls : List Str) :
    ∀ x ∈ topItems ls, x.Level = 1 ∧ ∀ y ∈ x.Sublist, y.Level = 2 ∧ y.Sublist = [] := by
  induction ls with
  | nil => intro x hx; simp [topItems] at hx
  | cons l ls ih =>
    intro x hx
    unfold topItems at hx
    split_ifs at hx with h
    · rcases List.mem_cons.mp hx with rfl | hx
      · refine ⟨rfl, ?_⟩
        intro y hy
        simp only [ListItem.Sublist, subItems, List.mem_map] at hy
        obtain ⟨a, _, rfl⟩ := hy
        exact ⟨rfl, rfl⟩
      · exact ih x hx
    · exact ih x hx

theorem mem_modify {α : Type} (f : α → α) : ∀ (l : List α) (n : Nat) (x : α),
    x ∈ List.modify f n l → x ∈ l ∨ ∃ y ∈ l, x = f y := by
  intro l
  induction l with
  | nil => intro n x h; cases n <;> simp [List.modify_nil] at h
  | cons a l ih =>
    intro n x h
    rcases n with _ | n
    · simp only [List.modify_zero_cons, List.mem_cons] at h
      rcases h with h | h
      · exact Or.inr ⟨a, List.mem_cons_self _ _, h⟩
      · exact Or.inl (List.mem_cons_of_mem _ h)
    · simp only [List.modify_succ_cons, List.mem_cons] at h
      rcases h with h | h
      · exact Or.inl (h ▸ List.mem_cons_self _ _)
      · rcases ih n x h with h1 | ⟨y, hy, h1⟩
        · exact Or.inl (List.mem_cons_of_mem _ h1)
        · exact Or.inr ⟨y, List.mem_cons_of_mem _ hy, h1⟩

theorem mem_tail_modify {α : Type} (f : α → α) (l : List α) (n : Nat) (x : α)
    (h : x ∈ (List.modify f n l).tail) : x ∈ l.tail ∨ ∃ y ∈ l.tail, x = f y := by
  rcases l with _ | ⟨a, l⟩
  · cases n <;> simp [List.modify_nil] at h
  · rcases n with _ | n
    · simp only [List.modify_zero_cons, List.tail_cons] at h
      exact Or.inl h
    · simp only [List.modify_succ_cons, List.tail_cons] at h
      exact mem_modify f l n x h

theorem mem_tail_append {α : Type} (R : List α) (y x : α) (h : x ∈ (R ++ [y]).tail) :
    x ∈ R.tail ∨ x = y := by
  rcases R with _ | ⟨a, R⟩
  · simp at h
  · simp only [List.cons_append, List.tail_cons, List.mem_append, List.mem_singleton] at h
    exact h

theorem levelsOK_modify (f : ListItem → ListItem)
    (hf : ∀ x, (f x).Level = x.Level ∧ (topOK x → topOK (f x)))
    (l : List ListItem) (n : Nat) (h : levelsOK l) : levelsOK (List.modify f n l) := by
  refine ⟨fun x hx => ?_, fun x hx => ?_⟩
  · rcases mem_modify f l n x hx with h1 | ⟨y, hy, rfl⟩
    · exact h.1 x h1
    · exact (hf y).2 (h.1 y hy)
  · rcases mem_tail_modify f l n x hx with h1 | ⟨y, hy, rfl⟩
    · exact h.2 x h1
    · rw [(hf y).1]
      exact h.2 y hy

theorem topOK_modify_sub (f : ListItem → ListItem) (hf : ∀ y, subOK y → subOK (f y))
    (j : Nat) (x : ListItem) :
    (ListItem.mk x.Level x.Value (List.modify f j x.Sublist)).Level = x.Level ∧
      (topOK x → topOK (ListItem.mk x.Level x.Value (List.modify f j x.Sublist))) := by
  refine ⟨rfl, fun h => ⟨h.1, fun y hy => ?_⟩⟩
  simp only [ListItem.Sublist] at hy
  rcases mem_modify f _ j y hy with h1 | ⟨z, hz, rfl⟩
  · exact h.2 y h1
  · exact hf z (h.2 z hz)

theorem levelsOK_modifyItem (f : ListItem → ListItem)
    (hf : ∀ x, (f x).Level = x.Level ∧ (topOK x → topOK (f x)))
    (hs : ∀ y, subOK y → subOK (f y)) (l : List ListItem) (ptr : ItemPtr) (h : levelsOK l) :
    levelsOK (modifyItem l f ptr) := by
  cases ptr with
  | root p => exact levelsOK_modify f hf l p h
  | sub p j => exact levelsOK_modify _ (topOK_modify_sub f hs j) l p h

theorem setValue_top (v : List StyledText) (x : ListItem) :
    (setValue v x).Level = x.Level ∧ (topOK x → topOK (setValue v x)) :=
  ⟨rfl, fun h => h⟩

theorem setValue_sub (v : List StyledText) (y : ListItem) (h : subOK y) :
    subOK (setValue v y) := h

theorem appendSub_top (sl : Nat) (hsl : 2 ≤ sl) (x : ListItem) :
    (appendSub sl x).Level = x.Level ∧ (topOK x → topOK (appendSub sl x)) := by
  refine ⟨rfl, fun h => ⟨h.1, fun y hy => ?_⟩⟩
  simp only [appendSub, ListItem.Sublist, List.mem_append, List.mem_singleton] at hy
  rcases hy with hy | rfl
  · exact h.2 y hy
  · exact ⟨hsl, fun z hz => absurd hz (List.not_mem_nil _)⟩

theorem appendSub_sub (sl : Nat) (hsl : 3 ≤ sl) (y : ListItem) (h : subOK y) :
    subOK (appendSub sl y) := by
  refine ⟨h.1, fun z hz => ?_⟩
  simp only [appendSub, ListItem.Sublist, List.mem_append, List.mem_singleton] at hz
  rcases hz with hz | rfl
  · exact h.2 z hz
  · exact ⟨hsl, rfl⟩

theorem listSwitch_levelsOK (st st1 : ListState) (sl : Nat) (hsl : sl ≠ 0)
    (h : listSwitch st sl = .ok st1) (hok : levelsOK st.rootList) : levelsOK st1.rootList := by
  unfold listSwitch at h
  dsimp only at h
  split_ifs at h with s1 s2
  · simp only [Res.ok.injEq] at h
    rw [← h]
    refine ⟨fun x hx => ?_, fun x hx => ?_⟩
    · rcases List.mem_append.mp hx with h1 | h1
      · exact hok.1 x h1
      · rw [List.mem_singleton.mp h1]
        exact ⟨by simp [ListItem.Level, s1], fun y hy => absurd hy (List.not_mem_nil _)⟩
    · rcases mem_tail_append _ _ _ hx with h1 | h1
      · exact hok.2 x h1
      · rw [h1]; exact s1
  · split at h
    · simp only [Res.ok.injEq] at h
      rw [← h]
      exact levelsOK_modify _ (appendSub_top sl (by omega)) _ _ hok
    · simp at h
  · split at h
    · split_ifs at h
      simp only [Res.ok.injEq] at h
      rw [← h]
      exact levelsOK_modifyItem _ (appendSub_top sl (by omega)) (appendSub_sub sl (by omega))
        _ _ hok
    · simp at h

theorem listLoop_levelsOK : ∀ (ls : List Str) (st st1 : ListState) (r : List Str),
    listLoop st ls = .ok (st1, r) → levelsOK st.rootList → levelsOK st1.rootList := by
  intro ls
  induction ls with
  | nil =>
    intro st st1 r h hok
    simp only [listLoop, Res.ok.injEq, Prod.mk.injEq] at h
    rw [← h.1]
    exact hok
  | cons l ls ih =>
    intro st st1 r h hok
    rw [listLoop] at h
    dsimp only at h
    split_ifs at h with c1 c2 c3
    · simp only [Res.ok.injEq, Prod.mk.injEq] at h
      rw [← h.1]
      exact hok
    · simp only [Res.ok.injEq, Prod.mk.injEq] at h
      rw [← h.1]
      exact hok
    · exact ih _ _ _ h hok
    · split at h
      · rename_i st2 hsw
        split at h
        · refine ih _ _ _ h ?_
          exact levelsOK_modifyItem _ (setValue_top _) (setValue_sub _) _ _
            (listSwitch_levelsOK _ _ _ c2 hsw hok)
        · exact absurd h (by simp)
        · exact absurd h (by simp)
      · exact absurd h (by simp)
      · exact absurd h (by simp)

theorem levels_mk (l : Nat) (v : List StyledText) (s : List ListItem) :
    (ListItem.mk l v s).levels = l :: levelsOf s := by
  simp [ListItem.levels]

theorem levelsOf_nil : levelsOf [] = [] := by
  simp [levelsOf]

theorem levelsOf_cons (x : ListItem) (xs : List ListItem) :
    levelsOf (x :: xs) = x.levels ++ levelsOf xs := by
  simp [levelsOf]

theorem levels_eq (x : ListItem) : x.levels = x.Level :: levelsOf x.Sublist := by
  cases x
  rw [levels_mk]
  rfl

theorem levelsOf_append (a b : List ListItem) :
    levelsOf (a ++ b) = levelsOf a ++ levelsOf b := by
  induction a with
  | nil => simp [levelsOf_nil]
  | cons x a ih => simp [levelsOf_cons, ih]

theorem levelsOf_modify_eq (f : ListItem → ListItem) (hf : ∀ x, (f x).levels = x.levels) :
    ∀ (l : List ListItem) (n : Nat), levelsOf (List.modify f n l) = levelsOf l := by
  intro l
  induction l with
  | nil => intro n; simp
  | cons a l ih =>
    intro n
    rcases n with _ | n
    · simp [levelsOf_cons, hf]
    · simp [levelsOf_cons, ih]

theorem levelsOf_modify_perm (f : ListItem → ListItem) (c : Nat) :
    ∀ (l : List ListItem) (n : Nat) (x : ListItem), l.get? n = some x →
      List.Perm (f x).levels (c :: x.levels) →
      List.Perm (levelsOf (List.modify f n l)) (c :: levelsOf l) := by
  intro l
  induction l with
  | nil => intro n x h; simp at h
  | cons a l ih =>
    intro n x h hp
    rcases n with _ | n
    · simp only [List.get?_cons_zero, Option.some.injEq] at h
      subst h
      simp only [List.modify_zero_cons, levelsOf_cons]
      exact (hp.append_right _).trans (by simp)
    · simp only [List.get?_cons_succ] at h
      simp only [List.modify_succ_cons, levelsOf_cons]
      exact ((ih n x h hp).append_left _).trans List.perm_middle

theorem setValue_levels (v : List StyledText) (x : ListItem) :
    (setValue v x).levels = x.levels := by
  cases x
  simp [setValue, levels_mk, ListItem.Level, ListItem.Sublist]

theorem appendSub_levels (sl : Nat) (x : ListItem) :
    List.Perm (appendSub sl x).levels (sl :: x.levels) := by
  cases x with
  | mk l v s =>
    simp only [appendSub, levels_mk, ListItem.Level, ListItem.Value, ListItem.Sublist,
      levelsOf_append, levelsOf_cons, levelsOf_nil, List.append_nil]
    have h : List.Perm (l :: (levelsOf s ++ [sl])) (l :: sl :: levelsOf s) :=
      List.Perm.cons l (List.perm_append_singleton sl (levelsOf s))
    exact h.trans (List.Perm.swap sl l (levelsOf s))

/-- Setting a value changes no level. -/
theorem levelsOf_modifyItem_setValue (v : List StyledText) (R : List ListItem) (ptr : ItemPtr) :
    levelsOf (modifyItem R (setValue v) ptr) = levelsOf R := by
  cases ptr with
  | root p => exact levelsOf_modify_eq _ (setValue_levels v) R p
  | sub p j =>
    refine levelsOf_modify_eq _ (fun x => ?_) R p
    rw [levels_mk, levelsOf_modify_eq _ (setValue_levels v), ← levels_eq]

theorem get?_of_modify {α : Type} (f : α → α) (l : List α) (n : Nat) (c : α)
    (h : (List.modify f n l).get? n = some c) : ∃ x, l.get? n = some x ∧ c = f x := by
  rw [List.get?_eq_getElem?, List.getElem?_modify_eq] at h
  rw [List.get?_eq_getElem?]
  cases hx : l[n]? with
  | none => rw [hx] at h; simp at h
  | some x =>
    rw [hx] at h
    simp only [Option.map_eq_map, Option.map_some', Option.some.injEq] at h
    exact ⟨x, rfl, h.symm⟩

/-- Appending an item through a pointer that points to an item adds the level
of the new item to the levels of the list. -/
theorem levelsOf_modifyItem_appendSub (sl : Nat) (R : List ListItem) (ptr : ItemPtr)
    (c : ListItem) (h : getItem (modifyItem R (appendSub sl) ptr) ptr = some c) :
    List.Perm (levelsOf (modifyItem R (appendSub sl) ptr)) (sl :: levelsOf R) := by
  cases ptr with
  | root p =>
    simp only [getItem, modifyItem] at h
    obtain ⟨x, hx, _⟩ := get?_of_modify _ _ _ _ h
    exact levelsOf_modify_perm _ sl R p x hx (appendSub_levels sl x)
  | sub p j =>
    simp only [getItem, modifyItem] at h
    cases hg : (List.modify (fun it => ListItem.mk it.Level it.Value
        (List.modify (appendSub sl) j it.Sublist)) p R).get? p with
    | none => rw [hg] at h; simp at h
    | some it =>
      rw [hg] at h
      obtain ⟨x, hx, rfl⟩ := get?_of_modify _ _ _ _ hg
      simp only [ListItem.Sublist] at h
      obtain ⟨y, hy, _⟩ := get?_of_modify _ _ _ _ h
      refine levelsOf_modify_perm _ sl R p x hx ?_
      rw [levels_mk, levels_eq x]
      have h1 := levelsOf_modify_perm (appendSub sl) sl x.Sublist j y hy (appendSub_levels sl y)
      exact (List.Perm.cons x.Level h1).trans (List.Perm.swap sl x.Level _)

/-- The `switch` of the list loop adds one item, of level `sl`. -/
theorem listSwitch_levels (st st1 : ListState) (sl : Nat) (h : listSwitch st sl = .ok st1) :
    List.Perm (levelsOf st1.rootList) (sl :: levelsOf st.rootList) := by
  unfold listSwitch at h
  dsimp only at h
  split_ifs at h with s1 s2
  · simp only [Res.ok.injEq] at h
    rw [← h]
    simp only [levelsOf_append, levelsOf_cons, levelsOf_nil, levels_mk, List.append_nil]
    exact List.perm_append_singleton sl _
  · split at h
    · rename_i par hpar
      simp only [Res.ok.injEq] at h
      rw [← h]
      exact levelsOf_modifyItem_appendSub sl _ _ par hpar
    · simp at h
  · split at h
    · rename_i cur par hcur hpar
      split_ifs at h
      simp only [Res.ok.injEq] at h
      rw [← h]
      exact levelsOf_modifyItem_appendSub sl _ _ cur hcur
    · simp at h

theorem headLevel_modify (f : ListItem → ListItem) (hf : ∀ x, (f x).Level = x.Level)
    (l : List ListItem) (n : Nat) :
    (List.modify f n l).head?.map ListItem.Level = l.head?.map ListItem.Level := by
  rcases l with _ | ⟨a, l⟩
  · simp
  · rcases n with _ | n
    · simp [hf]
    · simp

theorem headLevel_modifyItem (f : ListItem → ListItem) (hf : ∀ x, (f x).Level = x.Level)
    (R : List ListItem) (ptr : ItemPtr) :
    (modifyItem R f ptr).head?.map ListItem.Level = R.head?.map ListItem.Level := by
  cases ptr with
  | root p => exact headLevel_modify f hf R p
  | sub p j =>
    exact headLevel_modify
      (fun it => ListItem.mk it.Level it.Value (List.modify f j it.Sublist)) (fun _ => rfl) R p

theorem ne_nil_of_length_le (a b : List ListItem) (h : a.length ≤ b.length) (ha : a ≠ []) :
    b ≠ [] := by
  intro e
  rw [e] at h
  exact ha (List.length_eq_zero.mp (by simpa using h))

/-- The `switch` of the list loop keeps the level of the first item. -/
theorem listSwitch_head (st st1 : ListState) (sl : Nat) (h : listSwitch st sl = .ok st1)
    (hne : st.rootList ≠ []) :
    st1.rootList.head?.map ListItem.Level = st.rootList.head?.map ListItem.Level := by
  unfold listSwitch at h
  dsimp only at h
  split_ifs at h with s1 s2
  · simp only [Res.ok.injEq] at h
    rw [← h]
    rcases hr : st.rootList with _ | ⟨a, t⟩
    · exact absurd hr hne
    · simp
  · split at h
    · simp only [Res.ok.injEq] at h
      rw [← h]
      dsimp only
      exact headLevel_modifyItem (appendSub sl) (fun _ => rfl) _ _
    · simp at h
  · split at h
    · split_ifs at h
      simp only [Res.ok.injEq] at h
      rw [← h]
      dsimp only
      exact headLevel_modifyItem (appendSub sl) (fun _ => rfl) _ _
    · simp at h

theorem head?_of_getD (l : Str) (d : Nat) (hl : l.length ≠ 0) (hg : l.getD 0 0 = d) :
    l.head? = some d := by
  rcases l with _ | ⟨b, t⟩
  · simp at hl
  · simp only [List.getD_cons_zero] at hg
    simp [hg]

/-- The list loop: the lines it passes all start with a dash, the levels of the
root list grow by the dash counts of the passed lines that have item text, and
the level of the first item is kept. -/
theorem listLoop_levels : ∀ (ls : List Str) (st st1 : ListState) (r : List Str),
    listLoop st ls = .ok (st1, r) → st.rootList ≠ [] →
    ∃ used, ls = used ++ r ∧ (∀ l ∈ used, l.head? = some 45) ∧
      List.Perm (levelsOf st1.rootList)
        (levelsOf st.rootList ++ (used.filter hasItemText).map dashCount) ∧
      st1.rootList.head?.map ListItem.Level = st.rootList.head?.map ListItem.Level := by
  intro ls
  induction ls with
  | nil =>
    intro st st1 r h _
    simp only [listLoop, Res.ok.injEq, Prod.mk.injEq] at h
    rw [← h.1, ← h.2]
    exact ⟨[], rfl, fun l hl => absurd hl (List.not_mem_nil _), by simp, rfl⟩
  | cons l ls ih =>
    intro st st1 r h hne
    rw [listLoop] at h
    dsimp only at h
    split_ifs at h with c1 c2 c3
    · simp only [Res.ok.injEq, Prod.mk.injEq] at h
      rw [← h.1, ← h.2]
      exact ⟨[], rfl, fun l hl => absurd hl (List.not_mem_nil _), by simp, rfl⟩
    · simp only [Res.ok.injEq, Prod.mk.injEq] at h
      rw [← h.1, ← h.2]
      exact ⟨[], rfl, fun l hl => absurd hl (List.not_mem_nil _), by simp, rfl⟩
    · simp only [Bool.or_eq_true, decide_eq_true_eq, not_or, ne_eq, not_not] at c1
      have hhead := head?_of_getD l 45 c1.1 c1.2
      obtain ⟨used, h1, h2, h3, h4⟩ := ih _ _ _ h hne
      have hno : hasItemText l = false := by
        simp only [hasItemText, itemText, bne_eq_false_iff_eq]
        exact List.length_eq_zero.mp c3
      refine ⟨l :: used, by rw [h1]; rfl, ?_, ?_, h4⟩
      · intro x hx
        rcases List.mem_cons.mp hx with rfl | hx
        · exact hhead
        · exact h2 x hx
      · rw [List.filter_cons_of_neg (by rw [hno]; simp)]
        exact h3
    · simp only [Bool.or_eq_true, decide_eq_true_eq, not_or, ne_eq, not_not] at c1
      have hhead := head?_of_getD l 45 c1.1 c1.2
      split at h
      · rename_i st2 hsw
        split at h
        · rename_i v hv
          have hne2 : st2.rootList ≠ [] :=
            ne_nil_of_length_le _ _ (listSwitch_length _ _ _ hsw) hne
          have hne3 : modifyItem st2.rootList (setValue v) st2.curItem ≠ [] := fun e =>
            hne2 (List.length_eq_zero.mp (by
              rw [← length_modifyItem st2.rootList (setValue v) st2.curItem, e]; rfl))
          obtain ⟨used, h1, h2, h3, h4⟩ := ih _ _ _ h hne3
          have hyes : hasItemText l = true := by
            simp only [hasItemText, itemText, bne_iff_ne, ne_eq]
            exact fun e => c3 (by rw [e]; rfl)
          refine ⟨l :: used, by rw [h1]; rfl, ?_, ?_, ?_⟩
          · intro x hx
            rcases List.mem_cons.mp hx with rfl | hx
            · exact hhead
            · exact h2 x hx
          · rw [List.filter_cons_of_pos hyes, List.map_cons]
            simp only [levelsOf_modifyItem_setValue] at h3
            refine h3.trans ?_
            refine ((listSwitch_levels _ _ _ hsw).append_right _).trans ?_
            exact List.perm_middle.symm
          · simp only [headLevel_modifyItem (setValue v) (fun _ => rfl)] at h4
            rw [h4]
            exact listSwitch_head _ _ _ hsw hne
        · exact absurd h (by simp)
        · exact absurd h (by simp)
      · exact absurd h (by simp)
      · exact absurd h (by simp)

theorem caseEmbed_no_list (line : Str) (ls : List Line) (he : caseEmbed line = .ok ls)
    (items : List ListItem) : Line.List items ∉ ls := by
  intro hl
  unfold caseEmbed at he
  dsimp only at he
  split_ifs at he
  · split at he
    · simp only [Res.ok.injEq] at he
      rw [← he] at hl
      simp at hl
    · simp at he
    · simp at he
  · simp only [Res.ok.injEq] at he
    rw [← he] at hl
    simp at hl
  · simp only [Res.ok.injEq] at he
    rw [← he] at hl
    simp at hl

theorem drop_suffix (raw : Str) (rest r : List Str) (n : Nat) (hlen : r.length ≤ rest.length)
    (h : (raw :: rest).drop n = r) : ∃ used, rest = used ++ r := by
  rcases n with _ | m
  · simp only [List.drop_zero] at h
    rw [← h] at hlen
    simp at hlen
  · simp only [List.drop_succ_cons] at h
    exact ⟨rest.take m, by rw [← h, List.take_append_drop]⟩

theorem step_without_list (raw : Str) (rest r0 r : List Str) (p q : List Line)
    (hq : ∀ items, Line.List items ∉ q) (hr : ∃ used, rest = used ++ r0)
    (h : (Res.ok (r0, q) : Res (List Str × List Line)) = .ok (r, p)) :
    ∃ used, rest = used ++ r ∧ ∀ items, Line.List items ∈ p → listOfLines raw used items := by
  simp only [Res.ok.injEq, Prod.mk.injEq] at h
  obtain ⟨used, hu⟩ := hr
  refine ⟨used, by rw [hu, h.1], ?_⟩
  intro items hi
  rw [← h.2] at hi
  exact absurd hi (hq items)

/-- An iteration of the main loop of `Parse` passes the line it starts at and
some of the lines after it, and a list it emits was read from those lines. -/
theorem parseStep_lists (isLatin isUpper : Nat → Bool) (raw : Str) (rest r : List Str)
    (p : List Line) (h : parseStep isLatin isUpper raw rest [] = .ok (r, p)) :
    ∃ used, rest = used ++ r ∧ ∀ items, Line.List items ∈ p → listOfLines raw used items := by
  have hlen := parseStep_length isLatin isUpper raw rest [] r p h
  unfold parseStep at h
  dsimp only at h
  split_ifs at h with h0 h1 h2 h3 h4 h5 h6 h7 h8 h9
  · exact step_without_list raw rest rest r p _ (by simp) ⟨[], rfl⟩ h
  · exact step_without_list raw rest rest r p _ (by simp) ⟨[], rfl⟩ h
  · exact step_without_list raw rest rest r p _ (by simp) ⟨[], rfl⟩ h
  · exact step_without_list raw rest rest r p _ (by simp) ⟨[], rfl⟩ h
  · -- embed
    split at h
    · rename_i ls he
      simp only [Res.ok.injEq, Prod.mk.injEq, List.nil_append] at h
      refine ⟨[], by rw [← h.1]; rfl, ?_⟩
      intro items hi
      rw [← h.2] at hi
      exact absurd hi (caseEmbed_no_list _ _ he items)
    · simp at h
    · simp at h
  · exact step_without_list raw rest rest r p _ (by simp) ⟨[], rfl⟩ h
  · -- list
    split at h
    · split at h
      · rename_i v hv x st rest1 hl
        simp only [Res.ok.injEq, Prod.mk.injEq, List.nil_append] at h
        have hne : trimRightSpace raw ≠ [] := fun e => h0 (by rw [e]; rfl)
        have hcp : countPrefix (trimRightSpace raw) 45 = dashCount raw :=
          countPrefix_trimRightSpace_of_not_space raw 45 (by decide) (by decide)
        have hraw : raw.head? = some 45 := by
          have hg := trimRightSpace_getD_zero raw hne
          rw [h5] at hg
          refine head?_of_getD raw 45 ?_ hg.symm
          intro e
          have : raw = [] := List.length_eq_zero.mp e
          rw [this] at hne
          exact hne rfl
        rw [h5] at hl
        obtain ⟨used, u1, u2, u3, u4⟩ := listLoop_levels _ _ _ _ hl (by simp)
        refine ⟨used, by rw [u1, h.1], ?_⟩
        intro items hi
        rw [← h.2, List.mem_singleton] at hi
        simp only [Line.List.injEq] at hi
        rw [hi]
        refine ⟨?_, ?_, ?_, ?_⟩
        · intro l hl2
          rcases List.mem_cons.mp hl2 with rfl | hl2
          · exact hraw
          · exact u2 l hl2
        · rw [u4]
          simp [ListItem.Level, hcp]
        · refine listLoop_levelsOK _ _ _ _ hl ⟨fun y hy => ?_, fun y hy => ?_⟩
          · rw [List.mem_singleton.mp hy]
            refine ⟨?_, fun z hz => absurd hz (List.not_mem_nil _)⟩
            have := countPrefix_pos _ hne
            rw [h5] at this
            exact this
          · simp at hy
        · refine u3.trans ?_
          simp [levelsOf_cons, levelsOf_nil, levels_mk, hcp]
      · simp at h
      · simp at h
    · simp at h
    · simp at h
  · -- block
    refine step_without_list raw rest _ r p _ (by simp) ?_ h
    refine drop_suffix raw rest _ _ ?_ rfl
    simp only [Res.ok.injEq, Prod.mk.injEq] at h
    rw [h.1]
    exact hlen
  · -- block without body
    refine step_without_list raw rest _ r p _ (by simp) ?_ h
    refine drop_suffix raw rest _ _ ?_ rfl
    simp only [Res.ok.injEq, Prod.mk.injEq] at h
    rw [h.1]
    exact hlen
  · exact step_without_list raw rest rest r p _ (by simp) ⟨[], rfl⟩ h
  · -- paragraph
    split at h
    · simp only [Res.ok.injEq, Prod.mk.injEq, List.nil_append] at h
      refine ⟨[], by rw [← h.1]; rfl, ?_⟩
      intro items hi
      rw [← h.2] at hi
      simp at hi
    · simp at h
    · simp at h

/-- A property of the lists of a document that holds of every list read from
lines of the source holds of every list that the main loop of `Parse` emits. -/
theorem parseMain_lists (isLatin isUpper : Nat → Bool) (all : List Str)
    (Q : List ListItem → Prop)
    (hQ : ∀ (pre : List Str) (first : Str) (more post : List Str) (items : List ListItem),
      all = pre ++ first :: more ++ post → listOfLines first more items → Q items)
    (f : Nat) : ∀ (lines : List Str) (parsed out : List Line) (pre : List Str),
      all = pre ++ lines → (∀ items, Line.List items ∈ parsed → Q items) →
      parseMain isLatin isUpper f lines parsed = .ok out →
      ∀ items, Line.List items ∈ out → Q items := by
  induction f with
  | zero =>
    intro lines parsed out pre _ hp h
    rcases lines with _ | ⟨raw, rest⟩
    · simp only [parseMain, Res.ok.injEq] at h
      rw [← h]
      exact hp
    · simp [parseMain] at h
  | succ f ih =>
    intro lines parsed out pre hall hp h
    rcases lines with _ | ⟨raw, rest⟩
    · simp only [parseMain, Res.ok.injEq] at h
      rw [← h]
      exact hp
    · rw [parseMain_succ, parseStep_acc] at h
      cases hs : parseStep isLatin isUpper raw rest [] with
      | ok rp =>
        obtain ⟨r, p⟩ := rp
        rw [hs] at h
        obtain ⟨used, hu, hlist⟩ := parseStep_lists isLatin isUpper raw rest r p hs
        refine ih r (parsed ++ p) out (pre ++ raw :: used) ?_ ?_ h
        · rw [hall, hu]
          simp
        · intro items hi
          rcases List.mem_append.mp hi with hi | hi
          · exact hp items hi
          · exact hQ pre raw used r items (by rw [hall, hu]; simp) (hlist items hi)
      | panic => rw [hs] at h; simp at h
      | timeout => rw [hs] at h; simp at h

theorem dashCount_pos (l : Str) (h : l.head? = some 45) : 1 ≤ dashCount l := by
  rcases l with _ | ⟨b, t⟩
  · simp at h
  · simp only [List.head?_cons, Option.some.injEq] at h
    subst h
    simp [dashCount, countPrefix]

/-- The list loop on a run of two-dash lines: their items are appended to the
sublist of the current parent, and the current item is the last of them. -/
theorem listLoop_twos : ∀ (twos : List Str),
    (∀ l ∈ twos, countPrefix l 45 = 2 ∧ twoLevelLine l = true) →
    ∀ (R : List ListItem) (lv : Nat) (v : List StyledText) (kids : List ListItem)
      (cur : ItemPtr) (tail : List Str),
    listLoop ⟨R ++ [.mk lv v kids], R.length, cur⟩ (twos ++ tail)
      = listLoop ⟨R ++ [.mk lv v (kids ++ subItems twos)], R.length,
          match twos with
          | [] => cur
          | _ :: _ => .sub R.length (kids.length + twos.length - 1)⟩ tail := by
  intro twos
  induction twos with
  | nil =>
    intro _ R lv v kids cur tail
    simp [subItems]
  | cons l ls ih =>
    intro h R lv v kids cur tail
    obtain ⟨hcp, hl⟩ := h l (List.mem_cons_self _ _)
    obtain ⟨_, htext, hv⟩ := twoLevelLine_iff l hl
    have hls : ∀ x ∈ ls, countPrefix x 45 = 2 ∧ twoLevelLine x = true :=
      fun x hx => h x (List.mem_cons_of_mem _ hx)
    have hsw := listSwitch_two R (.mk lv v kids) cur
    rw [← hcp] at hsw
    rw [List.cons_append, listLoop_step _ _ l (ls ++ tail) _ (by omega) htext hv hsw]
    simp only [modifyItem, modify_append_length, setValue, ListItem.Level, ListItem.Sublist,
      ListItem.Value, appendSub]
    rw [ih hls R lv v (kids ++ [ListItem.mk (countPrefix l 45) (scanValue (itemText l)) []])
      (.sub R.length kids.length) tail]
    have e1 : kids ++ [ListItem.mk (countPrefix l 45) (scanValue (itemText l)) []] ++ subItems ls
        = kids ++ subItems (l :: ls) := by
      have e2 : subItems (l :: ls)
          = ListItem.mk 2 (scanValue (itemText l)) [] :: subItems ls := by
        simp [subItems, hcp]
      rw [e2, hcp]
      simp
    rw [e1]
    rcases ls with _ | ⟨l2, ls2⟩
    · simp
    · simp only [List.length_append, List.length_cons, List.length_nil]
      have e3 : kids.length + (0 + 1) + (ls2.length + 1) - 1
          = kids.length + (ls2.length + 1 + 1) - 1 := by omega
      rw [e3]

/-- The `switch` on a line of three or more dashes when the current item is
the last item, without sublist, of the sublist of the current parent: the new
item goes into the sublist of the current item, and the current item becomes
the first item of the sublist of the current parent. -/
theorem listSwitch_deep (R : List ListItem) (lv : Nat) (v : List StyledText)
    (pre : List ListItem) (l2 : Nat) (v2 : List StyledText) (n : Nat) (hn : 3 ≤ n) :
    listSwitch ⟨R ++ [.mk lv v (pre ++ [.mk l2 v2 []])], R.length, .sub R.length pre.length⟩ n
      = .ok ⟨R ++ [.mk lv v (pre ++ [.mk l2 v2 [.mk n [] []]])], R.length, .sub R.length 0⟩ := by
  have h1 : n ≠ 1 := by omega
  have h2 : n ≠ 2 := by omega
  simp only [listSwitch, h1, h2, if_false, modifyItem, getItem, modify_append_length,
    get?_append_length, appendSub, ListItem.Level, ListItem.Value, ListItem.Sublist,
    List.nil_append, List.length_singleton, Nat.sub_self, List.length_append]
  rw [if_pos (by omega)]

theorem map_Sublist_modify_setValue (v : List StyledText) : ∀ (l : List ListItem) (n : Nat),
    (List.modify (setValue v) n l).map ListItem.Sublist = l.map ListItem.Sublist := by
  intro l
  induction l with
  | nil => intro n; cases n <;> rfl
  | cons a l ih =>
    intro n
    rcases n with _ | n
    · simp only [List.modify_zero_cons, List.map_cons]
      rfl
    · simp only [List.modify_succ_cons, List.map_cons, ih]

theorem map_Sublist_subItems (ls : List Str) :
    (subItems ls).map ListItem.Sublist = List.replicate (subItems ls).length [] := by
  unfold subItems
  induction ls.takeWhile (fun l => countPrefix l 45 == 2) with
  | nil => rfl
  | cons a t ih =>
    simp only [List.map_cons, List.length_cons, List.replicate_succ, List.cons.injEq]
    exact ⟨rfl, ih⟩

theorem subItems_of_twos (ls : List Str) (h : ∀ l ∈ ls, countPrefix l 45 = 2) :
    subItems ls = ls.map (fun l => ListItem.mk 2 (scanValue (itemText l)) []) := by
  unfold subItems
  rw [List.takeWhile_eq_self_iff.mpr]
  intro l hl
  simp [h l hl]

/-! ## The claims -/

/-- C1. The inline scanner does fail: on a lone delimiter (a star, a backquote,
an opening bracket or brace) and on the two-byte input of two stars the slice
of the inner text has its lower bound above its upper bound, and
`ParseStyledText` panics. -/
theorem ParseStyledText_panics_on_lone_delimiter :
    ParseStyledText (bytes "*") = .panic ∧ ParseStyledText (bytes "\x60") = .panic ∧
    ParseStyledText (bytes "[") = .panic ∧ ParseStyledText (bytes "\x7b") = .panic ∧
    ParseStyledText (bytes "**") = .panic ∧ ParseStyledText (bytes "*b**") = .panic := by
  decide

/-- C2. The list scanner does fail: on the four list lines `- a`, `-- b`,
`--- c`, `--- d` the second line of three dashes appends to the sublist of the
current item (which then has two entries) and indexes the sublist of the
current parent (which has one) with `len(curItem.Sublist)-1 = 1`: `Parse`
panics, whatever the Unicode tables. -/
theorem Parse_panics_on_deep_list (isLatin isUpper : Nat → Bool) :
    Parse isLatin isUpper (bytes "- a\n-- b\n--- c\n--- d") = .panic := by
  rfl

/-- C3. Header predicate: a single line whose right-trimmed form is non-empty
and whose first byte is no delimiter of the block scanner is emitted as the
header of its trimmed form exactly when every Latin-script rune of the line is
uppercase and the line has a Latin-script rune (other runes are ignored);
otherwise it is emitted as a paragraph, the inline scan of the trimmed line,
never as a header.  Of the table `isLatin` it is assumed that no white space
rune is Latin. -/
theorem header_predicate (isLatin isUpper : Nat → Bool)
    (hsp : ∀ r, IsSpace r = true → isLatin r = false) (line : Str) (hnl : 10 ∉ line)
    (hne : trimRightSpace line ≠ []) (hd : noBlockDelim line) :
    (Parse isLatin isUpper line = .ok [Line.Header (trimRightSpace line)] ↔
      IsHeaderLine isLatin isUpper line) ∧
    (¬ IsHeaderLine isLatin isUpper line →
      Parse isLatin isUpper line =
        match ParseStyledText (trimRightSpace line) with
        | .ok p => .ok [Line.Paragraph p]
        | .panic => .panic
        | .timeout => .timeout) := by
  have hd2 : noBlockDelim (trimRightSpace line) := by
    unfold noBlockDelim
    rw [trimRightSpace_getD_zero line hne]
    exact hd
  have hP : Parse isLatin isUpper line = parseMain isLatin isUpper 1 [line] [] := by
    unfold Parse
    rw [Split_no_newline line hnl]
    rfl
  have hmain := parseMain_default isLatin isUpper 0 line [] [] hne hd2
  simp only [parseMain_nil, Nat.zero_add, List.nil_append] at hmain
  rw [hP, hmain, ← isHeaderLine_trimRightSpace isLatin isUpper hsp line]
  by_cases hh : IsHeaderLine isLatin isUpper (trimRightSpace line)
  · rw [if_pos ((header_test_iff isLatin isUpper _).mpr hh)]
    exact ⟨⟨fun _ => hh, fun _ => rfl⟩, fun hc => absurd hh hc⟩
  · rw [if_neg (fun hc => hh ((header_test_iff isLatin isUpper _).mp hc))]
    refine ⟨⟨fun h => ?_, fun h => absurd h hh⟩, fun _ => ?_⟩
    · split at h <;> simp at h
    · split <;> rfl

/-- C3, at a line of the test `TestHeaders` followed by a blank, with the
ASCII letters as tables: the line meets the header condition and is emitted as
the header of its trimmed form. -/
theorem header_predicate_witness :
    (Parse asciiLatin asciiUpper (bytes "0000 IT STILL WORKS ")
        = .ok [Line.Header (trimRightSpace (bytes "0000 IT STILL WORKS "))] ↔
      IsHeaderLine asciiLatin asciiUpper (bytes "0000 IT STILL WORKS ")) ∧
    Parse asciiLatin asciiUpper (bytes "0000 IT STILL WORKS ")
        = .ok [Line.Header (bytes "0000 IT STILL WORKS")] :=
  ⟨(header_predicate asciiLatin asciiUpper asciiLatin_not_space (bytes "0000 IT STILL WORKS ")
      (by decide) (by decide) (by unfold noBlockDelim; decide)).1, by decide⟩

/-- C4. Stability of plain text: for a source that has no star, backquote,
opening brace, opening bracket or backslash and whose lines, trimmed on the
right, are each empty or a paragraph line, `Parse` returns exactly, in order,
one paragraph of a single plain run for every non-empty trimmed line. -/
theorem plain_text_stability (isLatin isUpper : Nat → Bool) (src : Str)
    (hsrc : ∀ b ∈ src, isInlineByte b = false)
    (hlines : ∀ l ∈ Split src,
      trimRightSpace l = [] ∨ IsParagraphLine isLatin isUpper (trimRightSpace l)) :
    Parse isLatin isUpper src = .ok (plainParagraphs (Split src)) := by
  have h := parseMain_plain isLatin isUpper (Split src) []
    (fun l hl => ⟨fun b hb => hsrc b (mem_of_mem_Split src l hl b hb), hlines l hl⟩)
  unfold Parse
  simpa using h

/-- C4, at the source of the lines `No style.`, an empty line and `1 + 1 = 2`
followed by blanks, with the ASCII letters as tables. -/
theorem plain_text_stability_witness :
    Parse asciiLatin asciiUpper
        (bytes "No style.\n\n1 + 1 = 2  ")
      = .ok (plainParagraphs (Split (bytes "No style.\n\n1 + 1 = 2  "))) ∧
    plainParagraphs (Split (bytes "No style.\n\n1 + 1 = 2  "))
      = [Line.Paragraph [⟨.StyleNone, bytes "No style.", []⟩],
         Line.Paragraph [⟨.StyleNone, bytes "1 + 1 = 2", []⟩]] :=
  ⟨plain_text_stability asciiLatin asciiUpper (bytes "No style.\n\n1 + 1 = 2  ") (by decide)
      (by unfold IsParagraphLine IsHeaderLine noBlockDelim; decide),
   by decide⟩

/-- C5. ASCII escapes: on a non-empty ASCII line in which every star,
backquote, opening brace and opening bracket stands immediately after an
escaping backslash, `ParseStyledText` returns the single plain run holding the
line with its escapes applied; and for each `c` among the seven bytes named by
the specification the line of a backslash and `c` yields the plain run `c`. -/
theorem ascii_escapes :
    (∀ line : Str, line ≠ [] → (∀ b ∈ line, b < 128) → escapedOnly line = true →
      ParseStyledText line = .ok [⟨.StyleNone, unescape line, []⟩]) ∧
    (∀ c ∈ [42, 96, 123, 91, 92, 125, 93],
      ParseStyledText [92, c] = .ok [⟨.StyleNone, [c], []⟩]) :=
  ⟨ParseStyledText_unescape, by decide⟩

/-- C5, at the escape lines of the test `TestParagraphsAndEscapes` (the second
without its multi-byte runes). -/
theorem ascii_escapes_witness :
    ParseStyledText (bytes "\\*escaped\\*\\[text\\]\\\x7bworks\\\x7d")
      = .ok [⟨.StyleNone, unescape (bytes "\\*escaped\\*\\[text\\]\\\x7bworks\\\x7d"), []⟩] ∧
    unescape (bytes "\\*escaped\\*\\[text\\]\\\x7bworks\\\x7d")
      = bytes "*escaped*[text]\x7bworks\x7d" ∧
    ParseStyledText (bytes "\\\\escaped \\ab \\\\ and \\\\character\\")
      = .ok [⟨.StyleNone, unescape (bytes "\\\\escaped \\ab \\\\ and \\\\character\\"), []⟩] ∧
    unescape (bytes "\\\\escaped \\ab \\\\ and \\\\character\\")
      = bytes "\\escaped ab \\ and \\character\\" :=
  ⟨ascii_escapes.1 (bytes "\\*escaped\\*\\[text\\]\\\x7bworks\\\x7d") (by decide) (by decide)
      (by decide),
   by decide,
   ascii_escapes.1 (bytes "\\\\escaped \\ab \\\\ and \\\\character\\") (by decide) (by decide)
      (by decide),
   by decide⟩

/-- C6. Closed styled runs: a text `t` between single stars, double stars or
backquotes, free of the delimiter and with a non-empty trim, is emitted as one
italic, bold or mono run holding the trimmed `t` verbatim, with an empty link.
The trimmed `t` is the white-space trim of `t`: a part of `t` that begins and
ends with a rune that is not white space, with only white-space runes before
and after it in `t`. -/
theorem closed_styled_runs (t : Str) (hne : trimSpace t ≠ []) :
    IsTrimOf t (trimSpace t) ∧
    IsSpace (DecodeRuneInString (trimSpace t)).1 = false ∧
    IsSpace (DecodeLastRuneInString (trimSpace t)).1 = false ∧
    (42 ∉ t → ParseStyledText ([42] ++ t ++ [42])
        = .ok [⟨.StyleItalic, trimSpace t, []⟩]) ∧
    (42 ∉ t → ParseStyledText ([42, 42] ++ t ++ [42, 42])
        = .ok [⟨.StyleBold, trimSpace t, []⟩]) ∧
    (96 ∉ t → ParseStyledText ([96] ++ t ++ [96])
        = .ok [⟨.StyleMono, trimSpace t, []⟩]) :=
  ⟨trimSpace_isTrimOf t,
   ((trimSpace_isTrimOf t).2.2.resolve_left hne).1,
   ((trimSpace_isTrimOf t).2.2.resolve_left hne).2,
   fun h => italic_closed t h hne, fun h => bold_closed t h hne, fun h => mono_closed t h hne⟩

/-- C6, at the text ` a\b [c] ` (with its blanks, a tab among them): the value
is `a\b [c]`, the inner text without the white space around it and otherwise
verbatim. -/
theorem closed_styled_runs_witness :
    ParseStyledText (bytes "* \ta\\b [c]  *")
      = .ok [⟨.StyleItalic, bytes "a\\b [c]", []⟩] ∧
    ParseStyledText (bytes "** \ta\\b [c]  **")
      = .ok [⟨.StyleBold, bytes "a\\b [c]", []⟩] ∧
    ParseStyledText (bytes "\x60 \ta\\b [c]  \x60")
      = .ok [⟨.StyleMono, bytes "a\\b [c]", []⟩] :=
  ⟨(closed_styled_runs (bytes " \ta\\b [c]  ") (by decide)).2.2.2.1 (by decide),
   (closed_styled_runs (bytes " \ta\\b [c]  ") (by decide)).2.2.2.2.1 (by decide),
   (closed_styled_runs (bytes " \ta\\b [c]  ") (by decide)).2.2.2.2.2 (by decide)⟩

/-- C7, as stated, fails: in `[a\t b]` the part of the trimmed content before
its first space is `a\t`, and the link emitted is `a`. -/
theorem link_before_space_is_trimmed :
    ParseStyledText (bytes "[a\t b]") = .ok [⟨.StyleExternalLink, bytes "b", bytes "a"⟩] ∧
    ¬ (∀ s l r : Str, 93 ∉ s → trimSpace s = l ++ 32 :: r → 32 ∉ l →
        ParseStyledText ([91] ++ s ++ [93]) = .ok [⟨.StyleExternalLink, trimLeftSpace r, l⟩]) := by
  refine ⟨by decide, fun h => ?_⟩
  have h1 := h (bytes "a\t b") (bytes "a\t") (bytes "b") (by decide) (by decide) (by decide)
  revert h1
  decide

/-- C7, amended. For an opening bracket or brace `c` and a content `s` free of
the closing delimiter `c + 2`, with `t` the trim of `s`: an empty `t` emits
nothing; a `t` without a space emits one link with target `t` and an empty
value; and when `t` is `l`, a space, `r` with no space in `l`, one link is
emitted whose target is `l` trimmed on the right and whose value is `r`
trimmed on the left, kept raw.  The style is external for a bracket, internal
for a brace. -/
theorem link_parsing (c : Nat) (hc : c = 91 ∨ c = 123) (s : Str) (hs : c + 2 ∉ s) :
    (trimSpace s = [] → ParseStyledText ([c] ++ s ++ [c + 2]) = .ok []) ∧
    (trimSpace s ≠ [] → 32 ∉ trimSpace s →
      ParseStyledText ([c] ++ s ++ [c + 2]) =
        .ok [⟨if c = 91 then .StyleExternalLink else .StyleInternalLink, [], trimSpace s⟩]) ∧
    (∀ l r : Str, trimSpace s = l ++ 32 :: r → 32 ∉ l →
      ParseStyledText ([c] ++ s ++ [c + 2]) =
        .ok [⟨if c = 91 then .StyleExternalLink else .StyleInternalLink,
          trimLeftSpace r, trimRightSpace l⟩]) := by
  have hmain := link_closed c hc s hs
  refine ⟨fun h0 => ?_, fun hne hsp => ?_, fun l r hlr hl => ?_⟩
  · rw [hmain, h0]
    rfl
  · rw [hmain, IndexRune_none hsp]
    exact congrArg Res.ok (appendIf_pos hne)
  · have hidx : IndexRune (trimSpace s) 32 = some l.length := by
      rw [hlr]; exact IndexRune_first hl
    have hne := trimSpace_before_space s l r hlr
    rw [hmain, hidx]
    simp only [hlr, List.take_left, List.drop_left, trimLeftSpace_cons_space]
    exact congrArg Res.ok (appendIf_pos hne)

/-- C7, amended, at the links of the test `TestLinks` and at an empty link. -/
theorem link_parsing_witness :
    ParseStyledText ([91] ++ bytes "  a.b external    " ++ [91 + 2])
      = .ok [⟨.StyleExternalLink, trimLeftSpace (bytes "external"), trimRightSpace (bytes "a.b")⟩] ∧
    ParseStyledText ([123] ++ bytes " 1.1" ++ [123 + 2])
      = .ok [⟨.StyleInternalLink, [], trimSpace (bytes " 1.1")⟩] ∧
    ParseStyledText ([91] ++ bytes "  " ++ [91 + 2]) = .ok [] :=
  ⟨(link_parsing 91 (Or.inl rfl) (bytes "  a.b external    ") (by decide)).2.2
      (bytes "a.b") (bytes "external") (by decide) (by decide),
   (link_parsing 123 (Or.inr rfl) (bytes " 1.1") (by decide)).2.1 (by decide) (by decide),
   (link_parsing 91 (Or.inl rfl) (bytes "  ") (by decide)).1 (by decide)⟩

/-- C8. An unterminated delimiter does not keep the whole rest of the line: the
inner slice ends one byte (two for bold) before the end of the line, so the
last byte of `ab` (the last two of `abc`) is lost, and an unterminated run of
one byte is dropped. -/
theorem unterminated_run_loses_bytes :
    ParseStyledText (bytes "*ab") = .ok [⟨.StyleItalic, bytes "a", []⟩] ∧
    ParseStyledText (bytes "\x60ab") = .ok [⟨.StyleMono, bytes "a", []⟩] ∧
    ParseStyledText (bytes "**abc") = .ok [⟨.StyleBold, bytes "a", []⟩] ∧
    ParseStyledText (bytes "*a") = .ok [] ∧
    ParseStyledText (bytes "**a") = .panic := by
  decide

/-- C9, as stated, fails: a comment line between two list lines ends the list,
so the source with the comment parses to two lists and the source without it
to one list of two items. -/
theorem comment_splits_list :
    Parse (fun _ => false) (fun _ => false)
        (joinLines ([bytes "- x"] ++ [bytes "# c"] ++ [bytes "- y"]))
      = .ok [Line.List [.mk 1 [⟨.StyleNone, bytes "x", []⟩] []],
             Line.List [.mk 1 [⟨.StyleNone, bytes "y", []⟩] []]] ∧
    Parse (fun _ => false) (fun _ => false) (joinLines ([bytes "- x"] ++ [bytes "- y"]))
      = .ok [Line.List [.mk 1 [⟨.StyleNone, bytes "x", []⟩] [],
                        .mk 1 [⟨.StyleNone, bytes "y", []⟩] []]] ∧
    ¬ (∀ (isLatin isUpper : Nat → Bool) (xs ys : List Str) (c : Str), c.head? = some 35 →
        Parse isLatin isUpper (joinLines (xs ++ [c] ++ ys))
          = Parse isLatin isUpper (joinLines (xs ++ ys))) := by
  refine ⟨by decide, by decide, fun h => ?_⟩
  have h1 := h (fun _ => false) (fun _ => false) [bytes "- x"] [bytes "- y"] (bytes "# c")
    (by decide)
  revert h1
  decide

/-- C9, amended. For lines `xs`, `ys` and a line `c` whose first byte is a
hash, none holding a line feed: the source with lines `xs`, `c`, `ys` parses to
the parse of `xs` followed by the parse of `ys` (a comment line ends the list
or block before it and is itself dropped).  So it parses to the same result as
the source with lines `xs`, `ys` exactly when that source parses to the parse
of `xs` followed by the parse of `ys`, that is when no list or block of it
holds lines of both `xs` and `ys`; this is so whenever `ys` is empty or starts
with a line that is empty or starts with a byte other than dash, space and tab,
and whenever `xs` is empty or ends with such a line. -/
theorem comment_elision (isLatin isUpper : Nat → Bool) (xs ys : List Str) (c : Str)
    (hc : c.head? = some 35) (hnl : ∀ l ∈ xs ++ [c] ++ ys, 10 ∉ l) :
    Parse isLatin isUpper (joinLines (xs ++ [c] ++ ys))
      = concatRes (Parse isLatin isUpper (joinLines xs)) (Parse isLatin isUpper (joinLines ys)) ∧
    (Parse isLatin isUpper (joinLines (xs ++ [c] ++ ys))
        = Parse isLatin isUpper (joinLines (xs ++ ys)) ↔
      Parse isLatin isUpper (joinLines (xs ++ ys))
        = concatRes (Parse isLatin isUpper (joinLines xs))
            (Parse isLatin isUpper (joinLines ys))) ∧
    (atBoundary ys ∨ atBoundary xs.reverse →
      Parse isLatin isUpper (joinLines (xs ++ [c] ++ ys))
        = Parse isLatin isUpper (joinLines (xs ++ ys))) := by
  have hx : ∀ l ∈ xs, 10 ∉ l := fun l hl => hnl l (by simp [hl])
  have hy : ∀ l ∈ ys, 10 ∉ l := fun l hl => hnl l (by simp [hl])
  have hxy : ∀ l ∈ xs ++ ys, 10 ∉ l := fun l hl => by
    rcases List.mem_append.mp hl with h | h
    · exact hx l h
    · exact hy l h
  have h1 : Parse isLatin isUpper (joinLines (xs ++ [c] ++ ys))
      = concatRes (Parse isLatin isUpper (joinLines xs))
          (Parse isLatin isUpper (joinLines ys)) := by
    rw [Parse_joinLines _ _ _ hnl, Parse_joinLines _ _ _ hx, Parse_joinLines _ _ _ hy,
      show xs ++ [c] ++ ys = xs ++ (c :: ys) by simp,
      parseLines_append isLatin isUpper (c :: ys) (atBoundary_comment c ys hc) xs,
      parseLines_comment isLatin isUpper c ys hc]
  refine ⟨h1, ?_, fun h => ?_⟩
  · rw [h1]
    exact ⟨fun h => h.symm, fun h => h.symm⟩
  · rw [h1, Parse_joinLines _ _ _ hxy, Parse_joinLines _ _ _ hx, Parse_joinLines _ _ _ hy]
    rcases h with h | h
    · exact (parseLines_append isLatin isUpper ys h xs).symm
    · exact (parseLines_append_closed isLatin isUpper xs ys h).symm

/-- C9, amended, at a comment between a paragraph and a list, between a header
and an indented block, before a list, between a list and a paragraph, and, by
the criterion, between a list and an indented block. -/
theorem comment_elision_witness :
    Parse asciiLatin asciiUpper (joinLines ([bytes "text"] ++ [bytes "# c"] ++ [bytes "- y"]))
      = Parse asciiLatin asciiUpper (joinLines ([bytes "text"] ++ [bytes "- y"])) ∧
    Parse asciiLatin asciiUpper (joinLines ([bytes "TITLE"] ++ [bytes "# c"] ++ [bytes "  code"]))
      = Parse asciiLatin asciiUpper (joinLines ([bytes "TITLE"] ++ [bytes "  code"])) ∧
    Parse asciiLatin asciiUpper (joinLines ([] ++ [bytes "# c"] ++ [bytes "- x", bytes "-- y"]))
      = Parse asciiLatin asciiUpper (joinLines ([] ++ [bytes "- x", bytes "-- y"])) ∧
    Parse asciiLatin asciiUpper
        (joinLines ([bytes "- x", bytes "-- y"] ++ [bytes "# c"] ++ [bytes "text", bytes "- z"]))
      = Parse asciiLatin asciiUpper
        (joinLines ([bytes "- x", bytes "-- y"] ++ [bytes "text", bytes "- z"])) ∧
    Parse asciiLatin asciiUpper (joinLines ([bytes "- x"] ++ [bytes "# c"] ++ [bytes "  code"]))
      = Parse asciiLatin asciiUpper (joinLines ([bytes "- x"] ++ [bytes "  code"])) :=
  ⟨(comment_elision asciiLatin asciiUpper [bytes "text"] [bytes "- y"] (bytes "# c")
      (by decide) (by decide)).2.2 (Or.inr (Or.inr (by decide))),
   (comment_elision asciiLatin asciiUpper [bytes "TITLE"] [bytes "  code"] (bytes "# c")
      (by decide) (by decide)).2.2 (Or.inr (Or.inr (by decide))),
   (comment_elision asciiLatin asciiUpper [] [bytes "- x", bytes "-- y"] (bytes "# c")
      (by decide) (by decide)).2.2 (Or.inr trivial),
   (comment_elision asciiLatin asciiUpper [bytes "- x", bytes "-- y"]
      [bytes "text", bytes "- z"] (bytes "# c") (by decide) (by decide)).2.2
      (Or.inl (Or.inr (by decide))),
   (comment_elision asciiLatin asciiUpper [bytes "- x"] [bytes "  code"] (bytes "# c")
      (by decide) (by decide)).2.1.mpr (by decide)⟩

/-- C10. Whenever `ParseStyledText` returns, every element of the result with
style none, italic, bold or mono has a non-empty `Value` and an empty `Link`,
and every element with a link style has a non-empty `Link`. -/
theorem styled_text_invariant (line : Str) (r : List StyledText)
    (h : ParseStyledText line = .ok r) : ∀ st ∈ r, GoodStyled st :=
  parseLoop_good _ line 0 [] r (fun _ hx => absurd hx (List.not_mem_nil _)) h

/-- C10, at a line of the test `TestLinks`: both elements of the result
satisfy the invariant. -/
theorem styled_text_invariant_witness :
    ParseStyledText (bytes "this is an \x7bint *[internal link]***\x7d")
      = .ok [⟨.StyleNone, bytes "this is an ", []⟩,
          ⟨.StyleInternalLink, bytes "*[internal link]***", bytes "int"⟩] ∧
    GoodStyled ⟨.StyleNone, bytes "this is an ", []⟩ ∧
    GoodStyled ⟨.StyleInternalLink, bytes "*[internal link]***", bytes "int"⟩ :=
  ⟨by decide,
   styled_text_invariant (bytes "this is an \x7bint *[internal link]***\x7d")
     [⟨.StyleNone, bytes "this is an ", []⟩,
       ⟨.StyleInternalLink, bytes "*[internal link]***", bytes "int"⟩] (by decide)
     ⟨.StyleNone, bytes "this is an ", []⟩ (List.mem_cons_self _ _),
   styled_text_invariant (bytes "this is an \x7bint *[internal link]***\x7d")
     [⟨.StyleNone, bytes "this is an ", []⟩,
       ⟨.StyleInternalLink, bytes "*[internal link]***", bytes "int"⟩] (by decide)
     ⟨.StyleInternalLink, bytes "*[internal link]***", bytes "int"⟩
     (List.mem_cons_of_mem _ (List.mem_cons_self _ _))⟩

/-- C11. The invariant of non-empty lines fails for paragraphs: the paragraph
case appends the inline scan of the line without testing it, so a line whose
inline scan is empty, such as `[]` or four stars, is emitted as a paragraph
without any styled run.  Every emitted line that is not a paragraph has
non-empty content. -/
theorem Parse_emits_empty_paragraph :
    Parse asciiLatin asciiUpper (bytes "[]") = .ok [Line.Paragraph []] ∧
    Parse asciiLatin asciiUpper (bytes "****") = .ok [Line.Paragraph []] ∧
    ¬ nonEmptyContent (Line.Paragraph []) ∧
    (∀ (isLatin isUpper : Nat → Bool) (src : Str) (out : List Line),
      Parse isLatin isUpper src = .ok out → ∀ l ∈ out, nonEmptyContent l ∨ isParagraph l) := by
  refine ⟨by decide, by decide, fun h => h rfl, fun isLatin isUpper src out h => ?_⟩
  exact parseMain_forall isLatin isUpper _ (parseStep_nonEmpty isLatin isUpper) _ _ [] out
    (fun _ hl => absurd hl (List.not_mem_nil _)) h

/-- C12. Indented block: when the first line of the source, trimmed on the
right, is non-empty and starts with a space or a tab `d`, and `n` is the
number of leading bytes `d` of the first line, then `n` is at least 1, and
`Parse` emits first the block of indent `n` whose body is the longest prefix
of the lines of the source, verbatim, in which every line has at least `n`
leading bytes `d` (a prefix that starts with the first line), and then the
result of parsing the lines after the body (it fails when that parse
fails). -/
theorem indented_block (isLatin isUpper : Nat → Bool) (src first : Str) (rest : List Str)
    (d : Nat) (hsplit : Split src = first :: rest) (hd : d = 32 ∨ d = 9)
    (hne : trimRightSpace first ≠ []) (hfirst : (trimRightSpace first).getD 0 0 = d) :
    1 ≤ countPrefix first d ∧
    (first :: rest).takeWhile (fun l => decide (countPrefix first d ≤ countPrefix l d))
      = first :: rest.takeWhile (fun l => decide (countPrefix first d ≤ countPrefix l d)) ∧
    Parse isLatin isUpper src =
      concatRes
        (.ok [Line.Block (countPrefix first d)
          ((first :: rest).takeWhile (fun l => decide (countPrefix first d ≤ countPrefix l d)))])
        (parseLines isLatin isUpper
          ((first :: rest).dropWhile
            (fun l => decide (countPrefix first d ≤ countPrefix l d)))) := by
  have hsp : IsSpace d = true := by rcases hd with h | h <;> subst h <;> decide
  have hcp := countPrefix_trimRightSpace first d hsp (by rcases hd with h | h <;> omega) hne
  have hpos : 1 ≤ countPrefix first d := by
    rw [← hcp, ← hfirst]
    exact countPrefix_pos _ hne
  have htw : (first :: rest).takeWhile (fun l => decide (countPrefix first d ≤ countPrefix l d))
      = first :: rest.takeWhile (fun l => decide (countPrefix first d ≤ countPrefix l d)) := by
    simp [List.takeWhile_cons]
  have hdw : (first :: rest).dropWhile (fun l => decide (countPrefix first d ≤ countPrefix l d))
      = rest.dropWhile (fun l => decide (countPrefix first d ≤ countPrefix l d)) := by
    simp [List.dropWhile_cons]
  refine ⟨hpos, htw, ?_⟩
  unfold Parse parseLines
  rw [hsplit, htw, hdw]
  simp only [List.length_cons]
  rw [parseMain_succ, parseStep_block isLatin isUpper first rest [] d hd hne hfirst]
  simp only [List.nil_append]
  rw [parseMain_fuel isLatin isUpper rest.length _ rest.length
    (rest.dropWhile (fun l => decide (countPrefix first d ≤ countPrefix l d))).length _
    (List.dropWhile_suffix _).length_le (List.dropWhile_suffix _).length_le (le_refl _),
    parseMain_acc]
  rfl

/-- C12, at a source of two indented lines, a less indented line and a
paragraph line. -/
theorem indented_block_witness :
    Parse asciiLatin asciiUpper (bytes "  a \n   b\n c\nd") =
      concatRes
        (.ok [Line.Block 2 [bytes "  a ", bytes "   b"]])
        (parseLines asciiLatin asciiUpper [bytes " c", bytes "d"]) ∧
    parseLines asciiLatin asciiUpper [bytes " c", bytes "d"]
      = .ok [Line.Block 1 [bytes " c"], Line.Paragraph [⟨.StyleNone, bytes "d", []⟩]] :=
  ⟨(indented_block asciiLatin asciiUpper (bytes "  a \n   b\n c\nd") (bytes "  a ")
      [bytes "   b", bytes " c", bytes "d"] 32 (by decide) (Or.inl rfl) (by decide)
      (by decide)).2.2, by decide⟩

/-- C13. The embed claim fails where the inline scan of the alt text fails: on
the line `@x *` the path is `x` and the alt text is the lone star, on which
`ParseStyledText` panics, so `Parse` panics and no embed is emitted.  For
every single line whose first byte is an at sign `Parse` is otherwise as the
claim says, with `r` the right-trimmed line without the at sign, trimmed on
the left: an empty `r` emits nothing; an `r` without a space emits one embed
with path `r` and an empty alt; and when `r` is `p`, a space, `q` with no space
in `p`, the path `p` is not empty and, when the inline scan of the left trim of
`q` returns `a`, one embed is emitted with the path `p`, verbatim, and the
alt `a`.  The embed lines of the test `TestEmbeds` are such lines. -/
theorem Parse_panics_on_embed_alt :
    Parse asciiLatin asciiUpper (bytes "@x *") = .panic ∧
    ParseStyledText (bytes "*") = .panic ∧
    (∀ (isLatin isUpper : Nat → Bool) (line : Str), 10 ∉ line → line.head? = some 64 →
      (trimLeftSpace ((trimRightSpace line).drop 1) = [] →
        Parse isLatin isUpper line = .ok []) ∧
      (trimLeftSpace ((trimRightSpace line).drop 1) ≠ [] →
        32 ∉ trimLeftSpace ((trimRightSpace line).drop 1) →
        Parse isLatin isUpper line
          = .ok [Line.Embed (trimLeftSpace ((trimRightSpace line).drop 1)) []]) ∧
      (∀ p q : Str, trimLeftSpace ((trimRightSpace line).drop 1) = p ++ 32 :: q → 32 ∉ p →
        p ≠ [] ∧
        (∀ a, ParseStyledText (trimLeftSpace q) = .ok a →
          Parse isLatin isUpper line = .ok [Line.Embed p a]) ∧
        (ParseStyledText (trimLeftSpace q) = .panic → Parse isLatin isUpper line = .panic))) ∧
    Parse asciiLatin asciiUpper (bytes "@\\.txt") = .ok [Line.Embed (bytes "\\.txt") []] ∧
    Parse asciiLatin asciiUpper (bytes "@  ./test/.foo \\ **some file**")
      = .ok [Line.Embed (bytes "./test/.foo")
          [⟨.StyleNone, bytes "\\ ", []⟩, ⟨.StyleBold, bytes "some file", []⟩]] ∧
    Parse asciiLatin asciiUpper (bytes "@  ") = .ok [] := by
  refine ⟨by decide, by decide, ?_, by decide, by decide, by decide⟩
  intro isLatin isUpper line hnl hat
  obtain ⟨h1, h2, h3⟩ := Parse_embed_line isLatin isUpper line hnl hat
  refine ⟨h1, h2, fun p q hpq hp => ?_⟩
  obtain ⟨h4, h5⟩ := h3 p q hpq hp
  refine ⟨h4, fun a ha => ?_, fun ha => ?_⟩
  · rw [h5, ha]
  · rw [h5, ha]

/-- C14. Two-level lists: for a source whose lines are list lines with one or
two leading dashes, a non-empty item text and an inline scan that returns, the
first line (right-trimmed, as `Parse` reads it) having one dash, `Parse`
returns exactly one line, the list `topItems` of the lines: one top-level item
per one-dash line, in source order, whose sublist holds the items of the
two-dash lines that follow it before the next one-dash line; every value is
the inline scan of the item text of its own line, top-level items have level
1, and second-level items have level 2 and an empty sublist. -/
theorem two_level_list (isLatin isUpper : Nat → Bool) (src first : Str) (rest : List Str)
    (hsplit : Split src = first :: rest)
    (hone : countPrefix (trimRightSpace first) 45 = 1)
    (hfirst : twoLevelLine (trimRightSpace first) = true)
    (hrest : ∀ l ∈ rest, twoLevelLine l = true) :
    Parse isLatin isUpper src = .ok [Line.List (topItems (trimRightSpace first :: rest))] ∧
    (topItems (trimRightSpace first :: rest)).length
      = ((trimRightSpace first :: rest).filter (fun l => countPrefix l 45 == 1)).length ∧
    (topItems (trimRightSpace first :: rest)).head?
      = some (.mk 1 (scanValue (itemText (trimRightSpace first))) (subItems rest)) ∧
    ∀ x ∈ topItems (trimRightSpace first :: rest),
      x.Level = 1 ∧ ∀ y ∈ x.Sublist, y.Level = 2 ∧ y.Sublist = [] := by
  obtain ⟨_, htext, hv⟩ := twoLevelLine_iff _ hfirst
  refine ⟨?_, length_topItems _, by simp [topItems, hone], topItems_sublists _⟩
  unfold Parse
  dsimp only
  rw [hsplit, List.length_cons, parseMain_succ,
    parseStep_list isLatin isUpper first rest [] _ (by omega) htext hv]
  obtain ⟨st, h1, h2⟩ := listLoop_two_level rest hrest [] (countPrefix (trimRightSpace first) 45)
    (scanValue (itemText (trimRightSpace first))) [] (.root 0)
  simp only [List.nil_append, List.length_nil] at h1 h2
  rw [h1]
  simp only [parseMain_nil, h2, hone, topItems, if_true, List.singleton_append]
  rfl

/-- C14, at a list of two top-level items with two and one sub-items. -/
theorem two_level_list_witness :
    Parse asciiLatin asciiUpper (bytes "- a \n-- *b*\n-- c\n- d\n-- e")
      = .ok [Line.List
          [.mk 1 [⟨.StyleNone, bytes "a", []⟩]
            [.mk 2 [⟨.StyleItalic, bytes "b", []⟩] [], .mk 2 [⟨.StyleNone, bytes "c", []⟩] []],
           .mk 1 [⟨.StyleNone, bytes "d", []⟩] [.mk 2 [⟨.StyleNone, bytes "e", []⟩] []]]] :=
  (two_level_list asciiLatin asciiUpper (bytes "- a \n-- *b*\n-- c\n- d\n-- e") (bytes "- a ")
    [bytes "-- *b*", bytes "-- c", bytes "- d", bytes "-- e"] (by decide) (by decide)
    (by decide) (by decide)).1

/-- C15, the counterexamples: a list whose first line has two dashes has a
top-level item of level 2, and a three-dash line right after a one-dash line
puts an item of level 3 in the sublist of a top-level item. -/
theorem top_level_item_of_level_two :
    Parse asciiLatin asciiUpper (bytes "-- a\n- b")
      = .ok [Line.List [.mk 2 [⟨.StyleNone, bytes "a", []⟩] [],
          .mk 1 [⟨.StyleNone, bytes "b", []⟩] []]] ∧
    Parse asciiLatin asciiUpper (bytes "- a\n--- b")
      = .ok [Line.List [.mk 1 [⟨.StyleNone, bytes "a", []⟩]
          [.mk 3 [⟨.StyleNone, bytes "b", []⟩] []]]] := by
  decide

/-- C15. List levels, as the code has them: every list returned by `Parse` was
read from consecutive lines of the source, a first line and the lines after
it, all starting with a dash, and every item has the dash count of the line
that created it as its level: the levels of all the items of the list are, with
multiplicity, the dash count of the first line and the dash counts of the
other lines that have item text.  The first top-level item carries the dash
count of the first line, every other top-level item has level 1, every item in
the sublist of a top-level item has level at least 2, every item below those
has level at least 3, and every item has level at least 1. -/
theorem list_levels (isLatin isUpper : Nat → Bool) (src : Str) (out : List Line)
    (items : List ListItem) (h : Parse isLatin isUpper src = .ok out)
    (hi : Line.List items ∈ out) :
    ∃ (pre : List Str) (first : Str) (more post : List Str),
      Split src = pre ++ first :: more ++ post ∧
      (∀ l ∈ first :: more, l.head? = some 45) ∧
      List.Perm (levelsOf items) (dashCount first :: (more.filter hasItemText).map dashCount) ∧
      items.head?.map ListItem.Level = some (dashCount first) ∧
      (∀ x ∈ items.tail, x.Level = 1) ∧
      (∀ x ∈ items, ∀ y ∈ x.Sublist, 2 ≤ y.Level ∧
        ∀ z ∈ y.Sublist, ∀ n ∈ z.levels, 3 ≤ n) ∧
      (∀ n ∈ levelsOf items, 1 ≤ n) := by
  unfold Parse at h
  dsimp only at h
  refine parseMain_lists isLatin isUpper (Split src)
    (fun items => ∃ (pre : List Str) (first : Str) (more post : List Str),
      Split src = pre ++ first :: more ++ post ∧
      (∀ l ∈ first :: more, l.head? = some 45) ∧
      List.Perm (levelsOf items) (dashCount first :: (more.filter hasItemText).map dashCount) ∧
      items.head?.map ListItem.Level = some (dashCount first) ∧
      (∀ x ∈ items.tail, x.Level = 1) ∧
      (∀ x ∈ items, ∀ y ∈ x.Sublist, 2 ≤ y.Level ∧
        ∀ z ∈ y.Sublist, ∀ n ∈ z.levels, 3 ≤ n) ∧
      (∀ n ∈ levelsOf items, 1 ≤ n))
    ?_ _ (Split src) [] out [] rfl
    (fun items hi => absurd hi (List.not_mem_nil _)) h items hi
  intro pre first more post items hall hl
  obtain ⟨h1, h2, h3, h4⟩ := hl
  refine ⟨pre, first, more, post, hall, h1, h4, h2, h3.2, ?_, ?_⟩
  · intro x hx y hy
    obtain ⟨hy2, hy3⟩ := (h3.1 x hx).2 y hy
    refine ⟨hy2, fun z hz n hn => ?_⟩
    obtain ⟨hz3, hz0⟩ := hy3 z hz
    rw [levels_eq, hz0, levelsOf_nil, List.mem_singleton] at hn
    rw [hn]
    exact hz3
  · intro n hn
    have hn2 := (h4.mem_iff).mp hn
    rcases List.mem_cons.mp hn2 with rfl | hn2
    · exact dashCount_pos first (h1 first (List.mem_cons_self _ _))
    · obtain ⟨l, hl, rfl⟩ := List.mem_map.mp hn2
      exact dashCount_pos l (h1 l (List.mem_cons_of_mem _ (List.mem_of_mem_filter hl)))

/-- C15, at a list that starts with a two-dash line, has three-dash lines and
a line without item text, between a header and a paragraph: the levels of its
items are the dash counts `2, 1, 3, 2, 3` of its lines with item text, in
another order. -/
theorem list_levels_witness :
    Parse asciiLatin asciiUpper (bytes "T\n-- x\n- a\n--- b\n-\n-- c\n--- d\nend")
      = .ok [Line.Header (bytes "T"),
          Line.List [.mk 2 [⟨.StyleNone, bytes "x", []⟩] [],
            .mk 1 [⟨.StyleNone, bytes "a", []⟩]
              [.mk 3 [⟨.StyleNone, bytes "d", []⟩] [],
               .mk 2 [⟨.StyleNone, bytes "c", []⟩] [.mk 3 [] []]]],
          Line.Paragraph [⟨.StyleNone, bytes "end", []⟩]] ∧
    ∃ (pre : List Str) (first : Str) (more post : List Str),
      Split (bytes "T\n-- x\n- a\n--- b\n-\n-- c\n--- d\nend") = pre ++ first :: more ++ post ∧
      (∀ l ∈ first :: more, l.head? = some 45) ∧
      List.Perm [2, 1, 3, 2, 3] (dashCount first :: (more.filter hasItemText).map dashCount) ∧
      some 2 = some (dashCount first) :=
  ⟨by decide,
   (list_levels asciiLatin asciiUpper (bytes "T\n-- x\n- a\n--- b\n-\n-- c\n--- d\nend")
      [Line.Header (bytes "T"),
        Line.List [.mk 2 [⟨.StyleNone, bytes "x", []⟩] [],
          .mk 1 [⟨.StyleNone, bytes "a", []⟩]
            [.mk 3 [⟨.StyleNone, bytes "d", []⟩] [],
             .mk 2 [⟨.StyleNone, bytes "c", []⟩] [.mk 3 [] []]]],
        Line.Paragraph [⟨.StyleNone, bytes "end", []⟩]]
      [.mk 2 [⟨.StyleNone, bytes "x", []⟩] [],
        .mk 1 [⟨.StyleNone, bytes "a", []⟩]
          [.mk 3 [⟨.StyleNone, bytes "d", []⟩] [],
           .mk 2 [⟨.StyleNone, bytes "c", []⟩] [.mk 3 [] []]]]
      (by decide) (by decide)).imp fun _ h1 => h1.imp fun _ h2 => h2.imp fun _ h3 =>
        h3.imp fun _ h4 => ⟨h4.1, h4.2.1, h4.2.2.1, h4.2.2.2.1⟩⟩

/-- C16. Delimiter before white space is plain text: a non-empty line without
backslash whose first byte is no inline delimiter and in which every star,
backquote, opening brace and opening bracket is the last byte or stands
immediately before an ASCII white space byte is scanned as the single plain
run holding the line. -/
theorem delimiter_before_space_is_plain (line : Str) (hne : line ≠ []) (h92 : 92 ∉ line)
    (hfirst : isInlineDelim (line.getD 0 0) = false) (hd : delimsBeforeSpace line = true) :
    ParseStyledText line = .ok [⟨.StyleNone, line, []⟩] := by
  have htl := textLoop_delims_plain line.length [] line (budget line) (le_refl _) h92 hd
    (by unfold budget; omega)
  simp only [List.nil_append, List.length_nil] at htl
  have hcase : caseText line 0 [] = .ok (line, line.length, [⟨.StyleNone, line, []⟩]) := by
    unfold caseText
    rw [htl]
    simp only
    have hs : slice line 0 line.length = .ok line := by simp [slice]
    rw [hs]
    simp only
    rw [appendIf_pos hne]
    rfl
  unfold ParseStyledText budget
  rw [parseLoop_text (List.length_pos.mpr hne) hfirst, hcase]
  simp only
  exact parseLoop_done _ _ _ _ (le_refl _)

/-- C16, at the line `1 * 1 = { 10 }` of the test `TestParagraphsAndEscapes`. -/
theorem delimiter_before_space_is_plain_witness :
    ParseStyledText (bytes "1 * 1 = \x7b 10 \x7d")
      = .ok [⟨.StyleNone, bytes "1 * 1 = \x7b 10 \x7d", []⟩] :=
  delimiter_before_space_is_plain (bytes "1 * 1 = \x7b 10 \x7d") (by decide) (by decide)
    (by decide) (by decide)

/-- C17. The escape before a multi-byte rune fails when a multi-byte rune
stands before the backslash: the rune slice is indexed with the byte index of
the backslash, which is then larger than its rune index.  On `é\é` and on
`éa\é` the rune removed is the last one, not the backslash; the line gets
shorter than the index `end`, which the loop has moved past the escaped rune,
and the final slice `line[start:end]` of the text is out of range.  After an
ASCII prefix the backslash is the rune removed. -/
theorem escape_after_multibyte_rune_panics :
    ParseStyledText (bytes "é\\é") = .panic ∧
    ParseStyledText (bytes "éa\\é") = .panic ∧
    ParseStyledText (bytes "ab\\é") = .ok [⟨.StyleNone, bytes "abé", []⟩] := by
  decide

/-- C18, the counterexample: after a one-dash line and two two-dash lines, a
three-dash line leaves the sublist of the top-level item with two entries, and
its item goes into the sublist of the second of them. -/
theorem deep_item_not_in_parent_sublist :
    Parse asciiLatin asciiUpper (bytes "- a\n-- b\n-- c\n--- d")
      = .ok [Line.List [.mk 1 [⟨.StyleNone, bytes "a", []⟩]
          [.mk 2 [⟨.StyleNone, bytes "d", []⟩] [],
           .mk 2 [⟨.StyleNone, bytes "c", []⟩] [.mk 3 [] []]]]] := by
  decide

/-- C18. Deep list items attach to the current item: for a one-dash line
followed by `k ≥ 1` two-dash lines and then one line with three or more dashes
(all with item text on which the inline scan returns), `Parse` returns one
list of one top-level item whose sublist has `k` entries, one per two-dash
line; the first `k - 1` of them have an empty sublist, and the sublist of the
last one holds the one item of the deep line. -/
theorem deep_item_attaches_to_current_item (isLatin isUpper : Nat → Bool) (src first : Str)
    (twos : List Str) (deep : Str)
    (hsplit : Split src = first :: (twos ++ [deep]))
    (hone : countPrefix (trimRightSpace first) 45 = 1)
    (hfirst : twoLevelLine (trimRightSpace first) = true)
    (htwos : ∀ l ∈ twos, countPrefix l 45 = 2 ∧ twoLevelLine l = true) (hk : twos ≠ [])
    (hdeep : 3 ≤ countPrefix deep 45) (htext : itemText deep ≠ [])
    (hscan : scanReturns (itemText deep) = true) :
    ∃ kids : List ListItem,
      Parse isLatin isUpper src
        = .ok [Line.List [.mk 1 (scanValue (itemText (trimRightSpace first))) kids]] ∧
      kids.length = twos.length ∧
      kids.map ListItem.Sublist
        = List.replicate (twos.length - 1) [] ++ [[.mk (countPrefix deep 45) [] []]] := by
  obtain ⟨_, htext1, hv1⟩ := twoLevelLine_iff _ hfirst
  obtain ⟨pre, two, rfl⟩ : ∃ pre two, twos = pre ++ [two] :=
    ⟨twos.dropLast, twos.getLast hk, (List.dropLast_append_getLast hk).symm⟩
  have hpre : ∀ l ∈ pre, countPrefix l 45 = 2 := fun l hl =>
    (htwos l (List.mem_append_left _ hl)).1
  refine ⟨List.modify (setValue (scanValue (itemText deep))) 0
    (subItems pre ++ [.mk 2 (scanValue (itemText two)) [.mk (countPrefix deep 45) [] []]]),
    ?_, ?_, ?_⟩
  · unfold Parse
    dsimp only
    rw [hsplit, List.length_cons, parseMain_succ,
      parseStep_list isLatin isUpper first _ [] _ (by omega) htext1 hv1]
    have h1 := listLoop_twos (pre ++ [two]) htwos [] (countPrefix (trimRightSpace first) 45)
      (scanValue (itemText (trimRightSpace first))) [] (.root 0) [deep]
    simp only [List.nil_append, List.length_nil] at h1
    rw [h1]
    have h2 : subItems (pre ++ [two])
        = subItems pre ++ [ListItem.mk 2 (scanValue (itemText two)) []] := by
      rw [subItems_of_twos _ (fun l hl => (htwos l hl).1), subItems_of_twos _ hpre]
      simp
    have h3 : (match pre ++ [two] with
        | [] => ItemPtr.root 0
        | _ :: _ => ItemPtr.sub 0 (0 + (pre ++ [two]).length - 1))
        = ItemPtr.sub 0 (subItems pre).length := by
      rw [subItems_of_twos _ hpre]
      rcases pre with _ | ⟨a, t⟩
      · rfl
      · simp
    rw [h2, h3]
    have hsw := listSwitch_deep [] (countPrefix (trimRightSpace first) 45)
      (scanValue (itemText (trimRightSpace first))) (subItems pre) 2
      (scanValue (itemText two)) (countPrefix deep 45) hdeep
    simp only [List.nil_append, List.length_nil] at hsw
    rw [listLoop_step _ _ deep [] _ (by omega) htext (scan_of_scanReturns _ hscan) hsw]
    simp only [listLoop, modifyItem, parseMain_nil, hone, List.nil_append]
    rfl
  · simp [subItems_of_twos _ hpre]
  · rw [map_Sublist_modify_setValue, List.map_append, map_Sublist_subItems,
      subItems_of_twos _ hpre]
    simp [ListItem.Sublist]

/-- C18, at a list with three two-dash lines and a four-dash line. -/
theorem deep_item_attaches_to_current_item_witness :
    ∃ kids : List ListItem,
      Parse asciiLatin asciiUpper (bytes "- a\n-- b\n-- c\n-- d\n---- e")
        = .ok [Line.List [.mk 1 [⟨.StyleNone, bytes "a", []⟩] kids]] ∧
      kids.length = 3 ∧
      kids.map ListItem.Sublist = [[], [], [.mk 4 [] []]] :=
  deep_item_attaches_to_current_item asciiLatin asciiUpper
    (bytes "- a\n-- b\n-- c\n-- d\n---- e") (bytes "- a")
    [bytes "-- b", bytes "-- c", bytes "-- d"] (bytes "---- e") (by decide) (by decide)
    (by decide) (by decide) (by decide) (by decide) (by decide) (by decide)

/-- C19. A list line does not always keep its own text: on a one-dash line, a
two-dash line and a three-dash line, the item of the three-dash line has an
empty value, and the value of the item of the two-dash line is the inline scan
of the text of the three-dash line; with two two-dash lines, it is the item of
the first of them that gets the text of the three-dash line. -/
theorem list_item_value_overwritten :
    Parse asciiLatin asciiUpper (bytes "- a\n-- b\n--- c")
      = .ok [Line.List [.mk 1 [⟨.StyleNone, bytes "a", []⟩]
          [.mk 2 [⟨.StyleNone, bytes "c", []⟩] [.mk 3 [] []]]]] ∧
    Parse asciiLatin asciiUpper (bytes "- a\n-- b1\n-- b2\n--- c")
      = .ok [Line.List [.mk 1 [⟨.StyleNone, bytes "a", []⟩]
          [.mk 2 [⟨.StyleNone, bytes "c", []⟩] [],
           .mk 2 [⟨.StyleNone, bytes "b2", []⟩] [.mk 3 [] []]]]] := by
  decide

/-- C20. Compositionality at a construct boundary: for sources `a` and `b`
where `b` is empty or starts with a byte other than dash, space and tab,
parsing `a`, a line feed, `b` gives the document of `a` followed by the
document of `b`, and fails exactly when parsing `a` or parsing `b` fails.  In
particular a comment line or an empty line put before any source, or after
it, does not change the result. -/
theorem parse_compositional (isLatin isUpper : Nat → Bool) :
    (∀ a b : Str, notContinuation b →
      Parse isLatin isUpper (a ++ [10] ++ b)
        = concatRes (Parse isLatin isUpper a) (Parse isLatin isUpper b) ∧
      ((∃ r, Parse isLatin isUpper (a ++ [10] ++ b) = .ok r) ↔
        ((∃ x, Parse isLatin isUpper a = .ok x) ∧ (∃ y, Parse isLatin isUpper b = .ok y)))) ∧
    (∀ c s : Str, c.head? = some 35 → 10 ∉ c →
      Parse isLatin isUpper (c ++ [10] ++ s) = Parse isLatin isUpper s) ∧
    (∀ s : Str, Parse isLatin isUpper ([] ++ [10] ++ s) = Parse isLatin isUpper s) ∧
    (∀ c s : Str, c.head? = some 35 → 10 ∉ c →
      Parse isLatin isUpper (s ++ [10] ++ c) = Parse isLatin isUpper s) ∧
    (∀ s : Str, Parse isLatin isUpper (s ++ [10] ++ []) = Parse isLatin isUpper s) := by
  refine ⟨fun a b hb => ⟨Parse_append isLatin isUpper a b hb, ?_⟩, fun c s hc hnl => ?_,
    fun s => ?_, fun c s hc hnl => ?_, fun s => ?_⟩
  · rw [Parse_append isLatin isUpper a b hb]
    exact concatRes_ok_iff _ _
  · have hs : c ++ [10] ++ s = c ++ 10 :: s := by simp
    unfold Parse
    rw [hs, Split_append_newline c s hnl]
    simp only [List.length_cons]
    exact parseMain_comment _ _ _ c _ [] hc
  · unfold Parse
    simp only [List.nil_append, List.singleton_append, Split, if_true, List.length_cons]
    exact parseMain_blank _ _ _ [] _ [] (by decide)
  · have hb : notContinuation c := by
      rcases c with _ | ⟨y, t⟩
      · simp at hc
      · simp only [List.head?_cons, Option.some.injEq] at hc
        subst hc
        exact Or.inr (by simp)
    rw [Parse_append isLatin isUpper s c hb, Parse_comment_line isLatin isUpper c hc hnl,
      concatRes_ok_nil]
  · rw [Parse_append isLatin isUpper s [] (Or.inl rfl), Parse_nil, concatRes_ok_nil]

/-- C20, at a list followed by a paragraph, and at a comment line put before
and after a list. -/
theorem parse_compositional_witness :
    Parse asciiLatin asciiUpper (bytes "- x\n-- y" ++ [10] ++ bytes "text\n- z")
      = concatRes (Parse asciiLatin asciiUpper (bytes "- x\n-- y"))
          (Parse asciiLatin asciiUpper (bytes "text\n- z")) ∧
    Parse asciiLatin asciiUpper (bytes "# c" ++ [10] ++ bytes "- x\n-- y")
      = Parse asciiLatin asciiUpper (bytes "- x\n-- y") ∧
    Parse asciiLatin asciiUpper (bytes "- x\n-- y" ++ [10] ++ bytes "# c")
      = Parse asciiLatin asciiUpper (bytes "- x\n-- y") :=
  ⟨((parse_compositional asciiLatin asciiUpper).1 (bytes "- x\n-- y") (bytes "text\n- z")
      (Or.inr (by decide))).1,
   (parse_compositional asciiLatin asciiUpper).2.1 (bytes "# c") (bytes "- x\n-- y")
      (by decide) (by decide),
   (parse_compositional asciiLatin asciiUpper).2.2.2.1 (bytes "# c") (bytes "- x\n-- y")
      (by decide) (by decide)⟩

end Rivit
